import Mathlib

/-!
The tasklet runner of `ewoms/parallel/tasklets.hh`.

A shallow embedding of `Ewoms::TaskletInterface` and `Ewoms::TaskletRunner`
(with its private classes `BarrierTasklet` and `TerminateThreadTasklet`) as
an interleaving state machine, followed by theorems about it.

Conventions of the embedding.

* A tasklet object is a record; a `std::shared_ptr` to it is the record
  itself. Every dispatched pointer is taken to refer to its own object (as the
  `std::make_shared` calls in `barrier()` and in the destructor do); the field
  `id` is the identity of the object, given by its position in the dispatch
  history. The arrival counter `numWaiting_` of a barrier tasklet is shared by
  the issuing thread and the workers, so it lives in the state, keyed by `id`.
* `int referenceCount_` is an `Int`, and a record describes a tasklet object
  as long as that number is a value of the type `int`
  (`TaskletInterface.isInt`). `-- referenceCount_` at `INT_MIN` is a signed
  overflow (undefined behaviour in C++; compiled code wraps to `INT_MAX`):
  there `dereference` leaves the values of `int`, and what the program does
  from then on is not described. It happens only to a tasklet whose count is
  not positive when a worker takes it; statements about such tasklets say
  how far they go. `unsigned` arithmetic is taken modulo `2 ^ 32`.
* A `std::mutex` is a `Bool` (`true` = locked). `runnerMutex_` is unlocked by
  threads that do not own it; as in the program text, `unlock` just sets it
  to unlocked.
* The body of `run_()` between `taskletQueueMutex_.lock()` and
  `taskletQueueMutex_.unlock()` and the locked part of `dispatch` are atomic
  steps; acquiring `runnerMutex_` is a step of its own and so are calling a
  tasklet's `run()` and returning from it.
* `taskletQueue_.front()` on an empty queue is undefined behaviour: a worker
  that gets there enters `WorkerState.undefinedFront` and is not followed any
  further (the mutexes it holds stay locked).
* `dispatched` and `log` are ghost fields: the history of dispatched tasklets
  (as they were at dispatch) and the history of hand-outs, `run()` calls and
  `run()` returns.
-/

namespace Ewoms

/-- Conversion of a `std::size_t` to `unsigned` (`unsigned numWorkers = threads_.size()`). -/
def toUnsigned (n : Nat) : Nat := n % 2 ^ 32

/-- Conversion of an `unsigned` to `int` (two's complement), as in
`TaskletInterface(/*refCount=*/numWorkers)`. -/
def toInt (n : Nat) : Int :=
  if n % 2 ^ 32 < 2 ^ 31 then ((n % 2 ^ 32 : Nat) : Int) else ((n % 2 ^ 32 : Nat) : Int) - 2 ^ 32

/-- The dynamic type of a tasklet: a tasklet of the user (its `run()` is the
user's code, named by `label`; `endMarker` is what its `isEndMarker()`
returns), a `BarrierTasklet` with its `numWorkers_`, or a
`TerminateThreadTasklet`. -/
inductive TaskletKind where
  | user (label : Nat) (endMarker : Bool)
  | barrier (numWorkers_ : Nat)
  | terminateThread
  deriving DecidableEq, Repr

/-- The class `TaskletInterface`: the reference count and the dynamic type,
with the identity of the object. -/
structure TaskletInterface where
  id : Nat
  referenceCount_ : Int
  kind : TaskletKind
  deriving DecidableEq, Repr

/-- The smallest value of the type `int` (32 bits). -/
def INT_MIN : Int := -2147483648

/-- The largest value of the type `int` (32 bits). -/
def INT_MAX : Int := 2147483647

/-- The reference count of the record is a value of the type `int`. -/
def TaskletInterface.isInt (t : TaskletInterface) : Prop :=
  INT_MIN ≤ t.referenceCount_ ∧ t.referenceCount_ ≤ INT_MAX

/-- The method `dereference()`: `-- referenceCount_`. The result is the value
of the `int` when the count is above `INT_MIN`; at `INT_MIN` the decrement
overflows, and the result is not a value of `int` (`isInt` fails). -/
def TaskletInterface.dereference (t : TaskletInterface) : TaskletInterface :=
  { t with referenceCount_ := t.referenceCount_ - 1 }

/-- The method `referenceCount()`. -/
def TaskletInterface.referenceCount (t : TaskletInterface) : Int := t.referenceCount_

/-- The virtual method `isEndMarker()`: `false` in the base class and in
`BarrierTasklet`, `true` in `TerminateThreadTasklet`. -/
def TaskletInterface.isEndMarker (t : TaskletInterface) : Bool :=
  match t.kind with
  | .user _ e => e
  | .barrier _ => false
  | .terminateThread => true

/-- The constructor `BarrierTasklet(numWorkers)` (without `numWaiting_ = 0`,
which is done on the state). -/
def BarrierTasklet.create (id numWorkers : Nat) : TaskletInterface :=
  { id := id, referenceCount_ := toInt numWorkers, kind := .barrier numWorkers }

/-- The object `std::make_shared<TerminateThreadTasklet>()`: the default
reference count is 1. -/
def TerminateThreadTasklet.create (id : Nat) : TaskletInterface :=
  { id := id, referenceCount_ := 1, kind := .terminateThread }

/-- Ghost events. -/
inductive Event where
  | handed (id : Nat)
  | invoked (id : Nat)
  | returned (id : Nat)
  deriving DecidableEq, Repr

/-- Where a worker thread is in `run_()`. -/
inductive WorkerState where
  | parked
  | dequeuing
  | holding (t : TaskletInterface)
  | running (t : TaskletInterface)
  | waiting (t : TaskletInterface)
  | terminated
  | failed
  | undefinedFront
  deriving DecidableEq, Repr

/-- Where the thread that owns the runner is. -/
inductive CallerState where
  | ready
  | barrierDispatched (b : TaskletInterface)
  | inWait (b : TaskletInterface)
  | joining
  | destroyed
  deriving DecidableEq, Repr

/-- The runner (`threads_`, `taskletQueue_`, `taskletQueueMutex_`,
`runnerMutex_`), the arrival counters of the barrier tasklets, the owning
thread, and the ghost history. -/
structure State where
  threads_ : List WorkerState
  taskletQueue_ : List TaskletInterface
  taskletQueueMutex_ : Bool
  runnerMutex_ : Bool
  numWaiting_ : Nat → Nat
  caller : CallerState
  dispatched : List TaskletInterface
  log : List Event

/-- The constructor `TaskletRunner(numWorkers)`: `runnerMutex_` is locked and
the workers start at the top of `run_()`. -/
def initial (numWorkers : Nat) : State :=
  { threads_ := List.replicate numWorkers WorkerState.parked
    taskletQueue_ := []
    taskletQueueMutex_ := false
    runnerMutex_ := true
    numWaiting_ := fun _ => 0
    caller := CallerState.ready
    dispatched := []
    log := [] }

/-- The locked part of `BarrierTasklet::wait()`: `numWaiting_ += 1` and the
test `numWaiting_ >= numWorkers_ + 1`. The flag tells whether the call goes
on to `notify_all()` and returns (`true`) or parks on the condition
variable (`false`). -/
def BarrierTasklet.wait (s : State) (id numWorkers_ : Nat) : State × Bool :=
  let c := (s.numWaiting_ id + 1) % 2 ^ 32
  ({ s with numWaiting_ := Function.update s.numWaiting_ id c },
    decide ((numWorkers_ + 1) % 2 ^ 32 ≤ c))

/-- The predicate `areAllWaiting` of the condition-variable wait. -/
def BarrierTasklet.areAllWaiting (s : State) (id numWorkers_ : Nat) : Bool :=
  decide ((numWorkers_ + 1) % 2 ^ 32 ≤ s.numWaiting_ id)

/-- The call `tasklet->run()` made on the thread that called `dispatch`
(synchronous mode). A barrier tasklet runs `wait()`; if that parks, nobody
is left to wake the thread and the call does not return (`none`). -/
def runInline (s : State) (t : TaskletInterface) : Option State :=
  match t.kind with
  | .barrier m =>
    let r := BarrierTasklet.wait { s with log := s.log ++ [Event.invoked t.id] } t.id m
    if r.2 then some { r.1 with log := r.1.log ++ [Event.returned t.id] } else none
  | _ => some { s with log := s.log ++ [Event.invoked t.id, Event.returned t.id] }

/-- The loop `while (tasklet->referenceCount() > 0) { dereference(); run(); }`
with a bound on the number of iterations; `none` when a `run()` does not
return or the bound is used up. -/
def syncLoop : Nat → State → TaskletInterface → Option (State × TaskletInterface)
  | 0, s, t => if t.referenceCount > 0 then none else some (s, t)
  | fuel + 1, s, t =>
    if t.referenceCount > 0 then
      match runInline s t.dereference with
      | some s1 => syncLoop fuel s1 t.dereference
      | none => none
    else some (s, t)

/-- The method `dispatch(tasklet)`: the state and the tasklet object when the
call returns; `none` when it does not return (it blocks on
`taskletQueueMutex_`, or a `run()` does not return). -/
def TaskletRunner.dispatch (s : State) (t : TaskletInterface) :
    Option (State × TaskletInterface) :=
  let s0 := { s with dispatched := s.dispatched ++ [t] }
  if s.threads_.isEmpty then
    syncLoop t.referenceCount.toNat s0 t
  else if s.taskletQueueMutex_ then none
  else some ({ s0 with taskletQueue_ := s.taskletQueue_ ++ [t], runnerMutex_ := false }, t)

/-- The method `barrier()` up to the call `barrierTasklet->wait()`. -/
def TaskletRunner.barrier (s : State) : Option State :=
  let numWorkers := toUnsigned s.threads_.length
  if numWorkers = 0 then some s
  else
    let b := BarrierTasklet.create s.dispatched.length numWorkers
    match TaskletRunner.dispatch { s with numWaiting_ := Function.update s.numWaiting_ b.id 0 } b with
    | some r => some { r.1 with caller := CallerState.barrierDispatched b }
    | none => none

/-- The destructor up to the joins. -/
def TaskletRunner.destroy (s : State) : Option State :=
  if s.threads_.length > 0 then
    match TaskletRunner.dispatch s (TerminateThreadTasklet.create s.dispatched.length) with
    | some r => some { r.1 with caller := CallerState.joining }
    | none => none
  else some { s with caller := CallerState.destroyed }

/-- The call `runnerMutex_.lock()` at the top of the loop of `run_()`, by
worker `w`. -/
def TaskletRunner.lockRunnerMutex (s : State) (w : Nat) : Option State :=
  if s.threads_[w]? = some WorkerState.parked ∧ s.runnerMutex_ = false then
    some { s with threads_ := s.threads_.set w WorkerState.dequeuing, runnerMutex_ := true }
  else none

/-- The part of `run_()` from `taskletQueueMutex_.lock()` to
`taskletQueueMutex_.unlock()` (or to the `throw`, or the `return`), by
worker `w`. -/
def TaskletRunner.dequeue (s : State) (w : Nat) : Option State :=
  if s.threads_[w]? = some WorkerState.dequeuing ∧ s.taskletQueueMutex_ = false then
    match s.taskletQueue_ with
    | [] =>
      some { s with threads_ := s.threads_.set w WorkerState.undefinedFront,
                    taskletQueueMutex_ := true }
    | t :: rest =>
      if t.isEndMarker then
        if (t :: rest).length > 1 then
          some { s with threads_ := s.threads_.set w WorkerState.failed,
                        taskletQueueMutex_ := true }
        else
          some { s with threads_ := s.threads_.set w WorkerState.terminated,
                        runnerMutex_ := false }
      else
        let t1 := t.dereference
        let q := if t1.referenceCount = 0 then rest else t1 :: rest
        some { s with threads_ := s.threads_.set w (WorkerState.holding t1),
                      taskletQueue_ := q,
                      runnerMutex_ := if q.isEmpty then s.runnerMutex_ else false,
                      log := s.log ++ [Event.handed t.id] }
  else none

/-- The call `tasklet->run()` at the end of the loop body, by worker `w`. -/
def TaskletRunner.invoke (s : State) (w : Nat) : Option State :=
  match s.threads_[w]? with
  | some (WorkerState.holding t) =>
    some { s with threads_ := s.threads_.set w (WorkerState.running t),
                  log := s.log ++ [Event.invoked t.id] }
  | _ => none

/-- The body of `run()` on worker `w`: the code of the user returns, or the
barrier tasklet goes through the locked part of `wait()`. -/
def TaskletRunner.finish (s : State) (w : Nat) : Option State :=
  match s.threads_[w]? with
  | some (WorkerState.running t) =>
    match t.kind with
    | .barrier m =>
      let r := BarrierTasklet.wait s t.id m
      if r.2 then
        some { r.1 with threads_ := s.threads_.set w WorkerState.parked,
                        log := s.log ++ [Event.returned t.id] }
      else some { r.1 with threads_ := s.threads_.set w (WorkerState.waiting t) }
    | _ =>
      some { s with threads_ := s.threads_.set w WorkerState.parked,
                    log := s.log ++ [Event.returned t.id] }
  | _ => none

/-- The condition-variable wait of worker `w` returns. -/
def TaskletRunner.wake (s : State) (w : Nat) : Option State :=
  match s.threads_[w]? with
  | some (WorkerState.waiting t) =>
    match t.kind with
    | .barrier m =>
      if BarrierTasklet.areAllWaiting s t.id m then
        some { s with threads_ := s.threads_.set w WorkerState.parked,
                      log := s.log ++ [Event.returned t.id] }
      else none
    | _ => none
  | _ => none

/-- The call `barrierTasklet->wait()` of `barrier()`, up to parking. -/
def TaskletRunner.barrierWait (s : State) : Option State :=
  match s.caller with
  | CallerState.barrierDispatched b =>
    match b.kind with
    | .barrier m =>
      let r := BarrierTasklet.wait s b.id m
      some { r.1 with caller := if r.2 then CallerState.ready else CallerState.inWait b }
    | _ => none
  | _ => none

/-- The condition-variable wait of the thread in `barrier()` returns. -/
def TaskletRunner.barrierWake (s : State) : Option State :=
  match s.caller with
  | CallerState.inWait b =>
    match b.kind with
    | .barrier m =>
      if BarrierTasklet.areAllWaiting s b.id m then some { s with caller := CallerState.ready }
      else none
    | _ => none
  | _ => none

/-- The joins of the destructor return once every worker has returned from
`run_()`. -/
def TaskletRunner.join (s : State) : Option State :=
  if s.caller = CallerState.joining ∧ s.threads_.all (fun x => decide (x = WorkerState.terminated)) then
    some { s with caller := CallerState.destroyed }
  else none

/-- The atomic steps of the threads. -/
inductive Action where
  | dispatch (refCount : Int) (label : Nat) (endMarker : Bool)
  | barrier
  | barrierWait
  | barrierWake
  | destroy
  | join
  | lockRunnerMutex (w : Nat)
  | dequeue (w : Nat)
  | invoke (w : Nat)
  | finish (w : Nat)
  | wake (w : Nat)
  deriving DecidableEq, Repr

/-- One step of the system; `none` when the step is not enabled. -/
def step (s : State) : Action → Option State
  | Action.dispatch r l e =>
    if s.caller = CallerState.ready then
      (TaskletRunner.dispatch s
        { id := s.dispatched.length, referenceCount_ := r, kind := TaskletKind.user l e }).map Prod.fst
    else none
  | Action.barrier => if s.caller = CallerState.ready then TaskletRunner.barrier s else none
  | Action.barrierWait => TaskletRunner.barrierWait s
  | Action.barrierWake => TaskletRunner.barrierWake s
  | Action.destroy => if s.caller = CallerState.ready then TaskletRunner.destroy s else none
  | Action.join => TaskletRunner.join s
  | Action.lockRunnerMutex w => TaskletRunner.lockRunnerMutex s w
  | Action.dequeue w => TaskletRunner.dequeue s w
  | Action.invoke w => TaskletRunner.invoke s w
  | Action.finish w => TaskletRunner.finish s w
  | Action.wake w => TaskletRunner.wake s w

/-- A run of the system along a list of steps. -/
def runActions (s : State) : List Action → Option State
  | [] => some s
  | a :: as =>
    match step s a with
    | some s1 => runActions s1 as
    | none => none

/-- The states a runner with `n` workers can get into. -/
inductive Reachable (n : Nat) : State → Prop where
  | init : Reachable n (initial n)
  | step {s s1 : State} (a : Action) : Reachable n s → step s a = some s1 → Reachable n s1

/-- The tasklet a worker has taken from the queue and whose `run()` it has
not yet returned from. -/
def WorkerState.held : WorkerState → Option TaskletInterface
  | WorkerState.holding t => some t
  | WorkerState.running t => some t
  | WorkerState.waiting t => some t
  | _ => none

/-- The worker has taken tasklet `j` and not yet called its `run()`. -/
def WorkerState.isHolding (j : Nat) : WorkerState → Bool
  | WorkerState.holding t => decide (t.id = j)
  | _ => false

/-- The worker is inside `run()` of tasklet `j` (not parked in `wait()`). -/
def WorkerState.isRunning (j : Nat) : WorkerState → Bool
  | WorkerState.running t => decide (t.id = j)
  | _ => false

/-- The worker is parked in `wait()` of tasklet `j`. -/
def WorkerState.isWaiting (j : Nat) : WorkerState → Bool
  | WorkerState.waiting t => decide (t.id = j)
  | _ => false

/-- The identity in a hand-out event. -/
def Event.handedId : Event → Option Nat
  | Event.handed j => some j
  | _ => none

/-- The identity in a `run()` call event. -/
def Event.invokedId : Event → Option Nat
  | Event.invoked j => some j
  | _ => none

/-- How often tasklet `j` was handed to a worker. -/
def State.handed (s : State) (j : Nat) : Nat := s.log.count (Event.handed j)

/-- How often `run()` of tasklet `j` was called. -/
def State.invoked (s : State) (j : Nat) : Nat := s.log.count (Event.invoked j)

/-- How often `run()` of tasklet `j` returned. -/
def State.returned (s : State) (j : Nat) : Nat := s.log.count (Event.returned j)

/-- The number of workers that have taken tasklet `j` and not yet called `run()`. -/
def State.holders (s : State) (j : Nat) : Nat := s.threads_.countP (WorkerState.isHolding j)

/-- The number of workers inside `run()` of tasklet `j`, not parked. -/
def State.runners (s : State) (j : Nat) : Nat := s.threads_.countP (WorkerState.isRunning j)

/-- The number of workers parked in `wait()` of tasklet `j`. -/
def State.waiters (s : State) (j : Nat) : Nat := s.threads_.countP (WorkerState.isWaiting j)

/-- The number of tasklets popped from the queue so far. -/
def State.numPopped (s : State) : Nat := s.dispatched.length - s.taskletQueue_.length

/-- The invariant of the queue, the workers and the history in asynchronous
mode. -/
structure Inv (n : Nat) (s : State) : Prop where
  len : s.threads_.length = n
  ids : s.dispatched.map TaskletInterface.id = List.range s.dispatched.length
  qlen : s.taskletQueue_.length ≤ s.dispatched.length
  qids : s.taskletQueue_.map TaskletInterface.id =
    List.range' s.numPopped s.taskletQueue_.length
  qkind : ∀ t ∈ s.taskletQueue_, ∀ d ∈ s.dispatched, d.id = t.id → d.kind = t.kind
  hkind : ∀ x ∈ s.threads_, ∀ t, x.held = some t →
    ∀ d ∈ s.dispatched, d.id = t.id → d.kind = t.kind
  k1 : ∀ j, s.handed j = s.invoked j + s.holders j
  k2 : ∀ j, s.invoked j = s.returned j + s.runners j + s.waiters j
  k3 : ∀ t ∈ s.taskletQueue_, ∀ d ∈ s.dispatched, d.id = t.id →
    (s.handed t.id : Int) = d.referenceCount_ - t.referenceCount_
  k3p : ∀ d ∈ s.dispatched, d.id < s.numPopped → (s.handed d.id : Int) = d.referenceCount_
  k4 : ∀ j, s.handed j ≠ 0 → j < s.dispatched.length ∧ j ≤ s.numPopped
  k6 : ∀ t ∈ s.taskletQueue_, ∀ d ∈ s.dispatched, d.id = t.id →
    1 ≤ d.referenceCount_ → 1 ≤ t.referenceCount_
  fifo : (s.log.filterMap Event.handedId).Pairwise (fun i j => i ≤ j)
  term : WorkerState.terminated ∈ s.threads_ →
    ∃ m rest, s.taskletQueue_ = m :: rest ∧ m.isEndMarker = true

/-- The arrival at barrier `j` that the thread in `barrier()` still owes. -/
def State.pending (s : State) (j : Nat) : Nat :=
  match s.caller with
  | CallerState.barrierDispatched b => if b.id = j then 1 else 0
  | _ => 0

/-- The invariant of the barrier tasklets. -/
structure BarrierInv (n : Nat) (s : State) : Prop where
  bk : ∀ d ∈ s.dispatched, ∀ m, d.kind = TaskletKind.barrier m →
    m = n ∧ d.referenceCount_ = (n : Int)
  cb : ∀ b, (s.caller = CallerState.barrierDispatched b ∨ s.caller = CallerState.inWait b) →
    b ∈ s.dispatched ∧ b.kind = TaskletKind.barrier n ∧ b.id + 1 = s.dispatched.length
  bstar : ∀ d ∈ s.dispatched, ∀ m, d.kind = TaskletKind.barrier m →
    s.numWaiting_ d.id + s.pending d.id = s.returned d.id + s.waiters d.id + 1
  b4 : ∀ d ∈ s.dispatched, ∀ m, d.kind = TaskletKind.barrier m →
    s.returned d.id ≠ 0 → n + 1 ≤ s.numWaiting_ d.id
  rel : ∀ d ∈ s.dispatched, ∀ m, d.kind = TaskletKind.barrier m →
    n + 1 ≤ s.numWaiting_ d.id ∨ s.caller = CallerState.barrierDispatched d ∨
      s.caller = CallerState.inWait d
  c1 : ∀ d ∈ s.dispatched, ∀ m, d.kind = TaskletKind.barrier m →
    n + 1 ≤ s.numWaiting_ d.id → ∀ x ∈ s.threads_, ∀ t, x.held = some t → d.id ≤ t.id
  pw : (s.log.filterMap Event.invokedId).Pairwise
    (fun i j => ∀ d ∈ s.dispatched, ∀ m, d.kind = TaskletKind.barrier m →
      ¬ (j < d.id ∧ d.id < i))

/-- The invariant of the shutdown marker of the destructor. -/
structure ShutdownInv (s : State) : Prop where
  tm : ∀ d ∈ s.dispatched, d.kind = TaskletKind.terminateThread →
    d.id + 1 = s.dispatched.length ∧
      (s.caller = CallerState.joining ∨ s.caller = CallerState.destroyed)

/-- The events of `k` calls of `run()` of tasklet `j` that return one after
the other. -/
def inlineRuns (k j : Nat) : List Event :=
  (List.replicate k [Event.invoked j, Event.returned j]).flatten

/-- The invariant of a runner without workers. -/
structure SyncInv (s : State) : Prop where
  threads : s.threads_ = []
  queue : s.taskletQueue_ = []
  caller : s.caller = CallerState.ready ∨ s.caller = CallerState.destroyed
  ids : s.dispatched.map TaskletInterface.id = List.range s.dispatched.length
  user : ∀ d ∈ s.dispatched, ∃ l e, d.kind = TaskletKind.user l e
  counts : ∀ d ∈ s.dispatched,
    s.invoked d.id = d.referenceCount_.toNat ∧ s.returned d.id = d.referenceCount_.toNat
  fresh : ∀ j, s.dispatched.length ≤ j → s.invoked j = 0 ∧ s.returned j = 0
  shape : s.log =
    s.dispatched.flatMap (fun d => inlineRuns d.referenceCount_.toNat d.id)

/-- The label of the user code of tasklet `j`, if it is a tasklet of the user. -/
def State.labelOf (s : State) (j : Nat) : Option Nat :=
  match s.dispatched[j]? with
  | some d =>
    match d.kind with
    | TaskletKind.user l _ => some l
    | _ => none
  | none => none

/-- The user code that was run, in the order of the calls of `run()`. -/
def State.userTrace (s : State) : List Nat :=
  (s.log.filterMap Event.invokedId).filterMap s.labelOf

/-- The reference count and dynamic type of the tasklets dispatched when the
caller dispatches the tasklets `ts` (reference count, label, and what
`isEndMarker()` returns) in order on a runner with `n` workers and calls
`barrier()` after each of them. -/
def barrierAfterEach (n : Nat) (ts : List (Int × Nat × Bool)) : List (Int × TaskletKind) :=
  ts.flatMap (fun p =>
    [(p.1, TaskletKind.user p.2.1 p.2.2), ((n : Int), TaskletKind.barrier n)])

/-- The steps of a caller that dispatches the tasklets `ts` in order. -/
def dispatchAll (ts : List (Int × Nat × Bool)) : List Action :=
  ts.map (fun p => Action.dispatch p.1 p.2.1 p.2.2)

/-- The state a runner with `n` workers is in after the steps `as` (the
initial state if one of them is not enabled). -/
def stateAfter (n : Nat) (as : List Action) : State :=
  (runActions (initial n) as).getD (initial n)

/-- Two workers run a tasklet with reference count 2 and meet the caller at a
barrier. -/
def scheduleBarrier : List Action :=
  [Action.dispatch 2 7 false,
   Action.lockRunnerMutex 0, Action.dequeue 0, Action.lockRunnerMutex 1, Action.dequeue 1,
   Action.invoke 0, Action.invoke 1, Action.finish 0, Action.finish 1,
   Action.barrier,
   Action.lockRunnerMutex 0, Action.dequeue 0, Action.invoke 0, Action.finish 0,
   Action.lockRunnerMutex 1, Action.dequeue 1, Action.invoke 1, Action.finish 1,
   Action.barrierWait, Action.wake 0, Action.wake 1]

/-- One worker has taken a tasklet with reference count 1 from the queue and
not yet called its `run()`. -/
def scheduleHandOut : List Action :=
  [Action.dispatch 1 7 false, Action.lockRunnerMutex 0, Action.dequeue 0]

/-- One worker; the caller dispatches a tasklet with reference count 2 and
label 7, calls `barrier()`, dispatches a tasklet with reference count 1 and
label 8 and calls `barrier()` again. -/
def scheduleTwoBarriers : List Action :=
  [Action.dispatch 2 7 false, Action.barrier,
   Action.lockRunnerMutex 0, Action.dequeue 0, Action.invoke 0, Action.finish 0,
   Action.lockRunnerMutex 0, Action.dequeue 0, Action.invoke 0, Action.finish 0,
   Action.lockRunnerMutex 0, Action.dequeue 0, Action.invoke 0, Action.finish 0,
   Action.barrierWait, Action.wake 0,
   Action.dispatch 1 8 false, Action.barrier,
   Action.lockRunnerMutex 0, Action.dequeue 0, Action.invoke 0, Action.finish 0,
   Action.lockRunnerMutex 0, Action.dequeue 0, Action.invoke 0, Action.finish 0,
   Action.barrierWait, Action.wake 0]

/-- One worker has run a tasklet and is about to look at the queue, which
holds only the shutdown marker of the destructor. -/
def scheduleAtMarker : List Action :=
  [Action.dispatch 1 7 false, Action.destroy,
   Action.lockRunnerMutex 0, Action.dequeue 0, Action.invoke 0, Action.finish 0,
   Action.lockRunnerMutex 0]

/-- The reference count and the dynamic type a tasklet was dispatched with. -/
def TaskletInterface.signature (d : TaskletInterface) : Int × TaskletKind :=
  (d.referenceCount_, d.kind)

/-- The user code run when every tasklet of the user in `l` is run as often
as its reference count says, one tasklet after the other. -/
def kindTrace (l : List (Int × TaskletKind)) : List Nat :=
  l.flatMap (fun p =>
    match p.2 with
    | TaskletKind.user lab _ => List.replicate p.1.toNat lab
    | _ => [])

/-- The user code run when the tasklets `ts` (reference count, label, and
what `isEndMarker()` returns) are run one after the other, each as often as
its reference count says. -/
def expectedTrace (ts : List (Int × Nat × Bool)) : List Nat :=
  ts.flatMap (fun p => List.replicate p.1.toNat p.2.1)

/-- The system can get from `s` to `s1` by a finite number of steps. -/
def Steps (s s1 : State) : Prop := ∃ as, runActions s as = some s1

/-- All `n` workers are parked at the top of their loop and the queue mutex
is free. -/
def Quiet (n : Nat) (s : State) : Prop :=
  s.threads_.length = n ∧ (∀ i, i < n → s.threads_[i]? = some WorkerState.parked) ∧
    s.taskletQueueMutex_ = false

/-- The workers below `w` are parked in `wait()` of barrier `j` and the
others are parked at the top of their loop. -/
def Arrived (n j w : Nat) (s : State) : Prop :=
  s.threads_.length = n ∧
  (∀ i, i < w → ∃ u, s.threads_[i]? = some (WorkerState.waiting u) ∧ u.id = j ∧
    u.kind = TaskletKind.barrier n) ∧
  (∀ i, w ≤ i → i < n → s.threads_[i]? = some WorkerState.parked) ∧
  s.taskletQueueMutex_ = false

/-- The workers below `w` are back at the top of their loop and the others
are parked in `wait()` of barrier `j`. -/
def Woken (n j w : Nat) (s : State) : Prop :=
  s.threads_.length = n ∧
  (∀ i, i < w → s.threads_[i]? = some WorkerState.parked) ∧
  (∀ i, w ≤ i → i < n → ∃ u, s.threads_[i]? = some (WorkerState.waiting u) ∧ u.id = j ∧
    u.kind = TaskletKind.barrier n) ∧
  s.taskletQueueMutex_ = false

/-- The workers below `w` have returned from `run_()`, the others are parked
at the top of their loop, and the queue mutex is free. -/
def Exited (n w : Nat) (s : State) : Prop :=
  s.threads_.length = n ∧
  (∀ i, i < w → s.threads_[i]? = some WorkerState.terminated) ∧
  (∀ i, w ≤ i → i < n → s.threads_[i]? = some WorkerState.parked) ∧
  s.taskletQueueMutex_ = false

/-- Two workers; the destructor has dispatched its marker and worker 0 has
acquired `runnerMutex_`. -/
def scheduleDestroyTwo : List Action :=
  [Action.destroy, Action.lockRunnerMutex 0]

/-- Two workers; the destructor runs and both workers return from `run_()`
one after the other. -/
def scheduleDestroyAll : List Action :=
  [Action.destroy, Action.lockRunnerMutex 0, Action.dequeue 0,
   Action.lockRunnerMutex 1, Action.dequeue 1, Action.join]

/-- Two workers and two tasklets with reference count 1. Worker 0 acquires
`runnerMutex_` after the first dispatch and worker 1 after the second; then
both go through their dequeue step (six steps). Worker 0 runs its tasklet,
acquires `runnerMutex_` again and goes on to look at the queue. -/
def scheduleRace : List Action :=
  [Action.dispatch 1 7 false, Action.lockRunnerMutex 0,
   Action.dispatch 1 8 false, Action.lockRunnerMutex 1,
   Action.dequeue 0, Action.dequeue 1,
   Action.invoke 0, Action.finish 0, Action.lockRunnerMutex 0, Action.dequeue 0]

/-- The gate and the queue of a runner with one worker: the worker has not
evaluated `front()` on an empty queue; if `runnerMutex_` is unlocked the
queue is not empty; if the worker has acquired `runnerMutex_` and has not
gone through its dequeue step yet, the queue is not empty, and it has at
least two entries if `runnerMutex_` is unlocked. -/
def SingleWorkerInv (s : State) : Prop :=
  ∃ x, s.threads_ = [x] ∧ x ≠ WorkerState.undefinedFront ∧
    (s.runnerMutex_ = false → s.taskletQueue_ ≠ []) ∧
    (x = WorkerState.dequeuing →
      s.taskletQueue_ ≠ [] ∧ (s.runnerMutex_ = false → 2 ≤ s.taskletQueue_.length))

/-- One worker has acquired `runnerMutex_`; the queue holds a tasklet that was
dispatched with reference count `INT_MIN`. -/
def scheduleIntMin : List Action :=
  [Action.dispatch (-2147483648) 7 false, Action.lockRunnerMutex 0]

/-! ## Lemmas on lists and counting, the steps, and the invariants -/

theorem countP_set_add {α : Type} (p : α → Bool) :
    ∀ (l : List α) (w : Nat) (x y : α), l[w]? = some x →
      (l.set w y).countP p + (if p x then 1 else 0) = l.countP p + (if p y then 1 else 0) := by
  intro l
  induction l with
  | nil => intro w x y h; simp at h
  | cons a l ih =>
    intro w x y h
    cases w with
    | zero =>
      simp at h
      subst h
      simp [List.countP_cons]
      omega
    | succ w =>
      simp at h
      have := ih w x y h
      simp [List.countP_cons]
      omega

theorem countP_set_same {α : Type} (p : α → Bool) (l : List α) (w : Nat) (x y : α)
    (h : l[w]? = some x) (hxy : p x = p y) : (l.set w y).countP p = l.countP p := by
  have := countP_set_add p l w x y h
  rw [hxy] at this
  omega

theorem Inv.of_eq {n : Nat} {s s1 : State} (h : Inv n s) (h1 : s1.threads_ = s.threads_)
    (h2 : s1.taskletQueue_ = s.taskletQueue_) (h3 : s1.dispatched = s.dispatched)
    (h4 : s1.log = s.log) : Inv n s1 := by
  cases s; cases s1
  simp only at h1 h2 h3 h4
  subst h1 h2 h3 h4
  exact ⟨h.len, h.ids, h.qlen, h.qids, h.qkind, h.hkind, h.k1, h.k2, h.k3, h.k3p, h.k4, h.k6,
    h.fifo, h.term⟩

theorem Inv.initial (n : Nat) : Inv n (initial n) := by
  constructor <;>
    simp [Ewoms.initial, State.handed, State.invoked, State.returned, State.holders,
      State.runners, State.waiters, State.numPopped, List.countP_replicate,
      WorkerState.isHolding, WorkerState.isRunning, WorkerState.isWaiting, WorkerState.held]

theorem Inv.id_lt {n : Nat} {s : State} (h : Inv n s) {d : TaskletInterface}
    (hd : d ∈ s.dispatched) : d.id < s.dispatched.length := by
  have : d.id ∈ s.dispatched.map TaskletInterface.id := List.mem_map_of_mem _ hd
  rw [h.ids] at this
  exact List.mem_range.mp this

theorem Inv.queue_id {n : Nat} {s : State} (h : Inv n s) {t : TaskletInterface}
    (ht : t ∈ s.taskletQueue_) : s.numPopped ≤ t.id ∧ t.id < s.dispatched.length := by
  have : t.id ∈ s.taskletQueue_.map TaskletInterface.id := List.mem_map_of_mem _ ht
  rw [h.qids] at this
  have h1 := List.mem_range'_1.mp this
  have h2 := h.qlen
  simp only [State.numPopped] at h1 ⊢
  omega

theorem Inv.exists_of_lt {n : Nat} {s : State} (h : Inv n s) {j : Nat}
    (hj : j < s.dispatched.length) : ∃ d ∈ s.dispatched, d.id = j := by
  have : j ∈ s.dispatched.map TaskletInterface.id := by
    rw [h.ids]; exact List.mem_range.mpr hj
  obtain ⟨d, hd, hdj⟩ := List.mem_map.mp this
  exact ⟨d, hd, hdj⟩

theorem countP_pos_of_mem {α : Type} (p : α → Bool) (l : List α) (x : α) (hx : x ∈ l)
    (hp : p x = true) : 0 < l.countP p :=
  List.countP_pos_iff.mpr ⟨x, hx, hp⟩

theorem Inv.handed_pos_of_held {n : Nat} {s : State} (h : Inv n s) {x : WorkerState}
    (hx : x ∈ s.threads_) {t : TaskletInterface} (ht : x.held = some t) :
    s.handed t.id ≠ 0 := by
  have h1 := h.k1 t.id
  have h2 := h.k2 t.id
  cases x with
  | holding u =>
    simp [WorkerState.held] at ht; subst ht
    have := countP_pos_of_mem (WorkerState.isHolding u.id) _ _ hx (by simp [WorkerState.isHolding])
    simp only [State.holders] at h1; omega
  | running u =>
    simp [WorkerState.held] at ht; subst ht
    have := countP_pos_of_mem (WorkerState.isRunning u.id) _ _ hx (by simp [WorkerState.isRunning])
    simp only [State.runners] at h2; omega
  | waiting u =>
    simp [WorkerState.held] at ht; subst ht
    have := countP_pos_of_mem (WorkerState.isWaiting u.id) _ _ hx (by simp [WorkerState.isWaiting])
    simp only [State.waiters] at h2; omega
  | parked => simp [WorkerState.held] at ht
  | dequeuing => simp [WorkerState.held] at ht
  | terminated => simp [WorkerState.held] at ht
  | failed => simp [WorkerState.held] at ht
  | undefinedFront => simp [WorkerState.held] at ht

theorem mem_handedIds {l : List Event} {i : Nat} (h : i ∈ l.filterMap Event.handedId) :
    l.count (Event.handed i) ≠ 0 := by
  rw [List.mem_filterMap] at h
  obtain ⟨e, he, hei⟩ := h
  cases e with
  | handed j =>
    simp [Event.handedId] at hei; subst hei
    exact Nat.pos_iff_ne_zero.mp (List.count_pos_iff.mpr he)
  | invoked j => simp [Event.handedId] at hei
  | returned j => simp [Event.handedId] at hei

/-- A worker step that hands out no tasklet and touches neither the queue
nor the history of dispatches. -/
theorem Inv.worker_step {n : Nat} {s : State} (h : Inv n s) (w : Nat) (x y : WorkerState)
    (hw : s.threads_[w]? = some x) (evs : List Event) (s1 : State)
    (h1 : s1.threads_ = s.threads_.set w y)
    (h2 : s1.taskletQueue_ = s.taskletQueue_) (h3 : s1.dispatched = s.dispatched)
    (h4 : s1.log = s.log ++ evs)
    (hev : evs.filterMap Event.handedId = [])
    (hevc : ∀ j, evs.count (Event.handed j) = 0)
    (hy : y ≠ WorkerState.terminated)
    (hheld : ∀ t, y.held = some t → ∃ t0, x.held = some t0 ∧ t0.id = t.id ∧ t0.kind = t.kind)
    (hk1 : ∀ j, evs.count (Event.invoked j) + (if y.isHolding j then 1 else 0)
      = (if x.isHolding j then 1 else 0))
    (hk2 : ∀ j, evs.count (Event.invoked j) + (if x.isRunning j then 1 else 0)
        + (if x.isWaiting j then 1 else 0)
      = evs.count (Event.returned j) + (if y.isRunning j then 1 else 0)
        + (if y.isWaiting j then 1 else 0)) : Inv n s1 := by
  have cH : ∀ j, s1.holders j + (if x.isHolding j then 1 else 0)
      = s.holders j + (if y.isHolding j then 1 else 0) := by
    intro j; simp only [State.holders, h1]; exact countP_set_add _ _ _ _ _ hw
  have cR : ∀ j, s1.runners j + (if x.isRunning j then 1 else 0)
      = s.runners j + (if y.isRunning j then 1 else 0) := by
    intro j; simp only [State.runners, h1]; exact countP_set_add _ _ _ _ _ hw
  have cW : ∀ j, s1.waiters j + (if x.isWaiting j then 1 else 0)
      = s.waiters j + (if y.isWaiting j then 1 else 0) := by
    intro j; simp only [State.waiters, h1]; exact countP_set_add _ _ _ _ _ hw
  have hh : ∀ j, s1.handed j = s.handed j := by
    intro j; simp only [State.handed, h4, List.count_append, hevc]; rfl
  have hi : ∀ j, s1.invoked j = s.invoked j + evs.count (Event.invoked j) := by
    intro j; simp only [State.invoked, h4, List.count_append]
  have hr : ∀ j, s1.returned j = s.returned j + evs.count (Event.returned j) := by
    intro j; simp only [State.returned, h4, List.count_append]
  have hp : s1.numPopped = s.numPopped := by simp only [State.numPopped, h2, h3]
  have hxm : x ∈ s.threads_ := List.getElem?_mem hw
  refine ⟨?_, ?_, ?_, ?_, ?_, ?_, ?_, ?_, ?_, ?_, ?_, ?_, ?_, ?_⟩
  · rw [h1, List.length_set]; exact h.len
  · rw [h3]; exact h.ids
  · rw [h2, h3]; exact h.qlen
  · rw [h2, hp]; exact h.qids
  · rw [h2, h3]; exact h.qkind
  · intro z hz t ht
    rw [h3]
    rw [h1] at hz
    rcases List.mem_or_eq_of_mem_set hz with hz | hz
    · exact h.hkind z hz t ht
    · subst hz
      obtain ⟨t0, ht0, hid, hkd⟩ := hheld t ht
      intro d hd hdt
      rw [← hkd]
      exact h.hkind x hxm t0 ht0 d hd (by rw [hdt, hid])
  · intro j
    have a := h.k1 j; have b := hk1 j; have c := cH j
    rw [hh, hi]; omega
  · intro j
    have a := h.k2 j; have b := hk2 j; have c := cR j; have d := cW j
    rw [hi, hr]; omega
  · rw [h2, h3]; intro t ht d hd hdt; rw [hh]; exact h.k3 t ht d hd hdt
  · rw [h3, hp]; intro d hd hdp; rw [hh]; exact h.k3p d hd hdp
  · intro j; rw [hh, h3, hp]; exact h.k4 j
  · rw [h2, h3]; exact h.k6
  · rw [h4, List.filterMap_append, hev, List.append_nil]; exact h.fifo
  · intro ht
    rw [h2]
    rw [h1] at ht
    rcases List.mem_or_eq_of_mem_set ht with ht | ht
    · exact h.term ht
    · exact absurd ht.symm hy

theorem Inv.handed_zero_of_ge {n : Nat} {s : State} (h : Inv n s) {j : Nat}
    (hj : s.dispatched.length ≤ j) : s.handed j = 0 := by
  by_contra hne
  have := (h.k4 j hne).1
  omega

/-- A tasklet is pushed to the queue. -/
theorem Inv.enqueue {n : Nat} {s : State} (h : Inv n s) (t : TaskletInterface)
    (ht : t.id = s.dispatched.length) (s1 : State)
    (h1 : s1.threads_ = s.threads_)
    (h2 : s1.taskletQueue_ = s.taskletQueue_ ++ [t])
    (h3 : s1.dispatched = s.dispatched ++ [t])
    (h4 : s1.log = s.log) : Inv n s1 := by
  have hh : ∀ j, s1.handed j = s.handed j := by intro j; simp only [State.handed, h4]
  have hi : ∀ j, s1.invoked j = s.invoked j := by intro j; simp only [State.invoked, h4]
  have hr : ∀ j, s1.returned j = s.returned j := by intro j; simp only [State.returned, h4]
  have cH : ∀ j, s1.holders j = s.holders j := by intro j; simp only [State.holders, h1]
  have cR : ∀ j, s1.runners j = s.runners j := by intro j; simp only [State.runners, h1]
  have cW : ∀ j, s1.waiters j = s.waiters j := by intro j; simp only [State.waiters, h1]
  have hql := h.qlen
  have hp : s1.numPopped = s.numPopped := by
    simp only [State.numPopped, h2, h3, List.length_append, List.length_singleton]; omega
  have hnp : s.numPopped + s.taskletQueue_.length = s.dispatched.length := by
    simp only [State.numPopped]; omega
  have hz : s.handed t.id = 0 := h.handed_zero_of_ge (by omega)
  refine ⟨?_, ?_, ?_, ?_, ?_, ?_, ?_, ?_, ?_, ?_, ?_, ?_, ?_, ?_⟩
  · rw [h1]; exact h.len
  · rw [h3, List.map_append, h.ids, List.length_append, List.length_singleton,
      List.range_succ, List.map_singleton, ht]
  · rw [h2, h3]; simp only [List.length_append, List.length_singleton]; omega
  · rw [h2, hp, List.map_append, h.qids, List.length_append, List.length_singleton,
      List.range'_concat, List.map_singleton, ht, Nat.one_mul, hnp]
  · rw [h2, h3]
    intro q hq d hd hdq
    rcases List.mem_append.mp hq with hq | hq <;> rcases List.mem_append.mp hd with hd | hd
    · exact h.qkind q hq d hd hdq
    · have := (h.queue_id hq).2
      rw [List.mem_singleton] at hd; subst hd; omega
    · have := h.id_lt hd
      rw [List.mem_singleton] at hq; subst hq; omega
    · rw [List.mem_singleton] at hq hd; subst hq hd; rfl
  · rw [h1, h3]
    intro x hx u hu d hd hdu
    rcases List.mem_append.mp hd with hd | hd
    · exact h.hkind x hx u hu d hd hdu
    · rw [List.mem_singleton] at hd; subst hd
      have := (h.k4 u.id (h.handed_pos_of_held hx hu)).1
      omega
  · intro j; rw [hh, hi, cH]; exact h.k1 j
  · intro j; rw [hi, hr, cR, cW]; exact h.k2 j
  · rw [h2, h3]
    intro q hq d hd hdq
    rw [hh]
    rcases List.mem_append.mp hq with hq | hq <;> rcases List.mem_append.mp hd with hd | hd
    · exact h.k3 q hq d hd hdq
    · have := (h.queue_id hq).2
      rw [List.mem_singleton] at hd; subst hd; omega
    · have := h.id_lt hd
      rw [List.mem_singleton] at hq; subst hq; omega
    · rw [List.mem_singleton] at hq hd; subst hq hd; rw [hz]; simp
  · rw [h3, hp]
    intro d hd hdp
    rw [hh]
    rcases List.mem_append.mp hd with hd | hd
    · exact h.k3p d hd hdp
    · rw [List.mem_singleton] at hd; subst hd; omega
  · intro j hj
    rw [hh] at hj
    have := h.k4 j hj
    rw [h3, hp, List.length_append, List.length_singleton]; omega
  · rw [h2, h3]
    intro q hq d hd hdq
    rcases List.mem_append.mp hq with hq | hq <;> rcases List.mem_append.mp hd with hd | hd
    · exact h.k6 q hq d hd hdq
    · have := (h.queue_id hq).2
      rw [List.mem_singleton] at hd; subst hd; omega
    · have := h.id_lt hd
      rw [List.mem_singleton] at hq; subst hq; omega
    · rw [List.mem_singleton] at hq hd; subst hq hd; exact id
  · rw [h4]; exact h.fifo
  · intro hterm
    rw [h1] at hterm
    obtain ⟨m, rest, hq, hm⟩ := h.term hterm
    exact ⟨m, rest ++ [t], by rw [h2, hq]; rfl, hm⟩

/-- A worker finds an end marker that is the only entry of the queue and
returns from `run_()`. -/
theorem Inv.terminate {n : Nat} {s : State} (h : Inv n s) (w : Nat)
    (hw : s.threads_[w]? = some WorkerState.dequeuing) (m : TaskletInterface)
    (rest : List TaskletInterface) (hq : s.taskletQueue_ = m :: rest)
    (hm : m.isEndMarker = true) (s1 : State)
    (h1 : s1.threads_ = s.threads_.set w WorkerState.terminated)
    (h2 : s1.taskletQueue_ = s.taskletQueue_) (h3 : s1.dispatched = s.dispatched)
    (h4 : s1.log = s.log) : Inv n s1 := by
  have h0 : Inv n { s1 with threads_ := s.threads_.set w WorkerState.failed } :=
    h.worker_step w WorkerState.dequeuing WorkerState.failed hw [] _ rfl h2 h3
      (by simp [h4]) rfl (by simp) (by simp) (by simp [WorkerState.held])
      (by simp [WorkerState.isHolding])
      (by simp [WorkerState.isRunning, WorkerState.isWaiting])
  have e1 : ∀ j, (s.threads_.set w WorkerState.terminated).countP (WorkerState.isHolding j)
      = (s.threads_.set w WorkerState.failed).countP (WorkerState.isHolding j) := by
    intro j
    rw [countP_set_same _ _ _ _ WorkerState.terminated hw (by simp [WorkerState.isHolding]),
      countP_set_same _ _ _ _ WorkerState.failed hw (by simp [WorkerState.isHolding])]
  have e2 : ∀ j, (s.threads_.set w WorkerState.terminated).countP (WorkerState.isRunning j)
      = (s.threads_.set w WorkerState.failed).countP (WorkerState.isRunning j) := by
    intro j
    rw [countP_set_same _ _ _ _ WorkerState.terminated hw (by simp [WorkerState.isRunning]),
      countP_set_same _ _ _ _ WorkerState.failed hw (by simp [WorkerState.isRunning])]
  have e3 : ∀ j, (s.threads_.set w WorkerState.terminated).countP (WorkerState.isWaiting j)
      = (s.threads_.set w WorkerState.failed).countP (WorkerState.isWaiting j) := by
    intro j
    rw [countP_set_same _ _ _ _ WorkerState.terminated hw (by simp [WorkerState.isWaiting]),
      countP_set_same _ _ _ _ WorkerState.failed hw (by simp [WorkerState.isWaiting])]
  refine ⟨?_, h0.ids, h0.qlen, h0.qids, h0.qkind, ?_, ?_, ?_, h0.k3, h0.k3p, h0.k4, h0.k6,
    h0.fifo, ?_⟩
  · rw [h1, List.length_set]; exact h.len
  · intro z hz t ht
    rw [h3]
    rw [h1] at hz
    rcases List.mem_or_eq_of_mem_set hz with hz | hz
    · exact h.hkind z hz t ht
    · subst hz; simp [WorkerState.held] at ht
  · intro j
    have := h0.k1 j
    simp only [State.handed, State.invoked, State.holders] at this ⊢
    rw [h1, e1]; exact this
  · intro j
    have := h0.k2 j
    simp only [State.returned, State.invoked, State.runners, State.waiters] at this ⊢
    rw [h1, e2, e3]; exact this
  · intro _
    exact ⟨m, rest, by rw [h2, hq], hm⟩

/-- A worker takes the tasklet at the head of the queue. -/
theorem Inv.dequeue {n : Nat} {s : State} (h : Inv n s) (w : Nat)
    (hw : s.threads_[w]? = some WorkerState.dequeuing) (t : TaskletInterface)
    (rest : List TaskletInterface) (hq : s.taskletQueue_ = t :: rest)
    (hm : t.isEndMarker = false) (s1 : State)
    (h1 : s1.threads_ = s.threads_.set w (WorkerState.holding t.dereference))
    (h2 : s1.taskletQueue_ =
      if t.dereference.referenceCount = 0 then rest else t.dereference :: rest)
    (h3 : s1.dispatched = s.dispatched)
    (h4 : s1.log = s.log ++ [Event.handed t.id]) : Inv n s1 := by
  have cH : ∀ j, s1.holders j = s.holders j + (if t.id = j then 1 else 0) := by
    intro j
    have := countP_set_add (WorkerState.isHolding j) _ _ _ (WorkerState.holding t.dereference) hw
    simp only [State.holders, h1]
    simpa [WorkerState.isHolding, TaskletInterface.dereference] using this
  have cR : ∀ j, s1.runners j = s.runners j := by
    intro j; simp only [State.runners, h1]
    exact countP_set_same _ _ _ _ _ hw (by simp [WorkerState.isRunning])
  have cW : ∀ j, s1.waiters j = s.waiters j := by
    intro j; simp only [State.waiters, h1]
    exact countP_set_same _ _ _ _ _ hw (by simp [WorkerState.isWaiting])
  have hh : ∀ j, s1.handed j = s.handed j + (if t.id = j then 1 else 0) := by
    intro j; simp [State.handed, h4, List.count_cons]
  have hi : ∀ j, s1.invoked j = s.invoked j := by
    intro j; simp [State.invoked, h4, List.count_cons]
  have hr : ∀ j, s1.returned j = s.returned j := by
    intro j; simp [State.returned, h4, List.count_cons]
  have htq : t ∈ s.taskletQueue_ := by rw [hq]; exact List.mem_cons_self _ _
  have hrq : ∀ q ∈ rest, q ∈ s.taskletQueue_ := by
    intro q hq1; rw [hq]; exact List.mem_cons_of_mem _ hq1
  have hql := h.qlen
  have hqi := h.qids
  rw [hq] at hql
  rw [hq, List.map_cons, List.length_cons, List.range'_succ, List.cons.injEq] at hqi
  obtain ⟨hid, hrest⟩ := hqi
  simp only [List.length_cons] at hql
  have hnp : s.numPopped + rest.length + 1 = s.dispatched.length := by
    simp only [State.numPopped, hq, List.length_cons]; omega
  have hrid : ∀ q ∈ rest, t.id < q.id := by
    intro q hq1
    have : q.id ∈ rest.map TaskletInterface.id := List.mem_map_of_mem _ hq1
    rw [hrest] at this
    have := List.mem_range'_1.mp this
    omega
  have hfifo : (s1.log.filterMap Event.handedId).Pairwise (fun i j => i ≤ j) := by
    rw [h4, List.filterMap_append]
    simp only [List.filterMap_cons, Event.handedId, List.filterMap_nil]
    rw [List.pairwise_append]
    refine ⟨h.fifo, List.pairwise_singleton _ _, ?_⟩
    intro i hi1 j hj
    rw [List.mem_singleton] at hj; subst hj
    have := (h.k4 i (mem_handedIds hi1)).2
    omega
  have hterm : WorkerState.terminated ∈ s1.threads_ → False := by
    intro ht
    rw [h1] at ht
    rcases List.mem_or_eq_of_mem_set ht with ht | ht
    · obtain ⟨m, r, hq1, hm1⟩ := h.term ht
      rw [hq] at hq1
      simp only [List.cons.injEq] at hq1
      rw [← hq1.1, hm] at hm1
      cases hm1
    · cases ht
  have hhk : ∀ x ∈ s1.threads_, ∀ u, x.held = some u →
      ∀ d ∈ s1.dispatched, d.id = u.id → d.kind = u.kind := by
    intro z hz u hu
    rw [h3]
    rw [h1] at hz
    rcases List.mem_or_eq_of_mem_set hz with hz | hz
    · exact h.hkind z hz u hu
    · subst hz
      simp only [WorkerState.held, Option.some.injEq] at hu
      subst hu
      exact h.qkind t htq
  by_cases hz : t.dereference.referenceCount = 0
  · rw [if_pos hz] at h2
    have hrc : t.referenceCount_ = 1 := by
      simp only [TaskletInterface.referenceCount, TaskletInterface.dereference] at hz; omega
    have hp : s1.numPopped = s.numPopped + 1 := by
      simp only [State.numPopped, h2, h3, hq, List.length_cons]; omega
    refine ⟨?_, ?_, ?_, ?_, ?_, hhk, ?_, ?_, ?_, ?_, ?_, ?_, hfifo, fun ht => (hterm ht).elim⟩
    · rw [h1, List.length_set]; exact h.len
    · rw [h3]; exact h.ids
    · rw [h2, h3]; omega
    · rw [h2, hp]; exact hrest
    · rw [h2, h3]; intro q hq1; exact h.qkind q (hrq q hq1)
    · intro j; rw [hh, hi, cH]; have := h.k1 j; omega
    · intro j; rw [hi, hr, cR, cW]; exact h.k2 j
    · rw [h2, h3]
      intro q hq1 d hd hdq
      have := hrid q hq1
      rw [hh, if_neg (by omega), Nat.add_zero]
      exact h.k3 q (hrq q hq1) d hd hdq
    · rw [h3, hp]
      intro d hd hdp
      rw [hh]
      by_cases hdt : t.id = d.id
      · rw [if_pos hdt]
        have := h.k3 t htq d hd hdt.symm
        rw [← hdt]; push_cast; omega
      · rw [if_neg hdt, Nat.add_zero]
        exact h.k3p d hd (by omega)
    · intro j hj
      rw [hh] at hj
      rw [h3, hp]
      by_cases hjt : t.id = j
      · omega
      · rw [if_neg hjt, Nat.add_zero] at hj
        have := h.k4 j hj; omega
    · rw [h2, h3]; intro q hq1; exact h.k6 q (hrq q hq1)
  · rw [if_neg hz] at h2
    have hp : s1.numPopped = s.numPopped := by
      simp only [State.numPopped, h2, h3, hq, List.length_cons]
    have hmem : ∀ q ∈ s1.taskletQueue_, q = t.dereference ∨ q ∈ rest := by
      intro q hq1; rw [h2] at hq1; exact List.mem_cons.mp hq1
    refine ⟨?_, ?_, ?_, ?_, ?_, hhk, ?_, ?_, ?_, ?_, ?_, ?_, hfifo, fun ht => (hterm ht).elim⟩
    · rw [h1, List.length_set]; exact h.len
    · rw [h3]; exact h.ids
    · rw [h2, h3]; simp only [List.length_cons]; omega
    · rw [h2, hp]
      simp only [List.map_cons, List.length_cons, List.range'_succ, hrest, ← hid]
      rfl
    · rw [h3]
      intro q hq1
      rcases hmem q hq1 with hq1 | hq1
      · subst hq1; exact h.qkind t htq
      · exact h.qkind q (hrq q hq1)
    · intro j; rw [hh, hi, cH]; have := h.k1 j; omega
    · intro j; rw [hi, hr, cR, cW]; exact h.k2 j
    · rw [h3]
      intro q hq1 d hd hdq
      rcases hmem q hq1 with hq1 | hq1
      · subst hq1
        have := h.k3 t htq d hd hdq
        rw [hh]
        simp only [TaskletInterface.dereference, if_true] at this ⊢
        push_cast; omega
      · have := hrid q hq1
        rw [hh, if_neg (by omega), Nat.add_zero]
        exact h.k3 q (hrq q hq1) d hd hdq
    · rw [h3, hp]
      intro d hd hdp
      rw [hh, if_neg (by omega), Nat.add_zero]
      exact h.k3p d hd hdp
    · intro j hj
      rw [hh] at hj
      rw [h3, hp]
      by_cases hjt : t.id = j
      · omega
      · rw [if_neg hjt, Nat.add_zero] at hj
        exact h.k4 j hj
    · rw [h3]
      intro q hq1 d hd hdq hd1
      rcases hmem q hq1 with hq1 | hq1
      · subst hq1
        have := h.k6 t htq d hd hdq hd1
        simp only [TaskletInterface.referenceCount, TaskletInterface.dereference] at hz ⊢
        omega
      · exact h.k6 q (hrq q hq1) d hd hdq hd1

theorem dispatch_async {s : State} (t : TaskletInterface) (hne : s.threads_ ≠ []) :
    TaskletRunner.dispatch s t =
      if s.taskletQueueMutex_ then none
      else some ({ s with dispatched := s.dispatched ++ [t],
                          taskletQueue_ := s.taskletQueue_ ++ [t],
                          runnerMutex_ := false }, t) := by
  simp [TaskletRunner.dispatch, List.isEmpty_iff, hne]

theorem step_dispatch_async {s s1 : State} {r : Int} {l : Nat} {e : Bool}
    (hne : s.threads_ ≠ []) (hs : step s (Action.dispatch r l e) = some s1) :
    s.caller = CallerState.ready ∧ s.taskletQueueMutex_ = false ∧
    s1 = { s with
      dispatched := s.dispatched ++
        [{ id := s.dispatched.length, referenceCount_ := r, kind := TaskletKind.user l e }],
      taskletQueue_ := s.taskletQueue_ ++
        [{ id := s.dispatched.length, referenceCount_ := r, kind := TaskletKind.user l e }],
      runnerMutex_ := false } := by
  simp only [step, dispatch_async _ hne] at hs
  split at hs
  · rename_i hc
    split at hs
    · simp at hs
    · rename_i hm
      simp only [Option.map_some', Option.some.injEq] at hs
      exact ⟨hc, by simpa using hm, hs.symm⟩
  · simp at hs

theorem barrier_async {s : State} (hne : s.threads_ ≠ []) :
    TaskletRunner.barrier s =
      if toUnsigned s.threads_.length = 0 then some s
      else if s.taskletQueueMutex_ then none
      else some { s with
        numWaiting_ := Function.update s.numWaiting_ s.dispatched.length 0,
        dispatched := s.dispatched ++
          [BarrierTasklet.create s.dispatched.length (toUnsigned s.threads_.length)],
        taskletQueue_ := s.taskletQueue_ ++
          [BarrierTasklet.create s.dispatched.length (toUnsigned s.threads_.length)],
        runnerMutex_ := false,
        caller := CallerState.barrierDispatched
          (BarrierTasklet.create s.dispatched.length (toUnsigned s.threads_.length)) } := by
  unfold TaskletRunner.barrier TaskletRunner.dispatch
  by_cases hu : toUnsigned s.threads_.length = 0
  · simp [hu]
  · cases hm : s.taskletQueueMutex_ <;>
      simp [hu, hm, List.isEmpty_iff, hne, BarrierTasklet.create]

theorem destroy_async {s : State} (hne : s.threads_ ≠ []) :
    TaskletRunner.destroy s =
      if s.taskletQueueMutex_ then none
      else some { s with
        dispatched := s.dispatched ++ [TerminateThreadTasklet.create s.dispatched.length],
        taskletQueue_ := s.taskletQueue_ ++ [TerminateThreadTasklet.create s.dispatched.length],
        runnerMutex_ := false,
        caller := CallerState.joining } := by
  have hpos : s.threads_.length > 0 := List.length_pos.mpr hne
  unfold TaskletRunner.destroy TaskletRunner.dispatch
  cases hm : s.taskletQueueMutex_ <;> simp [hm, hpos, List.isEmpty_iff, hne]

theorem step_barrier_async {s s1 : State} (hne : s.threads_ ≠ [])
    (hs : step s Action.barrier = some s1) :
    s.caller = CallerState.ready ∧
    ((toUnsigned s.threads_.length = 0 ∧ s1 = s) ∨
     (toUnsigned s.threads_.length ≠ 0 ∧ s.taskletQueueMutex_ = false ∧
      s1 = { s with
        numWaiting_ := Function.update s.numWaiting_ s.dispatched.length 0,
        dispatched := s.dispatched ++
          [BarrierTasklet.create s.dispatched.length (toUnsigned s.threads_.length)],
        taskletQueue_ := s.taskletQueue_ ++
          [BarrierTasklet.create s.dispatched.length (toUnsigned s.threads_.length)],
        runnerMutex_ := false,
        caller := CallerState.barrierDispatched
          (BarrierTasklet.create s.dispatched.length (toUnsigned s.threads_.length)) })) := by
  simp only [step, barrier_async hne] at hs
  split at hs
  · rename_i hc
    refine ⟨hc, ?_⟩
    split at hs
    · rename_i hu
      simp only [Option.some.injEq] at hs
      exact Or.inl ⟨hu, hs.symm⟩
    · rename_i hu
      split at hs
      · simp at hs
      · rename_i hm
        simp only [Option.some.injEq] at hs
        exact Or.inr ⟨hu, by simpa using hm, hs.symm⟩
  · simp at hs

theorem step_destroy_async {s s1 : State} (hne : s.threads_ ≠ [])
    (hs : step s Action.destroy = some s1) :
    s.caller = CallerState.ready ∧ s.taskletQueueMutex_ = false ∧
    s1 = { s with
      dispatched := s.dispatched ++ [TerminateThreadTasklet.create s.dispatched.length],
      taskletQueue_ := s.taskletQueue_ ++ [TerminateThreadTasklet.create s.dispatched.length],
      runnerMutex_ := false,
      caller := CallerState.joining } := by
  simp only [step, destroy_async hne] at hs
  split at hs
  · rename_i hc
    split at hs
    · simp at hs
    · rename_i hm
      simp only [Option.some.injEq] at hs
      exact ⟨hc, by simpa using hm, hs.symm⟩
  · simp at hs

theorem step_barrierWait {s s1 : State} (hs : step s Action.barrierWait = some s1) :
    ∃ b m, s.caller = CallerState.barrierDispatched b ∧ b.kind = TaskletKind.barrier m ∧
      s1 = { s with
        numWaiting_ := Function.update s.numWaiting_ b.id ((s.numWaiting_ b.id + 1) % 2 ^ 32),
        caller := if (m + 1) % 2 ^ 32 ≤ (s.numWaiting_ b.id + 1) % 2 ^ 32
          then CallerState.ready else CallerState.inWait b } := by
  simp only [step, TaskletRunner.barrierWait] at hs
  cases hc : s.caller with
  | barrierDispatched b =>
    cases hk : b.kind with
    | barrier m =>
      simp only [hc, hk, BarrierTasklet.wait, Option.some.injEq, decide_eq_true_eq] at hs
      exact ⟨b, m, rfl, hk, hs.symm⟩
    | user l e => simp [hc, hk] at hs
    | terminateThread => simp [hc, hk] at hs
  | ready => simp [hc] at hs
  | inWait b => simp [hc] at hs
  | joining => simp [hc] at hs
  | destroyed => simp [hc] at hs

theorem step_barrierWake {s s1 : State} (hs : step s Action.barrierWake = some s1) :
    ∃ b m, s.caller = CallerState.inWait b ∧ b.kind = TaskletKind.barrier m ∧
      (m + 1) % 2 ^ 32 ≤ s.numWaiting_ b.id ∧
      s1 = { s with caller := CallerState.ready } := by
  simp only [step, TaskletRunner.barrierWake] at hs
  cases hc : s.caller with
  | inWait b =>
    cases hk : b.kind with
    | barrier m =>
      simp only [hc, hk, BarrierTasklet.areAllWaiting, decide_eq_true_eq] at hs
      split at hs
      · rename_i hw
        simp only [Option.some.injEq] at hs
        exact ⟨b, m, rfl, hk, hw, hs.symm⟩
      · simp at hs
    | user l e => simp [hc, hk] at hs
    | terminateThread => simp [hc, hk] at hs
  | ready => simp [hc] at hs
  | barrierDispatched b => simp [hc] at hs
  | joining => simp [hc] at hs
  | destroyed => simp [hc] at hs

theorem step_join {s s1 : State} (hs : step s Action.join = some s1) :
    s.caller = CallerState.joining ∧ (∀ x ∈ s.threads_, x = WorkerState.terminated) ∧
      s1 = { s with caller := CallerState.destroyed } := by
  simp only [step, TaskletRunner.join] at hs
  split at hs
  · rename_i hc
    simp only [Option.some.injEq] at hs
    refine ⟨hc.1, ?_, hs.symm⟩
    simpa using hc.2
  · simp at hs

theorem step_lockRunnerMutex {s s1 : State} {w : Nat}
    (hs : step s (Action.lockRunnerMutex w) = some s1) :
    s.threads_[w]? = some WorkerState.parked ∧ s.runnerMutex_ = false ∧
      s1 = { s with threads_ := s.threads_.set w WorkerState.dequeuing, runnerMutex_ := true } := by
  simp only [step, TaskletRunner.lockRunnerMutex] at hs
  split at hs
  · rename_i hc
    simp only [Option.some.injEq] at hs
    exact ⟨hc.1, hc.2, hs.symm⟩
  · simp at hs

theorem step_dequeue {s s1 : State} {w : Nat} (hs : step s (Action.dequeue w) = some s1) :
    s.threads_[w]? = some WorkerState.dequeuing ∧ s.taskletQueueMutex_ = false ∧
    ((s.taskletQueue_ = [] ∧
        s1 = { s with threads_ := s.threads_.set w WorkerState.undefinedFront,
                      taskletQueueMutex_ := true }) ∨
     (∃ t rest, s.taskletQueue_ = t :: rest ∧ t.isEndMarker = true ∧ rest ≠ [] ∧
        s1 = { s with threads_ := s.threads_.set w WorkerState.failed,
                      taskletQueueMutex_ := true }) ∨
     (∃ t, s.taskletQueue_ = [t] ∧ t.isEndMarker = true ∧
        s1 = { s with threads_ := s.threads_.set w WorkerState.terminated,
                      runnerMutex_ := false }) ∨
     (∃ t rest, s.taskletQueue_ = t :: rest ∧ t.isEndMarker = false ∧
        s1 = { s with
          threads_ := s.threads_.set w (WorkerState.holding t.dereference),
          taskletQueue_ :=
            if t.dereference.referenceCount = 0 then rest else t.dereference :: rest,
          runnerMutex_ :=
            if (if t.dereference.referenceCount = 0 then rest
                else t.dereference :: rest).isEmpty then s.runnerMutex_ else false,
          log := s.log ++ [Event.handed t.id] })) := by
  simp only [step, TaskletRunner.dequeue] at hs
  split at hs
  · rename_i hc
    refine ⟨hc.1, hc.2, ?_⟩
    split at hs
    · rename_i hq
      simp only [Option.some.injEq] at hs
      exact Or.inl ⟨hq, hs.symm⟩
    · rename_i t rest hq
      by_cases hm : t.isEndMarker = true
      · simp only [hm, if_true] at hs
        cases rest with
        | nil =>
          simp only [List.length_singleton, gt_iff_lt, Nat.lt_irrefl, if_false,
            Option.some.injEq] at hs
          exact Or.inr (Or.inr (Or.inl ⟨t, hq, hm, hs.symm⟩))
        | cons u rest =>
          simp only [List.length_cons, gt_iff_lt, Nat.lt_add_left_iff_pos, Nat.zero_lt_succ,
            if_true, Option.some.injEq] at hs
          exact Or.inr (Or.inl ⟨t, u :: rest, hq, hm, by simp, hs.symm⟩)
      · rw [if_neg hm] at hs
        simp only [Option.some.injEq] at hs
        exact Or.inr (Or.inr (Or.inr ⟨t, rest, hq, by simpa using hm, hs.symm⟩))
  · simp at hs

theorem step_invoke {s s1 : State} {w : Nat} (hs : step s (Action.invoke w) = some s1) :
    ∃ t, s.threads_[w]? = some (WorkerState.holding t) ∧
      s1 = { s with threads_ := s.threads_.set w (WorkerState.running t),
                    log := s.log ++ [Event.invoked t.id] } := by
  simp only [step, TaskletRunner.invoke] at hs
  split at hs
  · rename_i t hw
    simp only [Option.some.injEq] at hs
    exact ⟨t, hw, hs.symm⟩
  · simp at hs

theorem step_finish {s s1 : State} {w : Nat} (hs : step s (Action.finish w) = some s1) :
    ∃ t, s.threads_[w]? = some (WorkerState.running t) ∧
    (((∀ m, t.kind ≠ TaskletKind.barrier m) ∧
        s1 = { s with threads_ := s.threads_.set w WorkerState.parked,
                      log := s.log ++ [Event.returned t.id] }) ∨
     (∃ m, t.kind = TaskletKind.barrier m ∧
        (m + 1) % 2 ^ 32 ≤ (s.numWaiting_ t.id + 1) % 2 ^ 32 ∧
        s1 = { s with
          numWaiting_ := Function.update s.numWaiting_ t.id ((s.numWaiting_ t.id + 1) % 2 ^ 32),
          threads_ := s.threads_.set w WorkerState.parked,
          log := s.log ++ [Event.returned t.id] }) ∨
     (∃ m, t.kind = TaskletKind.barrier m ∧
        ¬ (m + 1) % 2 ^ 32 ≤ (s.numWaiting_ t.id + 1) % 2 ^ 32 ∧
        s1 = { s with
          numWaiting_ := Function.update s.numWaiting_ t.id ((s.numWaiting_ t.id + 1) % 2 ^ 32),
          threads_ := s.threads_.set w (WorkerState.waiting t) })) := by
  simp only [step, TaskletRunner.finish] at hs
  split at hs
  · rename_i t hw
    refine ⟨t, hw, ?_⟩
    cases hk : t.kind with
    | barrier m =>
      simp only [hk, BarrierTasklet.wait, decide_eq_true_eq] at hs
      by_cases hf : (m + 1) % 2 ^ 32 ≤ (s.numWaiting_ t.id + 1) % 2 ^ 32
      · simp only [hf, if_true, Option.some.injEq] at hs
        exact Or.inr (Or.inl ⟨m, rfl, hf, hs.symm⟩)
      · simp only [hf, if_false, Option.some.injEq] at hs
        exact Or.inr (Or.inr ⟨m, rfl, hf, hs.symm⟩)
    | user l e =>
      simp only [hk, Option.some.injEq] at hs
      exact Or.inl ⟨by simp, hs.symm⟩
    | terminateThread =>
      simp only [hk, Option.some.injEq] at hs
      exact Or.inl ⟨by simp, hs.symm⟩
  · simp at hs

theorem step_wake {s s1 : State} {w : Nat} (hs : step s (Action.wake w) = some s1) :
    ∃ t m, s.threads_[w]? = some (WorkerState.waiting t) ∧ t.kind = TaskletKind.barrier m ∧
      (m + 1) % 2 ^ 32 ≤ s.numWaiting_ t.id ∧
      s1 = { s with threads_ := s.threads_.set w WorkerState.parked,
                    log := s.log ++ [Event.returned t.id] } := by
  simp only [step, TaskletRunner.wake] at hs
  split at hs
  · rename_i t hw
    cases hk : t.kind with
    | barrier m =>
      simp only [hk, BarrierTasklet.areAllWaiting, decide_eq_true_eq] at hs
      split at hs
      · rename_i hf
        simp only [Option.some.injEq] at hs
        exact ⟨t, m, hw, hk, hf, hs.symm⟩
      · simp at hs
    | user l e => simp [hk] at hs
    | terminateThread => simp [hk] at hs
  · simp at hs

theorem Inv.threads_ne_nil {n : Nat} (hn : 1 ≤ n) {s : State} (h : Inv n s) :
    s.threads_ ≠ [] := by
  intro h0; have := h.len; rw [h0] at this; simp at this; omega

theorem Inv.next {n : Nat} (hn : 1 ≤ n) {s s1 : State} {a : Action} (h : Inv n s)
    (hs : step s a = some s1) : Inv n s1 := by
  have hne : s.threads_ ≠ [] := h.threads_ne_nil hn
  cases a with
  | dispatch r l e =>
    obtain ⟨_, _, rfl⟩ := step_dispatch_async hne hs
    exact h.enqueue _ rfl _ rfl rfl rfl rfl
  | barrier =>
    obtain ⟨_, ⟨_, rfl⟩ | ⟨_, _, rfl⟩⟩ := step_barrier_async hne hs
    · exact h
    · exact h.enqueue _ rfl _ rfl rfl rfl rfl
  | barrierWait =>
    obtain ⟨b, m, _, _, rfl⟩ := step_barrierWait hs
    exact h.of_eq rfl rfl rfl rfl
  | barrierWake =>
    obtain ⟨b, m, _, _, _, rfl⟩ := step_barrierWake hs
    exact h.of_eq rfl rfl rfl rfl
  | destroy =>
    obtain ⟨_, _, rfl⟩ := step_destroy_async hne hs
    exact h.enqueue _ rfl _ rfl rfl rfl rfl
  | join =>
    obtain ⟨_, _, rfl⟩ := step_join hs
    exact h.of_eq rfl rfl rfl rfl
  | lockRunnerMutex w =>
    obtain ⟨hw, _, rfl⟩ := step_lockRunnerMutex hs
    exact h.worker_step w _ _ hw [] _ rfl rfl rfl (by simp) rfl (by simp) (by simp)
      (by simp [WorkerState.held]) (by simp [WorkerState.isHolding])
      (by simp [WorkerState.isRunning, WorkerState.isWaiting])
  | dequeue w =>
    obtain ⟨hw, _, ⟨_, rfl⟩ | ⟨t, rest, hq, hm, _, rfl⟩ | ⟨t, hq, hm, rfl⟩ |
      ⟨t, rest, hq, hm, rfl⟩⟩ := step_dequeue hs
    · exact h.worker_step w _ _ hw [] _ rfl rfl rfl (by simp) rfl (by simp) (by simp)
        (by simp [WorkerState.held]) (by simp [WorkerState.isHolding])
        (by simp [WorkerState.isRunning, WorkerState.isWaiting])
    · exact h.worker_step w _ _ hw [] _ rfl rfl rfl (by simp) rfl (by simp) (by simp)
        (by simp [WorkerState.held]) (by simp [WorkerState.isHolding])
        (by simp [WorkerState.isRunning, WorkerState.isWaiting])
    · exact h.terminate w hw t [] hq hm _ rfl rfl rfl rfl
    · exact h.dequeue w hw t rest hq hm _ rfl rfl rfl rfl
  | invoke w =>
    obtain ⟨t, hw, rfl⟩ := step_invoke hs
    exact h.worker_step w _ _ hw [Event.invoked t.id] _ rfl rfl rfl rfl
      (by simp [Event.handedId]) (by simp) (by simp)
      (by simp [WorkerState.held])
      (by intro j; simp [WorkerState.isHolding, List.count_cons])
      (by intro j; simp [WorkerState.isRunning, WorkerState.isWaiting, List.count_cons])
  | finish w =>
    obtain ⟨t, hw, ⟨_, rfl⟩ | ⟨m, _, _, rfl⟩ | ⟨m, _, _, rfl⟩⟩ := step_finish hs
    · exact h.worker_step w _ _ hw [Event.returned t.id] _ rfl rfl rfl rfl
        (by simp [Event.handedId]) (by simp) (by simp)
        (by simp [WorkerState.held])
        (by intro j; simp [WorkerState.isHolding, List.count_cons])
        (by intro j; simp [WorkerState.isRunning, WorkerState.isWaiting, List.count_cons])
    · exact h.worker_step w _ _ hw [Event.returned t.id] _ rfl rfl rfl rfl
        (by simp [Event.handedId]) (by simp) (by simp)
        (by simp [WorkerState.held])
        (by intro j; simp [WorkerState.isHolding, List.count_cons])
        (by intro j; simp [WorkerState.isRunning, WorkerState.isWaiting, List.count_cons])
    · exact h.worker_step w _ _ hw [] _ rfl rfl rfl (by simp) rfl (by simp) (by simp)
        (by simp [WorkerState.held])
        (by intro j; simp [WorkerState.isHolding])
        (by intro j; simp [WorkerState.isRunning, WorkerState.isWaiting])
  | wake w =>
    obtain ⟨t, m, hw, _, _, rfl⟩ := step_wake hs
    exact h.worker_step w _ _ hw [Event.returned t.id] _ rfl rfl rfl rfl
      (by simp [Event.handedId]) (by simp) (by simp)
      (by simp [WorkerState.held])
      (by intro j; simp [WorkerState.isHolding, List.count_cons])
      (by intro j; simp [WorkerState.isRunning, WorkerState.isWaiting, List.count_cons])

theorem Reachable.inv {n : Nat} (hn : 1 ≤ n) {s : State} (hr : Reachable n s) : Inv n s := by
  induction hr with
  | init => exact Inv.initial n
  | step a _ hs ih => exact ih.next hn hs

theorem Inv.eq_of_id {n : Nat} {s : State} (h : Inv n s) {d b : TaskletInterface}
    (hd : d ∈ s.dispatched) (hb : b ∈ s.dispatched) (hid : d.id = b.id) : d = b := by
  have hnd : (s.dispatched.map TaskletInterface.id).Nodup := by
    rw [h.ids]; exact List.nodup_range _
  exact List.inj_on_of_nodup_map hnd hd hb hid

theorem Inv.handed_le {n : Nat} {s : State} (h : Inv n s) {d : TaskletInterface}
    (hd : d ∈ s.dispatched) (hrc : 1 ≤ d.referenceCount_) :
    (s.handed d.id : Int) ≤ d.referenceCount_ := by
  by_cases hlt : d.id < s.numPopped
  · rw [h.k3p d hd hlt]
  · by_cases hz : s.handed d.id = 0
    · rw [hz]; omega
    · have h4 := h.k4 d.id hz
      have hql := h.qlen
      cases hq : s.taskletQueue_ with
      | nil =>
        simp only [State.numPopped, hq, List.length_nil] at h4 hlt
        omega
      | cons t rest =>
        have hqi := h.qids
        rw [hq, List.map_cons, List.length_cons, List.range'_succ, List.cons.injEq] at hqi
        have htq : t ∈ s.taskletQueue_ := by rw [hq]; exact List.mem_cons_self _ _
        have hid : d.id = t.id := by omega
        have h3 := h.k3 t htq d hd hid
        have h6 := h.k6 t htq d hd hid hrc
        rw [hid, h3]; omega

theorem Inv.returned_le {n : Nat} {s : State} (h : Inv n s) (j : Nat) :
    s.returned j + s.runners j + s.waiters j + s.holders j = s.handed j := by
  have := h.k1 j; have := h.k2 j; omega

theorem mem_invokedIds {l : List Event} {i : Nat} (h : i ∈ l.filterMap Event.invokedId) :
    l.count (Event.invoked i) ≠ 0 := by
  rw [List.mem_filterMap] at h
  obtain ⟨e, he, hei⟩ := h
  cases e with
  | invoked j =>
    simp [Event.invokedId] at hei; subst hei
    exact Nat.pos_iff_ne_zero.mp (List.count_pos_iff.mpr he)
  | handed j => simp [Event.invokedId] at hei
  | returned j => simp [Event.invokedId] at hei

theorem Inv.invoked_lt {n : Nat} {s : State} (h : Inv n s) {i : Nat}
    (hi : i ∈ s.log.filterMap Event.invokedId) : i < s.dispatched.length := by
  have h1 := mem_invokedIds hi
  have h2 := h.k1 i
  simp only [State.invoked] at h2
  exact (h.k4 i (by omega)).1

/-- A barrier all of whose parties have arrived has been handed out to and
run by all `n` workers. -/
theorem BarrierInv.released_handed {n : Nat} (hn : 1 ≤ n) {s : State} (hb : BarrierInv n s)
    (h : Inv n s) {d : TaskletInterface} (hd : d ∈ s.dispatched) {m : Nat}
    (hk : d.kind = TaskletKind.barrier m) (hrel : n + 1 ≤ s.numWaiting_ d.id) :
    s.handed d.id = n ∧ s.holders d.id = 0 ∧ s.runners d.id = 0 ∧ s.pending d.id = 0 ∧
      s.numWaiting_ d.id = n + 1 := by
  have h1 := hb.bstar d hd m hk
  have h2 := h.returned_le d.id
  have h3 := (hb.bk d hd m hk).2
  have h4 := h.handed_le hd (by rw [h3]; omega)
  rw [h3] at h4
  omega

theorem BarrierInv.frame {n : Nat} {s : State} (hb : BarrierInv n s) (s1 : State)
    (hd : s1.dispatched = s.dispatched) (hc : s1.caller = s.caller)
    (hnw : s1.numWaiting_ = s.numWaiting_)
    (hrw : ∀ d ∈ s.dispatched, ∀ m, d.kind = TaskletKind.barrier m →
      s1.returned d.id + s1.waiters d.id = s.returned d.id + s.waiters d.id)
    (hret : ∀ d ∈ s.dispatched, ∀ m, d.kind = TaskletKind.barrier m →
      s1.returned d.id ≠ 0 → s.returned d.id ≠ 0 ∨ n + 1 ≤ s.numWaiting_ d.id)
    (hheld : ∀ d ∈ s.dispatched, ∀ m, d.kind = TaskletKind.barrier m →
      n + 1 ≤ s.numWaiting_ d.id → ∀ x ∈ s1.threads_, ∀ t, x.held = some t → d.id ≤ t.id)
    (hpw : (s1.log.filterMap Event.invokedId).Pairwise
      (fun i j => ∀ d ∈ s.dispatched, ∀ m, d.kind = TaskletKind.barrier m →
        ¬ (j < d.id ∧ d.id < i))) : BarrierInv n s1 := by
  have hp : ∀ j, s1.pending j = s.pending j := by intro j; simp only [State.pending, hc]
  refine ⟨?_, ?_, ?_, ?_, ?_, ?_, ?_⟩
  · rw [hd]; exact hb.bk
  · rw [hd, hc]; exact hb.cb
  · rw [hd, hnw]
    intro d hdm m hk
    have := hb.bstar d hdm m hk
    have := hrw d hdm m hk
    rw [hp]; omega
  · rw [hd, hnw]
    intro d hdm m hk hr
    rcases hret d hdm m hk hr with h0 | h0
    · exact hb.b4 d hdm m hk h0
    · exact h0
  · rw [hd, hnw, hc]; exact hb.rel
  · rw [hd, hnw]; exact hheld
  · rw [hd]; exact hpw

/-- A worker changes between two states in which it has no tasklet, the
history staying as it is. -/
theorem BarrierInv.barrier_set_idle {n : Nat} {s : State} (hb : BarrierInv n s) (w : Nat)
    (x y : WorkerState) (hw : s.threads_[w]? = some x) (hx : x.held = none)
    (hy : y.held = none) (s1 : State)
    (h1 : s1.threads_ = s.threads_.set w y) (hd : s1.dispatched = s.dispatched)
    (hc : s1.caller = s.caller) (hnw : s1.numWaiting_ = s.numWaiting_)
    (hl : s1.log = s.log) : BarrierInv n s1 := by
  have hxW : ∀ j, x.isWaiting j = false := by
    intro j; cases x <;> simp_all [WorkerState.held, WorkerState.isWaiting]
  have hyW : ∀ j, y.isWaiting j = false := by
    intro j; cases y <;> simp_all [WorkerState.held, WorkerState.isWaiting]
  have cW : ∀ j, s1.waiters j = s.waiters j := by
    intro j; simp only [State.waiters, h1]
    exact countP_set_same _ _ _ _ _ hw (by rw [hxW, hyW])
  have hr : ∀ j, s1.returned j = s.returned j := by intro j; simp only [State.returned, hl]
  refine hb.frame s1 hd hc hnw ?_ ?_ ?_ ?_
  · intro d _ m _; rw [cW, hr]
  · intro d _ m _ h0; rw [hr] at h0; exact Or.inl h0
  · intro d hdm m hk hrel z hz t ht
    rw [h1] at hz
    rcases List.mem_or_eq_of_mem_set hz with hz | hz
    · exact hb.c1 d hdm m hk hrel z hz t ht
    · subst hz; rw [hy] at ht; cases ht
  · rw [hl]; exact hb.pw

theorem BarrierInv.barrier_dequeue {n : Nat} (hn : 1 ≤ n) {s : State} (hb : BarrierInv n s)
    (h : Inv n s) (w : Nat) (hw : s.threads_[w]? = some WorkerState.dequeuing)
    (t : TaskletInterface) (rest : List TaskletInterface) (hq : s.taskletQueue_ = t :: rest)
    (s1 : State)
    (h1 : s1.threads_ = s.threads_.set w (WorkerState.holding t.dereference))
    (hd : s1.dispatched = s.dispatched) (hc : s1.caller = s.caller)
    (hnw : s1.numWaiting_ = s.numWaiting_)
    (hl : s1.log = s.log ++ [Event.handed t.id]) : BarrierInv n s1 := by
  have cW : ∀ j, s1.waiters j = s.waiters j := by
    intro j; simp only [State.waiters, h1]
    exact countP_set_same _ _ _ _ _ hw (by simp [WorkerState.isWaiting])
  have hr : ∀ j, s1.returned j = s.returned j := by
    intro j; simp [State.returned, hl, List.count_cons]
  have hqi := h.qids
  rw [hq, List.map_cons, List.length_cons, List.range'_succ, List.cons.injEq] at hqi
  refine hb.frame s1 hd hc hnw ?_ ?_ ?_ ?_
  · intro d _ m _; rw [cW, hr]
  · intro d _ m _ h0; rw [hr] at h0; exact Or.inl h0
  · intro d hdm m hk hrel z hz u hu
    rw [h1] at hz
    rcases List.mem_or_eq_of_mem_set hz with hz | hz
    · exact hb.c1 d hdm m hk hrel z hz u hu
    · subst hz
      simp only [WorkerState.held, Option.some.injEq] at hu
      subst hu
      have h5 := (hb.released_handed hn h hdm hk hrel).1
      have h6 := (h.k4 d.id (by omega)).2
      simp only [TaskletInterface.dereference]
      omega
  · rw [hl, List.filterMap_append]
    simp only [List.filterMap_cons, Event.invokedId, List.filterMap_nil, List.append_nil]
    exact hb.pw

theorem BarrierInv.invoke {n : Nat} {s : State} (hb : BarrierInv n s)
    (h : Inv n s) (w : Nat) (t : TaskletInterface)
    (hw : s.threads_[w]? = some (WorkerState.holding t)) (s1 : State)
    (h1 : s1.threads_ = s.threads_.set w (WorkerState.running t))
    (hd : s1.dispatched = s.dispatched) (hc : s1.caller = s.caller)
    (hnw : s1.numWaiting_ = s.numWaiting_)
    (hl : s1.log = s.log ++ [Event.invoked t.id]) : BarrierInv n s1 := by
  have cW : ∀ j, s1.waiters j = s.waiters j := by
    intro j; simp only [State.waiters, h1]
    exact countP_set_same _ _ _ _ _ hw (by simp [WorkerState.isWaiting])
  have hr : ∀ j, s1.returned j = s.returned j := by
    intro j; simp [State.returned, hl, List.count_cons]
  have hxm : WorkerState.holding t ∈ s.threads_ := List.getElem?_mem hw
  refine hb.frame s1 hd hc hnw ?_ ?_ ?_ ?_
  · intro d _ m _; rw [cW, hr]
  · intro d _ m _ h0; rw [hr] at h0; exact Or.inl h0
  · intro d hdm m hk hrel z hz u hu
    rw [h1] at hz
    rcases List.mem_or_eq_of_mem_set hz with hz | hz
    · exact hb.c1 d hdm m hk hrel z hz u hu
    · subst hz
      simp only [WorkerState.held, Option.some.injEq] at hu
      subst hu
      exact hb.c1 d hdm m hk hrel _ hxm t rfl
  · rw [hl, List.filterMap_append]
    simp only [List.filterMap_cons, Event.invokedId, List.filterMap_nil]
    rw [List.pairwise_append]
    refine ⟨hb.pw, List.pairwise_singleton _ _, ?_⟩
    intro i hi j hj d hdm m hk hcon
    rw [List.mem_singleton] at hj; subst hj
    have hil := h.invoked_lt hi
    rcases hb.rel d hdm m hk with hrel | hcal | hcal
    · have := hb.c1 d hdm m hk hrel _ hxm t rfl
      omega
    · have := (hb.cb d (Or.inl hcal)).2.2
      omega
    · have := (hb.cb d (Or.inr hcal)).2.2
      omega

theorem BarrierInv.finish_user {n : Nat} {s : State} (hb : BarrierInv n s)
    (h : Inv n s) (w : Nat) (t : TaskletInterface)
    (hw : s.threads_[w]? = some (WorkerState.running t))
    (hk : ∀ m, t.kind ≠ TaskletKind.barrier m) (s1 : State)
    (h1 : s1.threads_ = s.threads_.set w WorkerState.parked)
    (hd : s1.dispatched = s.dispatched) (hc : s1.caller = s.caller)
    (hnw : s1.numWaiting_ = s.numWaiting_)
    (hl : s1.log = s.log ++ [Event.returned t.id]) : BarrierInv n s1 := by
  have cW : ∀ j, s1.waiters j = s.waiters j := by
    intro j; simp only [State.waiters, h1]
    exact countP_set_same _ _ _ _ _ hw (by simp [WorkerState.isWaiting])
  have hr : ∀ j, s1.returned j = s.returned j + (if t.id = j then 1 else 0) := by
    intro j; simp [State.returned, hl, List.count_cons]
  have hxm : WorkerState.running t ∈ s.threads_ := List.getElem?_mem hw
  have hne : ∀ d ∈ s.dispatched, ∀ m, d.kind = TaskletKind.barrier m → t.id ≠ d.id := by
    intro d hdm m hkd hid
    have := h.hkind _ hxm t rfl d hdm hid.symm
    rw [hkd] at this
    exact hk m this.symm
  refine hb.frame s1 hd hc hnw ?_ ?_ ?_ ?_
  · intro d hdm m hkd; rw [cW, hr, if_neg (hne d hdm m hkd)]; rfl
  · intro d hdm m hkd h0
    rw [hr, if_neg (hne d hdm m hkd)] at h0; exact Or.inl h0
  · intro d hdm m hkd hrel z hz u hu
    rw [h1] at hz
    rcases List.mem_or_eq_of_mem_set hz with hz | hz
    · exact hb.c1 d hdm m hkd hrel z hz u hu
    · subst hz; simp [WorkerState.held] at hu
  · rw [hl, List.filterMap_append]
    simp only [List.filterMap_cons, Event.invokedId, List.filterMap_nil, List.append_nil]
    exact hb.pw

theorem mod_succ_of_lt {n : Nat} (hn : n < 2 ^ 31) : (n + 1) % 2 ^ 32 = n + 1 :=
  Nat.mod_eq_of_lt (by omega)

theorem BarrierInv.wake {n : Nat} (hn2 : n < 2 ^ 31) {s : State} (hb : BarrierInv n s)
    (h : Inv n s) (w : Nat) (t : TaskletInterface) (m : Nat)
    (hw : s.threads_[w]? = some (WorkerState.waiting t))
    (hk : t.kind = TaskletKind.barrier m) (hrel : (m + 1) % 2 ^ 32 ≤ s.numWaiting_ t.id)
    (s1 : State)
    (h1 : s1.threads_ = s.threads_.set w WorkerState.parked)
    (hd : s1.dispatched = s.dispatched) (hc : s1.caller = s.caller)
    (hnw : s1.numWaiting_ = s.numWaiting_)
    (hl : s1.log = s.log ++ [Event.returned t.id]) : BarrierInv n s1 := by
  have cW : ∀ j, s1.waiters j + (if t.id = j then 1 else 0) = s.waiters j := by
    intro j
    have := countP_set_add (WorkerState.isWaiting j) _ _ _ WorkerState.parked hw
    simp only [State.waiters, h1]
    simpa [WorkerState.isWaiting] using this
  have hr : ∀ j, s1.returned j = s.returned j + (if t.id = j then 1 else 0) := by
    intro j; simp [State.returned, hl, List.count_cons]
  have hxm : WorkerState.waiting t ∈ s.threads_ := List.getElem?_mem hw
  refine hb.frame s1 hd hc hnw ?_ ?_ ?_ ?_
  · intro d hdm m1 hkd
    have := cW d.id; have := hr d.id; omega
  · intro d hdm m1 hkd h0
    by_cases hid : t.id = d.id
    · right
      have hkk := h.hkind _ hxm t rfl d hdm hid.symm
      rw [hk] at hkk
      have := (hb.bk d hdm m hkk).1
      subst this
      rw [mod_succ_of_lt hn2] at hrel
      rw [← hid]; exact hrel
    · left; rw [hr, if_neg hid] at h0; exact h0
  · intro d hdm m1 hkd hrel1 z hz u hu
    rw [h1] at hz
    rcases List.mem_or_eq_of_mem_set hz with hz | hz
    · exact hb.c1 d hdm m1 hkd hrel1 z hz u hu
    · subst hz; simp [WorkerState.held] at hu
  · rw [hl, List.filterMap_append]
    simp only [List.filterMap_cons, Event.invokedId, List.filterMap_nil, List.append_nil]
    exact hb.pw

theorem count_held_le (j : Nat) (l : List WorkerState) :
    l.countP (WorkerState.isHolding j) + l.countP (WorkerState.isRunning j)
      + l.countP (WorkerState.isWaiting j) ≤ l.length := by
  induction l with
  | nil => simp
  | cons x l ih =>
    simp only [List.countP_cons, List.length_cons]
    cases x <;> simp [WorkerState.isHolding, WorkerState.isRunning, WorkerState.isWaiting] <;>
      (try split) <;> omega

theorem all_hold_of_count (j : Nat) (l : List WorkerState)
    (h : l.countP (WorkerState.isHolding j) + l.countP (WorkerState.isRunning j)
      + l.countP (WorkerState.isWaiting j) = l.length) :
    ∀ x ∈ l, ∃ t, x.held = some t ∧ t.id = j := by
  induction l with
  | nil => intro x hx; cases hx
  | cons y l ih =>
    have hle := count_held_le j l
    simp only [List.countP_cons, List.length_cons] at h
    intro x hx
    rcases List.mem_cons.mp hx with hx | hx
    · subst hx
      cases x with
      | holding u =>
        by_cases hu : u.id = j
        · exact ⟨u, rfl, hu⟩
        · simp [WorkerState.isHolding, WorkerState.isRunning, WorkerState.isWaiting, hu] at h
          omega
      | running u =>
        by_cases hu : u.id = j
        · exact ⟨u, rfl, hu⟩
        · simp [WorkerState.isHolding, WorkerState.isRunning, WorkerState.isWaiting, hu] at h
          omega
      | waiting u =>
        by_cases hu : u.id = j
        · exact ⟨u, rfl, hu⟩
        · simp [WorkerState.isHolding, WorkerState.isRunning, WorkerState.isWaiting, hu] at h
          omega
      | parked =>
        simp [WorkerState.isHolding, WorkerState.isRunning, WorkerState.isWaiting] at h; omega
      | dequeuing =>
        simp [WorkerState.isHolding, WorkerState.isRunning, WorkerState.isWaiting] at h; omega
      | terminated =>
        simp [WorkerState.isHolding, WorkerState.isRunning, WorkerState.isWaiting] at h; omega
      | failed =>
        simp [WorkerState.isHolding, WorkerState.isRunning, WorkerState.isWaiting] at h; omega
      | undefinedFront =>
        simp [WorkerState.isHolding, WorkerState.isRunning, WorkerState.isWaiting] at h; omega
    · refine ih ?_ x hx
      have h1 : (if WorkerState.isHolding j y = true then 1 else 0)
          + (if WorkerState.isRunning j y = true then 1 else 0)
          + (if WorkerState.isWaiting j y = true then 1 else 0) ≤ 1 := by
        cases y <;> simp [WorkerState.isHolding, WorkerState.isRunning, WorkerState.isWaiting] <;>
          (try split) <;> omega
      omega

theorem Inv.all_hold {n : Nat} {s : State} (h : Inv n s) (j : Nat)
    (hc : s.holders j + s.runners j + s.waiters j = n) :
    ∀ x ∈ s.threads_, ∀ t, x.held = some t → t.id = j := by
  intro x hx t ht
  have := all_hold_of_count j s.threads_ (by
    simp only [State.holders, State.runners, State.waiters] at hc; rw [hc, h.len]) x hx
  obtain ⟨u, hu, huj⟩ := this
  rw [ht] at hu
  cases hu
  exact huj

/-- What is known about a barrier tasklet that a worker is about to enter
`wait()` on. -/
theorem BarrierInv.running_facts {n : Nat} (hn : 1 ≤ n) {s : State} (hb : BarrierInv n s)
    (h : Inv n s) {t : TaskletInterface} {m : Nat}
    (hx : WorkerState.running t ∈ s.threads_) (hk : t.kind = TaskletKind.barrier m) :
    m = n ∧ s.numWaiting_ t.id ≤ n ∧
    (∃ d ∈ s.dispatched, d.id = t.id ∧ d.kind = TaskletKind.barrier n) ∧
    (s.numWaiting_ t.id = n → ¬ n + 1 ≤ s.numWaiting_ t.id ∧
      s.holders t.id + s.runners t.id + s.waiters t.id = n) := by
  have hpos := h.handed_pos_of_held hx (t := t) rfl
  obtain ⟨d, hd, hid⟩ := h.exists_of_lt (h.k4 t.id hpos).1
  have hkd : d.kind = TaskletKind.barrier m := by rw [h.hkind _ hx t rfl d hd hid, hk]
  have hm := (hb.bk d hd m hkd).1
  subst hm
  have h1 := hb.bstar d hd m hkd
  have h2 := h.returned_le d.id
  have h3 := (hb.bk d hd m hkd).2
  have h4 := h.handed_le hd (by rw [h3]; omega)
  rw [h3] at h4
  have hrun : 0 < s.runners t.id :=
    countP_pos_of_mem _ _ _ hx (by simp [WorkerState.isRunning])
  rw [hid] at h1 h2 h4
  refine ⟨rfl, by omega, ⟨d, hd, hid, hkd⟩, ?_⟩
  intro hnw
  have h5 : s.returned t.id = 0 := by
    by_contra hne
    have := hb.b4 d hd m hkd (by rw [hid]; exact hne)
    rw [hid] at this; omega
  omega

theorem BarrierInv.finish_release {n : Nat} (hn : 1 ≤ n) (hn2 : n < 2 ^ 31) {s : State}
    (hb : BarrierInv n s) (h : Inv n s) (w : Nat) (t : TaskletInterface) (m : Nat)
    (hw : s.threads_[w]? = some (WorkerState.running t))
    (hk : t.kind = TaskletKind.barrier m)
    (hf : (m + 1) % 2 ^ 32 ≤ (s.numWaiting_ t.id + 1) % 2 ^ 32) (s1 : State)
    (h1 : s1.threads_ = s.threads_.set w WorkerState.parked)
    (hd : s1.dispatched = s.dispatched) (hc : s1.caller = s.caller)
    (hnw : s1.numWaiting_ =
      Function.update s.numWaiting_ t.id ((s.numWaiting_ t.id + 1) % 2 ^ 32))
    (hl : s1.log = s.log ++ [Event.returned t.id]) : BarrierInv n s1 := by
  have hxm : WorkerState.running t ∈ s.threads_ := List.getElem?_mem hw
  obtain ⟨hm, hle, ⟨d0, hd0, hid0, hk0⟩, hall⟩ := hb.running_facts hn h hxm hk
  subst hm
  have hmod : (s.numWaiting_ t.id + 1) % 2 ^ 32 = s.numWaiting_ t.id + 1 :=
    Nat.mod_eq_of_lt (by omega)
  rw [mod_succ_of_lt hn2, hmod] at hf
  rw [hmod] at hnw
  have hnweq : s.numWaiting_ t.id = m := by omega
  have cW : ∀ j, s1.waiters j = s.waiters j := by
    intro j; simp only [State.waiters, h1]
    exact countP_set_same _ _ _ _ _ hw (by simp [WorkerState.isWaiting])
  have hr : ∀ j, s1.returned j = s.returned j + (if t.id = j then 1 else 0) := by
    intro j; simp [State.returned, hl, List.count_cons]
  have hp : ∀ j, s1.pending j = s.pending j := by intro j; simp only [State.pending, hc]
  have hnw1 : s1.numWaiting_ t.id = s.numWaiting_ t.id + 1 := by
    rw [hnw, Function.update_same]
  have hnw2 : ∀ j, j ≠ t.id → s1.numWaiting_ j = s.numWaiting_ j := by
    intro j hj; rw [hnw, Function.update_noteq hj]
  refine ⟨?_, ?_, ?_, ?_, ?_, ?_, ?_⟩
  · rw [hd]; exact hb.bk
  · rw [hd, hc]; exact hb.cb
  · rw [hd]
    intro d hdm m1 hkd
    have := hb.bstar d hdm m1 hkd
    rw [hp, cW, hr]
    by_cases hid : t.id = d.id
    · rw [if_pos hid, ← hid, hnw1]; rw [← hid] at this; omega
    · rw [if_neg hid, hnw2 d.id (fun e => hid e.symm)]; omega
  · rw [hd]
    intro d hdm m1 hkd hret
    by_cases hid : t.id = d.id
    · rw [← hid, hnw1]; omega
    · rw [hr, if_neg hid] at hret
      rw [hnw2 d.id (fun e => hid e.symm)]
      exact hb.b4 d hdm m1 hkd hret
  · rw [hd, hc]
    intro d hdm m1 hkd
    by_cases hid : t.id = d.id
    · left; rw [← hid, hnw1]; omega
    · rw [hnw2 d.id (fun e => hid e.symm)]; exact hb.rel d hdm m1 hkd
  · rw [hd]
    intro d hdm m1 hkd hrel z hz u hu
    rw [h1] at hz
    rcases List.mem_or_eq_of_mem_set hz with hz | hz
    · by_cases hid : t.id = d.id
      · have := h.all_hold t.id (hall hnweq).2 z hz u hu
        omega
      · rw [hnw2 d.id (fun e => hid e.symm)] at hrel
        exact hb.c1 d hdm m1 hkd hrel z hz u hu
    · subst hz; simp [WorkerState.held] at hu
  · rw [hd, hl, List.filterMap_append]
    simp only [List.filterMap_cons, Event.invokedId, List.filterMap_nil, List.append_nil]
    exact hb.pw

theorem BarrierInv.finish_park {n : Nat} (hn : 1 ≤ n) (hn2 : n < 2 ^ 31) {s : State}
    (hb : BarrierInv n s) (h : Inv n s) (w : Nat) (t : TaskletInterface) (m : Nat)
    (hw : s.threads_[w]? = some (WorkerState.running t))
    (hk : t.kind = TaskletKind.barrier m)
    (hf : ¬ (m + 1) % 2 ^ 32 ≤ (s.numWaiting_ t.id + 1) % 2 ^ 32) (s1 : State)
    (h1 : s1.threads_ = s.threads_.set w (WorkerState.waiting t))
    (hd : s1.dispatched = s.dispatched) (hc : s1.caller = s.caller)
    (hnw : s1.numWaiting_ =
      Function.update s.numWaiting_ t.id ((s.numWaiting_ t.id + 1) % 2 ^ 32))
    (hl : s1.log = s.log) : BarrierInv n s1 := by
  have hxm : WorkerState.running t ∈ s.threads_ := List.getElem?_mem hw
  obtain ⟨hm, hle, ⟨d0, hd0, hid0, hk0⟩, hall⟩ := hb.running_facts hn h hxm hk
  subst hm
  have hmod : (s.numWaiting_ t.id + 1) % 2 ^ 32 = s.numWaiting_ t.id + 1 :=
    Nat.mod_eq_of_lt (by omega)
  rw [mod_succ_of_lt hn2, hmod] at hf
  rw [hmod] at hnw
  have cW : ∀ j, s1.waiters j = s.waiters j + (if t.id = j then 1 else 0) := by
    intro j
    have := countP_set_add (WorkerState.isWaiting j) _ _ _ (WorkerState.waiting t) hw
    simp only [State.waiters, h1]
    simpa [WorkerState.isWaiting] using this
  have hr : ∀ j, s1.returned j = s.returned j := by
    intro j; simp only [State.returned, hl]
  have hp : ∀ j, s1.pending j = s.pending j := by intro j; simp only [State.pending, hc]
  have hnw1 : s1.numWaiting_ t.id = s.numWaiting_ t.id + 1 := by
    rw [hnw, Function.update_same]
  have hnw2 : ∀ j, j ≠ t.id → s1.numWaiting_ j = s.numWaiting_ j := by
    intro j hj; rw [hnw, Function.update_noteq hj]
  refine ⟨?_, ?_, ?_, ?_, ?_, ?_, ?_⟩
  · rw [hd]; exact hb.bk
  · rw [hd, hc]; exact hb.cb
  · rw [hd]
    intro d hdm m1 hkd
    have := hb.bstar d hdm m1 hkd
    rw [hp, cW, hr]
    by_cases hid : t.id = d.id
    · rw [if_pos hid, ← hid, hnw1]; rw [← hid] at this; omega
    · rw [if_neg hid, hnw2 d.id (fun e => hid e.symm)]; omega
  · rw [hd]
    intro d hdm m1 hkd hret
    rw [hr] at hret
    have := hb.b4 d hdm m1 hkd hret
    by_cases hid : t.id = d.id
    · rw [← hid, hnw1]; rw [← hid] at this; omega
    · rw [hnw2 d.id (fun e => hid e.symm)]; exact this
  · rw [hd, hc]
    intro d hdm m1 hkd
    by_cases hid : t.id = d.id
    · rcases hb.rel d hdm m1 hkd with h0 | h0
      · left; rw [← hid, hnw1]; rw [← hid] at h0; omega
      · right; exact h0
    · rw [hnw2 d.id (fun e => hid e.symm)]; exact hb.rel d hdm m1 hkd
  · rw [hd]
    intro d hdm m1 hkd hrel z hz u hu
    by_cases hid : t.id = d.id
    · rw [← hid, hnw1] at hrel; omega
    · rw [hnw2 d.id (fun e => hid e.symm)] at hrel
      rw [h1] at hz
      rcases List.mem_or_eq_of_mem_set hz with hz | hz
      · exact hb.c1 d hdm m1 hkd hrel z hz u hu
      · subst hz
        simp only [WorkerState.held, Option.some.injEq] at hu
        subst hu
        exact hb.c1 d hdm m1 hkd hrel _ hxm t rfl
  · rw [hd, hl]; exact hb.pw

theorem BarrierInv.barrierWait {n : Nat} (hn : 1 ≤ n) (hn2 : n < 2 ^ 31) {s : State}
    (hb : BarrierInv n s) (h : Inv n s) (b : TaskletInterface) (m : Nat)
    (hcal : s.caller = CallerState.barrierDispatched b)
    (hk : b.kind = TaskletKind.barrier m) (s1 : State)
    (h1 : s1.threads_ = s.threads_)
    (hd : s1.dispatched = s.dispatched)
    (hc : s1.caller = if (m + 1) % 2 ^ 32 ≤ (s.numWaiting_ b.id + 1) % 2 ^ 32
      then CallerState.ready else CallerState.inWait b)
    (hnw : s1.numWaiting_ =
      Function.update s.numWaiting_ b.id ((s.numWaiting_ b.id + 1) % 2 ^ 32))
    (hl : s1.log = s.log) : BarrierInv n s1 := by
  obtain ⟨hbm, hbk, hbl⟩ := hb.cb b (Or.inl hcal)
  have hm : m = n := by rw [hk] at hbk; cases hbk; rfl
  subst hm
  have a1 := hb.bstar b hbm m hk
  have a2 := h.returned_le b.id
  have a3 := (hb.bk b hbm m hk).2
  have a4 := h.handed_le hbm (by rw [a3]; omega)
  rw [a3] at a4
  have hpb : s.pending b.id = 1 := by simp [State.pending, hcal]
  have hle : s.numWaiting_ b.id ≤ m := by omega
  have hmod : (s.numWaiting_ b.id + 1) % 2 ^ 32 = s.numWaiting_ b.id + 1 :=
    Nat.mod_eq_of_lt (by omega)
  rw [mod_succ_of_lt hn2, hmod] at hc
  rw [hmod] at hnw
  have cW : ∀ j, s1.waiters j = s.waiters j := by intro j; simp only [State.waiters, h1]
  have hr : ∀ j, s1.returned j = s.returned j := by intro j; simp only [State.returned, hl]
  have hp : ∀ j, s1.pending j = 0 := by
    intro j; simp only [State.pending, hc]
    by_cases hcond : m + 1 ≤ s.numWaiting_ b.id + 1
    · rw [if_pos hcond]
    · rw [if_neg hcond]
  have hp0 : ∀ j, j ≠ b.id → s.pending j = 0 := by
    intro j hj; simp only [State.pending, hcal]; rw [if_neg (fun e => hj e.symm)]
  have hnw1 : s1.numWaiting_ b.id = s.numWaiting_ b.id + 1 := by
    rw [hnw, Function.update_same]
  have hnw2 : ∀ j, j ≠ b.id → s1.numWaiting_ j = s.numWaiting_ j := by
    intro j hj; rw [hnw, Function.update_noteq hj]
  refine ⟨?_, ?_, ?_, ?_, ?_, ?_, ?_⟩
  · rw [hd]; exact hb.bk
  · rw [hd, hc]
    intro b1 hb1
    split at hb1
    · rcases hb1 with hb1 | hb1 <;> cases hb1
    · rcases hb1 with hb1 | hb1
      · cases hb1
      · cases hb1; exact ⟨hbm, hk, hbl⟩
  · rw [hd]
    intro d hdm m1 hkd
    have := hb.bstar d hdm m1 hkd
    rw [hp, cW, hr]
    by_cases hid : d.id = b.id
    · rw [hid, hnw1]; rw [hid] at this; omega
    · rw [hnw2 d.id hid]; rw [hp0 d.id hid] at this; omega
  · rw [hd]
    intro d hdm m1 hkd hret
    rw [hr] at hret
    have := hb.b4 d hdm m1 hkd hret
    by_cases hid : d.id = b.id
    · rw [hid, hnw1]; rw [hid] at this; omega
    · rw [hnw2 d.id hid]; exact this
  · rw [hd, hc]
    intro d hdm m1 hkd
    by_cases hid : d.id = b.id
    · have hdb : d = b := h.eq_of_id hdm hbm hid
      subst hdb
      by_cases hrel : m + 1 ≤ s.numWaiting_ d.id + 1
      · left; rw [hnw1]; exact hrel
      · right; right; rw [if_neg hrel]
    · rw [hnw2 d.id hid]
      rcases hb.rel d hdm m1 hkd with h0 | h0 | h0
      · exact Or.inl h0
      · rw [hcal] at h0; cases h0; exact absurd rfl hid
      · rw [hcal] at h0; cases h0
  · rw [hd, h1]
    intro d hdm m1 hkd hrel z hz u hu
    by_cases hid : d.id = b.id
    · rw [hid, hnw1] at hrel
      have h5 : s.returned b.id = 0 := by
        by_contra hne
        have := hb.b4 b hbm m hk hne
        omega
      have := h.all_hold b.id (by omega) z hz u hu
      omega
    · rw [hnw2 d.id hid] at hrel
      exact hb.c1 d hdm m1 hkd hrel z hz u hu
  · rw [hd, hl]; exact hb.pw

/-- The thread that owns the runner leaves `barrier()` or the joins. -/
theorem BarrierInv.caller_leaves {n : Nat} {s : State} (hb : BarrierInv n s) (s1 : State)
    (c : CallerState) (hc1 : c = CallerState.ready ∨ c = CallerState.destroyed)
    (hcal : ∀ b, s.caller ≠ CallerState.barrierDispatched b)
    (hrel : ∀ b, s.caller = CallerState.inWait b → n + 1 ≤ s.numWaiting_ b.id)
    (h1 : s1.threads_ = s.threads_)
    (hd : s1.dispatched = s.dispatched)
    (hc : s1.caller = c)
    (hnw : s1.numWaiting_ = s.numWaiting_)
    (hl : s1.log = s.log) : BarrierInv n s1 := by
  have cW : ∀ j, s1.waiters j = s.waiters j := by intro j; simp only [State.waiters, h1]
  have hr : ∀ j, s1.returned j = s.returned j := by intro j; simp only [State.returned, hl]
  have hp : ∀ j, s1.pending j = 0 := by
    intro j; simp only [State.pending, hc]; rcases hc1 with e | e <;> rw [e]
  have hp0 : ∀ j, s.pending j = 0 := by
    intro j
    cases hcs : s.caller with
    | barrierDispatched b => exact absurd hcs (hcal b)
    | ready => simp only [State.pending, hcs]
    | inWait b => simp only [State.pending, hcs]
    | joining => simp only [State.pending, hcs]
    | destroyed => simp only [State.pending, hcs]
  refine ⟨?_, ?_, ?_, ?_, ?_, ?_, ?_⟩
  · rw [hd]; exact hb.bk
  · rw [hd, hc]
    intro b1 hb1
    rcases hc1 with e | e <;> rw [e] at hb1 <;> rcases hb1 with hb1 | hb1 <;> cases hb1
  · rw [hd, hnw]
    intro d hdm m1 hkd
    have := hb.bstar d hdm m1 hkd
    rw [hp, cW, hr]; rw [hp0] at this; exact this
  · rw [hd, hnw]
    intro d hdm m1 hkd hret
    rw [hr] at hret
    exact hb.b4 d hdm m1 hkd hret
  · rw [hd, hnw]
    intro d hdm m1 hkd
    rcases hb.rel d hdm m1 hkd with h0 | h0 | h0
    · exact Or.inl h0
    · exact absurd h0 (hcal d)
    · exact Or.inl (hrel d h0)
  · rw [hd, hnw, h1]; exact hb.c1
  · rw [hd, hl]; exact hb.pw

/-- A tasklet that is not a barrier is pushed to the queue by the thread
that owns the runner. -/
theorem BarrierInv.enqueue_other {n : Nat} {s : State} (hb : BarrierInv n s)
    (t : TaskletInterface) (hk : ∀ m, t.kind ≠ TaskletKind.barrier m)
    (hcal : s.caller = CallerState.ready) (s1 : State) (c : CallerState)
    (hc1 : c = CallerState.ready ∨ c = CallerState.joining)
    (h1 : s1.threads_ = s.threads_)
    (hd : s1.dispatched = s.dispatched ++ [t])
    (hc : s1.caller = c)
    (hnw : s1.numWaiting_ = s.numWaiting_)
    (hl : s1.log = s.log) : BarrierInv n s1 := by
  have cW : ∀ j, s1.waiters j = s.waiters j := by intro j; simp only [State.waiters, h1]
  have hr : ∀ j, s1.returned j = s.returned j := by intro j; simp only [State.returned, hl]
  have hp : ∀ j, s1.pending j = 0 := by
    intro j; simp only [State.pending, hc]; rcases hc1 with e | e <;> rw [e]
  have hp0 : ∀ j, s.pending j = 0 := by
    intro j; simp only [State.pending, hcal]
  have hmem : ∀ d ∈ s1.dispatched, ∀ m, d.kind = TaskletKind.barrier m → d ∈ s.dispatched := by
    intro d hdm m hkd
    rw [hd] at hdm
    rcases List.mem_append.mp hdm with hdm | hdm
    · exact hdm
    · rw [List.mem_singleton] at hdm; subst hdm; exact absurd hkd (hk m)
  refine ⟨?_, ?_, ?_, ?_, ?_, ?_, ?_⟩
  · intro d hdm m hkd; exact hb.bk d (hmem d hdm m hkd) m hkd
  · rw [hc]
    intro b1 hb1
    rcases hc1 with e | e <;> rw [e] at hb1 <;> rcases hb1 with hb1 | hb1 <;> cases hb1
  · rw [hnw]
    intro d hdm m1 hkd
    have := hb.bstar d (hmem d hdm m1 hkd) m1 hkd
    rw [hp, cW, hr]; rw [hp0] at this; exact this
  · rw [hnw]
    intro d hdm m1 hkd hret
    rw [hr] at hret
    exact hb.b4 d (hmem d hdm m1 hkd) m1 hkd hret
  · rw [hnw]
    intro d hdm m1 hkd
    rcases hb.rel d (hmem d hdm m1 hkd) m1 hkd with h0 | h0 | h0
    · exact Or.inl h0
    · rw [hcal] at h0; cases h0
    · rw [hcal] at h0; cases h0
  · rw [hnw, h1]
    intro d hdm m1 hkd
    exact hb.c1 d (hmem d hdm m1 hkd) m1 hkd
  · rw [hl]
    refine hb.pw.imp ?_
    intro i j hij d hdm m hkd
    exact hij d (hmem d hdm m hkd) m hkd

/-- The barrier tasklet of `barrier()` is pushed to the queue. -/
theorem BarrierInv.enqueue_barrier {n : Nat} (hn2 : n < 2 ^ 31) {s : State}
    (hb : BarrierInv n s) (h : Inv n s)
    (hcal : s.caller = CallerState.ready) (s1 : State)
    (h1 : s1.threads_ = s.threads_)
    (hd : s1.dispatched = s.dispatched ++
      [BarrierTasklet.create s.dispatched.length (toUnsigned s.threads_.length)])
    (hc : s1.caller = CallerState.barrierDispatched
      (BarrierTasklet.create s.dispatched.length (toUnsigned s.threads_.length)))
    (hnw : s1.numWaiting_ = Function.update s.numWaiting_ s.dispatched.length 0)
    (hl : s1.log = s.log) : BarrierInv n s1 := by
  have hlen : toUnsigned s.threads_.length = n := by
    rw [h.len]; exact Nat.mod_eq_of_lt (by omega)
  have hint : toInt n = (n : Int) := by
    have : n % 2 ^ 32 = n := Nat.mod_eq_of_lt (by omega)
    simp only [toInt, this]
    rw [if_pos hn2]
  rw [hlen] at hd hc
  have cW : ∀ j, s1.waiters j = s.waiters j := by intro j; simp only [State.waiters, h1]
  have hr : ∀ j, s1.returned j = s.returned j := by intro j; simp only [State.returned, hl]
  have hp : ∀ j, s1.pending j = if s.dispatched.length = j then 1 else 0 := by
    intro j; simp only [State.pending, hc, BarrierTasklet.create]
  have hp0 : ∀ j, s.pending j = 0 := by
    intro j; simp only [State.pending, hcal]
  have hnw1 : s1.numWaiting_ s.dispatched.length = 0 := by
    rw [hnw, Function.update_same]
  have hnw2 : ∀ j, j ≠ s.dispatched.length → s1.numWaiting_ j = s.numWaiting_ j := by
    intro j hj; rw [hnw, Function.update_noteq hj]
  have hz := h.handed_zero_of_ge (Nat.le_refl s.dispatched.length)
  have hz2 := h.returned_le s.dispatched.length
  have hmem : ∀ d ∈ s1.dispatched, d ∈ s.dispatched ∨
      d = BarrierTasklet.create s.dispatched.length n := by
    intro d hdm
    rw [hd] at hdm
    rcases List.mem_append.mp hdm with hdm | hdm
    · exact Or.inl hdm
    · rw [List.mem_singleton] at hdm; exact Or.inr hdm
  refine ⟨?_, ?_, ?_, ?_, ?_, ?_, ?_⟩
  · intro d hdm m hkd
    rcases hmem d hdm with h0 | h0
    · exact hb.bk d h0 m hkd
    · subst h0
      simp only [BarrierTasklet.create, TaskletKind.barrier.injEq] at hkd
      subst hkd
      exact ⟨rfl, hint⟩
  · rw [hc, hd]
    intro b1 hb1
    rcases hb1 with hb1 | hb1
    · cases hb1
      refine ⟨List.mem_append_right _ (List.mem_singleton_self _), rfl, ?_⟩
      simp [BarrierTasklet.create]
    · cases hb1
  · intro d hdm m1 hkd
    rw [hp, cW, hr]
    rcases hmem d hdm with h0 | h0
    · have := hb.bstar d h0 m1 hkd
      have hlt := h.id_lt h0
      rw [hp0] at this
      rw [if_neg (by omega), hnw2 d.id (by omega)]; exact this
    · subst h0
      simp only [BarrierTasklet.create, if_true]
      rw [hnw1]; omega
  · intro d hdm m1 hkd hret
    rw [hr] at hret
    rcases hmem d hdm with h0 | h0
    · have hlt := h.id_lt h0
      rw [hnw2 d.id (by omega)]
      exact hb.b4 d h0 m1 hkd hret
    · subst h0
      simp only [BarrierTasklet.create] at hret
      omega
  · rw [hc]
    intro d hdm m1 hkd
    rcases hmem d hdm with h0 | h0
    · have hlt := h.id_lt h0
      rw [hnw2 d.id (by omega)]
      rcases hb.rel d h0 m1 hkd with h2 | h2 | h2
      · exact Or.inl h2
      · rw [hcal] at h2; cases h2
      · rw [hcal] at h2; cases h2
    · subst h0; right; left; rfl
  · rw [h1]
    intro d hdm m1 hkd hrel
    rcases hmem d hdm with h0 | h0
    · have hlt := h.id_lt h0
      rw [hnw2 d.id (by omega)] at hrel
      exact hb.c1 d h0 m1 hkd hrel
    · subst h0
      simp only [BarrierTasklet.create] at hrel
      rw [hnw1] at hrel; omega
  · rw [hl]
    refine (List.pairwise_iff_forall_sublist.mpr ?_)
    intro i j hij d hdm m hkd
    rcases hmem d hdm with h0 | h0
    · exact (List.pairwise_iff_forall_sublist.mp hb.pw) hij d h0 m hkd
    · subst h0
      simp only [BarrierTasklet.create]
      have hi : i ∈ s.log.filterMap Event.invokedId := hij.subset (List.mem_cons_self _ _)
      have := h.invoked_lt hi
      omega

theorem BarrierInv.barrier_initial (n : Nat) : BarrierInv n (initial n) := by
  constructor <;> simp [Ewoms.initial]

theorem BarrierInv.barrier_next {n : Nat} (hn : 1 ≤ n) (hn2 : n < 2 ^ 31) {s s1 : State} {a : Action}
    (hb : BarrierInv n s) (h : Inv n s) (hs : step s a = some s1) : BarrierInv n s1 := by
  have hne : s.threads_ ≠ [] := h.threads_ne_nil hn
  cases a with
  | dispatch r l e =>
    obtain ⟨hc, _, rfl⟩ := step_dispatch_async hne hs
    exact hb.enqueue_other _ (by simp) hc _ _ (Or.inl hc) rfl rfl rfl rfl rfl
  | barrier =>
    obtain ⟨hc, ⟨_, rfl⟩ | ⟨_, _, rfl⟩⟩ := step_barrier_async hne hs
    · exact hb
    · exact hb.enqueue_barrier hn2 h hc _ rfl rfl rfl rfl rfl
  | barrierWait =>
    obtain ⟨b, m, hc, hk, rfl⟩ := step_barrierWait hs
    exact hb.barrierWait hn hn2 h b m hc hk _ rfl rfl rfl rfl rfl
  | barrierWake =>
    obtain ⟨b, m, hc, hk, hrel, rfl⟩ := step_barrierWake hs
    refine hb.caller_leaves _ _ (Or.inl rfl) ?_ ?_ rfl rfl rfl rfl rfl
    · intro b1 hb1; rw [hc] at hb1; cases hb1
    · intro b1 hb1
      rw [hc] at hb1; cases hb1
      have := (hb.cb b (Or.inr hc)).2.1
      rw [hk] at this; cases this
      rw [mod_succ_of_lt hn2] at hrel
      exact hrel
  | destroy =>
    obtain ⟨hc, _, rfl⟩ := step_destroy_async hne hs
    exact hb.enqueue_other _ (by simp [TerminateThreadTasklet.create]) hc _ _
      (Or.inr rfl) rfl rfl rfl rfl rfl
  | join =>
    obtain ⟨hc, _, rfl⟩ := step_join hs
    refine hb.caller_leaves _ _ (Or.inr rfl) ?_ ?_ rfl rfl rfl rfl rfl
    · intro b1 hb1; rw [hc] at hb1; cases hb1
    · intro b1 hb1; rw [hc] at hb1; cases hb1
  | lockRunnerMutex w =>
    obtain ⟨hw, _, rfl⟩ := step_lockRunnerMutex hs
    exact hb.barrier_set_idle w _ WorkerState.dequeuing hw rfl rfl _ rfl rfl rfl rfl rfl
  | dequeue w =>
    obtain ⟨hw, _, ⟨_, rfl⟩ | ⟨t, rest, hq, hm, _, rfl⟩ | ⟨t, hq, hm, rfl⟩ |
      ⟨t, rest, hq, hm, rfl⟩⟩ := step_dequeue hs
    · exact hb.barrier_set_idle w _ WorkerState.undefinedFront hw rfl rfl _ rfl rfl rfl rfl rfl
    · exact hb.barrier_set_idle w _ WorkerState.failed hw rfl rfl _ rfl rfl rfl rfl rfl
    · exact hb.barrier_set_idle w _ WorkerState.terminated hw rfl rfl _ rfl rfl rfl rfl rfl
    · exact hb.barrier_dequeue hn h w hw t rest hq _ rfl rfl rfl rfl rfl
  | invoke w =>
    obtain ⟨t, hw, rfl⟩ := step_invoke hs
    exact hb.invoke h w t hw _ rfl rfl rfl rfl rfl
  | finish w =>
    obtain ⟨t, hw, ⟨hk, rfl⟩ | ⟨m, hk, hf, rfl⟩ | ⟨m, hk, hf, rfl⟩⟩ := step_finish hs
    · exact hb.finish_user h w t hw hk _ rfl rfl rfl rfl rfl
    · exact hb.finish_release hn hn2 h w t m hw hk hf _ rfl rfl rfl rfl rfl
    · exact hb.finish_park hn hn2 h w t m hw hk hf _ rfl rfl rfl rfl rfl
  | wake w =>
    obtain ⟨t, m, hw, hk, hrel, rfl⟩ := step_wake hs
    exact hb.wake hn2 h w t m hw hk hrel _ rfl rfl rfl rfl rfl

theorem Reachable.barrierInv {n : Nat} (hn : 1 ≤ n) (hn2 : n < 2 ^ 31) {s : State}
    (hr : Reachable n s) : BarrierInv n s := by
  induction hr with
  | init => exact BarrierInv.barrier_initial n
  | step a hr hs ih => exact ih.barrier_next hn hn2 (hr.inv hn) hs


/-! ## Synchronous mode -/

theorem runInline_of_not_barrier (s : State) (t : TaskletInterface)
    (hkind : ∀ m, t.kind ≠ TaskletKind.barrier m) :
    runInline s t = some { s with log := s.log ++ [Event.invoked t.id, Event.returned t.id] } := by
  unfold runInline
  cases hk : t.kind with
  | user l e => rfl
  | barrier m => exact absurd hk (hkind m)
  | terminateThread => rfl

theorem syncLoop_of_not_barrier (k : Nat) :
    ∀ (s : State) (t : TaskletInterface), (∀ m, t.kind ≠ TaskletKind.barrier m) →
      t.referenceCount_ = (k : Int) →
      syncLoop k s t =
        some ({ s with log := s.log ++ inlineRuns k t.id }, { t with referenceCount_ := 0 }) := by
  induction k with
  | zero =>
    intro s t _ hr
    simp [syncLoop, TaskletInterface.referenceCount, hr, inlineRuns]
    cases t
    simp_all
  | succ k ih =>
    intro s t hkind hr
    have hpos : t.referenceCount > 0 := by
      simp only [TaskletInterface.referenceCount, hr]; omega
    have hk1 : ∀ m, t.dereference.kind ≠ TaskletKind.barrier m := hkind
    have hr1 : t.dereference.referenceCount_ = (k : Int) := by
      simp only [TaskletInterface.dereference, hr]; omega
    simp only [syncLoop, hpos, if_true, runInline_of_not_barrier s t.dereference hk1]
    rw [ih _ _ hk1 hr1]
    simp [TaskletInterface.dereference, List.replicate_succ, List.append_assoc, inlineRuns]

theorem syncLoop_of_nonpos (s : State) (t : TaskletInterface) (h : t.referenceCount_ ≤ 0) :
    syncLoop t.referenceCount.toNat s t = some (s, t) := by
  have h0 : t.referenceCount.toNat = 0 := by
    simp only [TaskletInterface.referenceCount]; omega
  have h1 : ¬ t.referenceCount > 0 := by
    simp only [TaskletInterface.referenceCount]; omega
  rw [h0]
  simp only [syncLoop, h1, if_false]

theorem count_invoked_inlineRuns (k i j : Nat) :
    (inlineRuns k i).count (Event.invoked j) = if i = j then k else 0 := by
  induction k with
  | zero => simp [inlineRuns]
  | succ k ih =>
    simp only [inlineRuns, List.replicate_succ, List.flatten_cons] at ih ⊢
    rw [List.count_append, ih]
    by_cases hij : i = j <;> simp [List.count_cons, hij]
    omega

theorem count_returned_inlineRuns (k i j : Nat) :
    (inlineRuns k i).count (Event.returned j) = if i = j then k else 0 := by
  induction k with
  | zero => simp [inlineRuns]
  | succ k ih =>
    simp only [inlineRuns, List.replicate_succ, List.flatten_cons] at ih ⊢
    rw [List.count_append, ih]
    by_cases hij : i = j <;> simp [List.count_cons, hij]
    omega

theorem step_dispatch_sync {s s1 : State} {r : Int} {l : Nat} {e : Bool}
    (hnil : s.threads_ = []) (hs : step s (Action.dispatch r l e) = some s1) :
    s.caller = CallerState.ready ∧
    s1 = { s with
      dispatched := s.dispatched ++
        [{ id := s.dispatched.length, referenceCount_ := r, kind := TaskletKind.user l e }],
      log := s.log ++ inlineRuns r.toNat s.dispatched.length } := by
  have hemp : s.threads_.isEmpty = true := by rw [hnil]; rfl
  simp only [step, TaskletRunner.dispatch, hemp, if_true] at hs
  split at hs
  · rename_i hc
    refine ⟨hc, ?_⟩
    by_cases hr : r ≤ 0
    · rw [syncLoop_of_nonpos _ _ hr] at hs
      simp only [Option.map_some', Option.some.injEq] at hs
      have h0 : r.toNat = 0 := by omega
      rw [← hs, h0]
      simp [inlineRuns]
    · have hk : (r : Int) = ((r.toNat : Nat) : Int) := by omega
      simp only [TaskletInterface.referenceCount] at hs
      rw [syncLoop_of_not_barrier r.toNat _ _ (by simp) hk] at hs
      simp only [Option.map_some', Option.some.injEq] at hs
      exact hs.symm
  · simp at hs

theorem SyncInv.sync_initial : SyncInv (initial 0) := by
  constructor <;> simp [Ewoms.initial, State.invoked, State.returned]

theorem SyncInv.sync_next {s s1 : State} {a : Action} (h : SyncInv s) (hs : step s a = some s1) :
    SyncInv s1 := by
  have hnil := h.threads
  have hget : ∀ w : Nat, s.threads_[w]? = none := by intro w; rw [hnil]; rfl
  cases a with
  | dispatch r l e =>
    obtain ⟨_, rfl⟩ := step_dispatch_sync hnil hs
    have hlt : ∀ d ∈ s.dispatched, d.id < s.dispatched.length := by
      intro d hd
      have : d.id ∈ s.dispatched.map TaskletInterface.id := List.mem_map_of_mem _ hd
      rw [h.ids] at this
      exact List.mem_range.mp this
    refine ⟨h.threads, h.queue, h.caller, ?_, ?_, ?_, ?_, ?_⟩
    · simp only [List.map_append, h.ids, List.length_append, List.length_singleton,
        List.range_succ, List.map_singleton]
    · intro d hd
      rcases List.mem_append.mp hd with hd | hd
      · exact h.user d hd
      · rw [List.mem_singleton] at hd; subst hd; exact ⟨l, e, rfl⟩
    · intro d hd
      simp only [State.invoked, State.returned, List.count_append,
        count_invoked_inlineRuns, count_returned_inlineRuns]
      rcases List.mem_append.mp hd with hd | hd
      · have := hlt d hd
        have hc := h.counts d hd
        simp only [State.invoked, State.returned] at hc
        rw [if_neg (by omega), hc.1, hc.2]
        exact ⟨rfl, rfl⟩
      · rw [List.mem_singleton] at hd; subst hd
        have hf := h.fresh s.dispatched.length (Nat.le_refl _)
        simp only [State.invoked, State.returned] at hf
        simp [hf.1, hf.2]
    · intro j hj
      simp only [List.length_append, List.length_singleton] at hj
      have hf := h.fresh j (by omega)
      simp only [State.invoked, State.returned] at hf ⊢
      simp only [List.count_append, count_invoked_inlineRuns, count_returned_inlineRuns, hf.1,
        hf.2]
      rw [if_neg (by omega)]
      exact ⟨rfl, rfl⟩
    · simp only [List.flatMap_append, ← h.shape, List.flatMap_cons, List.flatMap_nil,
        List.append_nil]
  | barrier =>
    have hlen : toUnsigned s.threads_.length = 0 := by rw [hnil]; rfl
    simp only [step, TaskletRunner.barrier, hlen, if_true] at hs
    split at hs
    · simp only [Option.some.injEq] at hs
      subst hs; exact h
    · simp at hs
  | barrierWait =>
    obtain ⟨b, m, hc, _, _⟩ := step_barrierWait hs
    rcases h.caller with h0 | h0 <;> rw [h0] at hc <;> cases hc
  | barrierWake =>
    obtain ⟨b, m, hc, _, _⟩ := step_barrierWake hs
    rcases h.caller with h0 | h0 <;> rw [h0] at hc <;> cases hc
  | destroy =>
    have hlen : ¬ s.threads_.length > 0 := by rw [hnil]; simp
    simp only [step, TaskletRunner.destroy, hlen, if_false] at hs
    split at hs
    · simp only [Option.some.injEq] at hs
      subst hs
      exact ⟨h.threads, h.queue, Or.inr rfl, h.ids, h.user, h.counts, h.fresh, h.shape⟩
    · simp at hs
  | join =>
    obtain ⟨hc, _, _⟩ := step_join hs
    rcases h.caller with h0 | h0 <;> rw [h0] at hc <;> cases hc
  | lockRunnerMutex w =>
    obtain ⟨hw, _, _⟩ := step_lockRunnerMutex hs
    rw [hget] at hw; cases hw
  | dequeue w =>
    obtain ⟨hw, _, _⟩ := step_dequeue hs
    rw [hget] at hw; cases hw
  | invoke w =>
    obtain ⟨t, hw, _⟩ := step_invoke hs
    rw [hget] at hw; cases hw
  | finish w =>
    obtain ⟨t, hw, _⟩ := step_finish hs
    rw [hget] at hw; cases hw
  | wake w =>
    obtain ⟨t, m, hw, _⟩ := step_wake hs
    rw [hget] at hw; cases hw

theorem Reachable.syncInv {s : State} (hr : Reachable 0 s) : SyncInv s := by
  induction hr with
  | init => exact SyncInv.sync_initial
  | step a _ hs ih => exact ih.sync_next hs

theorem reachable_runActions {n : Nat} (as : List Action) :
    ∀ {s s1 : State}, Reachable n s → runActions s as = some s1 → Reachable n s1 := by
  induction as with
  | nil =>
    intro s s1 hr h
    simp only [runActions, Option.some.injEq] at h
    subst h; exact hr
  | cons a as ih =>
    intro s s1 hr h
    simp only [runActions] at h
    split at h
    · rename_i s2 hs
      exact ih (Reachable.step a hr hs) h
    · simp at h

theorem reachable_stateAfter (n : Nat) (as : List Action)
    (h : (runActions (initial n) as).isSome = true) : Reachable n (stateAfter n as) := by
  cases hr : runActions (initial n) as with
  | none => rw [hr] at h; cases h
  | some s =>
    have : stateAfter n as = s := by simp [stateAfter, hr]
    rw [this]
    exact reachable_runActions as Reachable.init hr

theorem reachable_scheduleBarrier : Reachable 2 (stateAfter 2 scheduleBarrier) :=
  reachable_stateAfter 2 scheduleBarrier (by decide)

theorem reachable_scheduleHandOut : Reachable 1 (stateAfter 1 scheduleHandOut) :=
  reachable_stateAfter 1 scheduleHandOut (by decide)

theorem reachable_scheduleTwoBarriers : Reachable 1 (stateAfter 1 scheduleTwoBarriers) :=
  reachable_stateAfter 1 scheduleTwoBarriers (by decide)

/-! ## The shutdown marker -/

theorem ShutdownInv.same_history {s s1 : State} (h : ShutdownInv s) (hd : s1.dispatched = s.dispatched)
    (hc : s1.caller = s.caller) : ShutdownInv s1 := by
  constructor
  rw [hd, hc]; exact h.tm

theorem ShutdownInv.none_of_ready {s : State} (h : ShutdownInv s)
    (hc : ∀ d ∈ s.dispatched, s.caller ≠ CallerState.joining ∧ s.caller ≠ CallerState.destroyed)
    {d : TaskletInterface} (hd : d ∈ s.dispatched) : d.kind ≠ TaskletKind.terminateThread := by
  intro hk
  rcases (h.tm d hd hk).2 with h0 | h0
  · exact (hc d hd).1 h0
  · exact (hc d hd).2 h0

theorem ShutdownInv.shutdown_next {s s1 : State} {a : Action} (hne : s.threads_ ≠ [])
    (h : ShutdownInv s) (hs : step s a = some s1) : ShutdownInv s1 := by
  cases a with
  | dispatch r l e =>
    obtain ⟨hc, _, rfl⟩ := step_dispatch_async hne hs
    constructor
    intro d hd hk
    rcases List.mem_append.mp hd with hd | hd
    · exact absurd hk (h.none_of_ready (by intro _ _; rw [hc]; simp) hd)
    · rw [List.mem_singleton] at hd; subst hd; cases hk
  | barrier =>
    obtain ⟨hc, ⟨_, rfl⟩ | ⟨_, _, rfl⟩⟩ := step_barrier_async hne hs
    · exact h
    · constructor
      intro d hd hk
      rcases List.mem_append.mp hd with hd | hd
      · exact absurd hk (h.none_of_ready (by intro _ _; rw [hc]; simp) hd)
      · rw [List.mem_singleton] at hd; subst hd; cases hk
  | barrierWait =>
    obtain ⟨b, m, hc, _, rfl⟩ := step_barrierWait hs
    constructor
    intro d hd hk
    exact absurd hk (h.none_of_ready (by intro _ _; rw [hc]; simp) hd)
  | barrierWake =>
    obtain ⟨b, m, hc, _, _, rfl⟩ := step_barrierWake hs
    constructor
    intro d hd hk
    exact absurd hk (h.none_of_ready (by intro _ _; rw [hc]; simp) hd)
  | destroy =>
    obtain ⟨hc, _, rfl⟩ := step_destroy_async hne hs
    constructor
    intro d hd hk
    rcases List.mem_append.mp hd with hd | hd
    · exact absurd hk (h.none_of_ready (by intro _ _; rw [hc]; simp) hd)
    · rw [List.mem_singleton] at hd; subst hd
      simp [TerminateThreadTasklet.create]
  | join =>
    obtain ⟨_, _, rfl⟩ := step_join hs
    constructor
    intro d hd hk
    exact ⟨(h.tm d hd hk).1, Or.inr rfl⟩
  | lockRunnerMutex w =>
    obtain ⟨_, _, rfl⟩ := step_lockRunnerMutex hs
    exact h.same_history rfl rfl
  | dequeue w =>
    obtain ⟨_, _, ⟨_, rfl⟩ | ⟨t, rest, _, _, _, rfl⟩ | ⟨t, _, _, rfl⟩ |
      ⟨t, rest, _, _, rfl⟩⟩ := step_dequeue hs <;> exact h.same_history rfl rfl
  | invoke w =>
    obtain ⟨t, _, rfl⟩ := step_invoke hs
    exact h.same_history rfl rfl
  | finish w =>
    obtain ⟨t, _, ⟨_, rfl⟩ | ⟨m, _, _, rfl⟩ | ⟨m, _, _, rfl⟩⟩ := step_finish hs <;>
      exact h.same_history rfl rfl
  | wake w =>
    obtain ⟨t, m, _, _, _, rfl⟩ := step_wake hs
    exact h.same_history rfl rfl

theorem Reachable.shutdownInv {n : Nat} (hn : 1 ≤ n) {s : State} (hr : Reachable n s) :
    ShutdownInv s := by
  induction hr with
  | init => exact ⟨by simp [Ewoms.initial]⟩
  | step a hr hs ih => exact ih.shutdown_next ((hr.inv hn).threads_ne_nil hn) hs

theorem getElem?_set_of_getElem? {α : Type} {l : List α} {w : Nat} {x : α} (y : α)
    (hw : l[w]? = some x) : (l.set w y)[w]? = some y := by
  have hlt : w < l.length := by
    rcases List.getElem?_eq_some.mp hw with ⟨h, _⟩
    exact h
  exact List.getElem?_set_self hlt

theorem step_sync_queue {s s1 : State} {a : Action} (hnil : s.threads_ = [])
    (hs : step s a = some s1) : s1.taskletQueue_ = s.taskletQueue_ := by
  have hget : ∀ w : Nat, s.threads_[w]? = none := by intro w; rw [hnil]; rfl
  cases a with
  | dispatch r l e =>
    obtain ⟨_, rfl⟩ := step_dispatch_sync hnil hs
    rfl
  | barrier =>
    have hlen : toUnsigned s.threads_.length = 0 := by rw [hnil]; rfl
    simp only [step, TaskletRunner.barrier, hlen, if_true] at hs
    split at hs
    · simp only [Option.some.injEq] at hs
      subst hs; rfl
    · simp at hs
  | barrierWait =>
    obtain ⟨b, m, _, _, rfl⟩ := step_barrierWait hs
    rfl
  | barrierWake =>
    obtain ⟨b, m, _, _, _, rfl⟩ := step_barrierWake hs
    rfl
  | destroy =>
    have hlen : ¬ s.threads_.length > 0 := by rw [hnil]; simp
    simp only [step, TaskletRunner.destroy, hlen, if_false] at hs
    split at hs
    · simp only [Option.some.injEq] at hs
      subst hs; rfl
    · simp at hs
  | join =>
    obtain ⟨_, _, rfl⟩ := step_join hs
    rfl
  | lockRunnerMutex w =>
    obtain ⟨hw, _, _⟩ := step_lockRunnerMutex hs
    rw [hget] at hw; cases hw
  | dequeue w =>
    obtain ⟨hw, _, _⟩ := step_dequeue hs
    rw [hget] at hw; cases hw
  | invoke w =>
    obtain ⟨t, hw, _⟩ := step_invoke hs
    rw [hget] at hw; cases hw
  | finish w =>
    obtain ⟨t, hw, _⟩ := step_finish hs
    rw [hget] at hw; cases hw
  | wake w =>
    obtain ⟨t, m, hw, _⟩ := step_wake hs
    rw [hget] at hw; cases hw

/-- A step leaves an end marker at the head of the queue where and as it is. -/
theorem step_keeps_marker {s s1 : State} {a : Action} {m : TaskletInterface}
    {rest : List TaskletInterface} (hq : s.taskletQueue_ = m :: rest)
    (hm : m.isEndMarker = true) (hs : step s a = some s1) :
    ∃ rest1, s1.taskletQueue_ = m :: rest1 := by
  by_cases hnil : s.threads_ = []
  · exact ⟨rest, by rw [step_sync_queue hnil hs, hq]⟩
  · cases a with
    | dispatch r l e =>
      obtain ⟨_, _, rfl⟩ := step_dispatch_async hnil hs
      exact ⟨_, by rw [hq]; rfl⟩
    | barrier =>
      obtain ⟨_, ⟨_, rfl⟩ | ⟨_, _, rfl⟩⟩ := step_barrier_async hnil hs
      · exact ⟨rest, hq⟩
      · exact ⟨_, by rw [hq]; rfl⟩
    | barrierWait =>
      obtain ⟨b, k, _, _, rfl⟩ := step_barrierWait hs
      exact ⟨rest, hq⟩
    | barrierWake =>
      obtain ⟨b, k, _, _, _, rfl⟩ := step_barrierWake hs
      exact ⟨rest, hq⟩
    | destroy =>
      obtain ⟨_, _, rfl⟩ := step_destroy_async hnil hs
      exact ⟨_, by rw [hq]; rfl⟩
    | join =>
      obtain ⟨_, _, rfl⟩ := step_join hs
      exact ⟨rest, hq⟩
    | lockRunnerMutex w =>
      obtain ⟨_, _, rfl⟩ := step_lockRunnerMutex hs
      exact ⟨rest, hq⟩
    | dequeue w =>
      obtain ⟨_, _, ⟨_, rfl⟩ | ⟨t, r, _, _, _, rfl⟩ | ⟨t, _, _, rfl⟩ |
        ⟨t, r, hq1, hm1, rfl⟩⟩ := step_dequeue hs
      · exact ⟨rest, hq⟩
      · exact ⟨rest, hq⟩
      · exact ⟨rest, hq⟩
      · rw [hq] at hq1
        simp only [List.cons.injEq] at hq1
        rw [hq1.1, hm1] at hm
        cases hm
    | invoke w =>
      obtain ⟨t, _, rfl⟩ := step_invoke hs
      exact ⟨rest, hq⟩
    | finish w =>
      obtain ⟨t, _, ⟨_, rfl⟩ | ⟨k, _, _, rfl⟩ | ⟨k, _, _, rfl⟩⟩ := step_finish hs <;>
        exact ⟨rest, hq⟩
    | wake w =>
      obtain ⟨t, k, _, _, _, rfl⟩ := step_wake hs
      exact ⟨rest, hq⟩

theorem runActions_keeps_marker (as : List Action) :
    ∀ {s s2 : State} {m : TaskletInterface} {rest : List TaskletInterface},
      s.taskletQueue_ = m :: rest → m.isEndMarker = true → runActions s as = some s2 →
      ∃ rest2, s2.taskletQueue_ = m :: rest2 := by
  induction as with
  | nil =>
    intro s s2 m rest hq _ h
    simp only [runActions, Option.some.injEq] at h
    subst h; exact ⟨rest, hq⟩
  | cons a as ih =>
    intro s s2 m rest hq hm h
    simp only [runActions] at h
    split at h
    · rename_i s1 hs
      obtain ⟨rest1, hq1⟩ := step_keeps_marker hq hm hs
      exact ih hq1 hm h
    · simp at h

/-- An end marker is never handed to a worker. -/
theorem marker_not_handed {n : Nat} (hn : 1 ≤ n) {s : State} (hr : Reachable n s) :
    ∀ d ∈ s.dispatched, d.isEndMarker = true → s.handed d.id = 0 := by
  induction hr with
  | init => intro d hd; simp [Ewoms.initial] at hd
  | step a hr hs ih =>
    rename_i s s1
    have h := hr.inv hn
    have hne : s.threads_ ≠ [] := h.threads_ne_nil hn
    have henq : ∀ (t : TaskletInterface) (s2 : State), t.id = s.dispatched.length →
        s2.dispatched = s.dispatched ++ [t] → s2.log = s.log →
        ∀ d ∈ s2.dispatched, d.isEndMarker = true → s2.handed d.id = 0 := by
      intro t s2 ht hd hl d hdm hde
      simp only [State.handed, hl]
      rw [hd] at hdm
      rcases List.mem_append.mp hdm with hdm | hdm
      · exact ih d hdm hde
      · rw [List.mem_singleton] at hdm; subst hdm
        exact h.handed_zero_of_ge (by omega)
    have hsame : ∀ (s2 : State) (evs : List Event), s2.dispatched = s.dispatched →
        s2.log = s.log ++ evs → (∀ j, evs.count (Event.handed j) = 0) →
        ∀ d ∈ s2.dispatched, d.isEndMarker = true → s2.handed d.id = 0 := by
      intro s2 evs hd hl hev d hdm hde
      rw [hd] at hdm
      simp only [State.handed, hl, List.count_append, hev]
      exact ih d hdm hde
    cases a with
    | dispatch r l e =>
      obtain ⟨_, _, rfl⟩ := step_dispatch_async hne hs
      exact henq _ _ rfl rfl rfl
    | barrier =>
      obtain ⟨_, ⟨_, rfl⟩ | ⟨_, _, rfl⟩⟩ := step_barrier_async hne hs
      · exact ih
      · exact henq _ _ rfl rfl rfl
    | barrierWait =>
      obtain ⟨b, k, _, _, rfl⟩ := step_barrierWait hs
      exact hsame _ [] rfl (by simp) (by simp)
    | barrierWake =>
      obtain ⟨b, k, _, _, _, rfl⟩ := step_barrierWake hs
      exact hsame _ [] rfl (by simp) (by simp)
    | destroy =>
      obtain ⟨_, _, rfl⟩ := step_destroy_async hne hs
      exact henq _ _ rfl rfl rfl
    | join =>
      obtain ⟨_, _, rfl⟩ := step_join hs
      exact hsame _ [] rfl (by simp) (by simp)
    | lockRunnerMutex w =>
      obtain ⟨_, _, rfl⟩ := step_lockRunnerMutex hs
      exact hsame _ [] rfl (by simp) (by simp)
    | dequeue w =>
      obtain ⟨_, _, ⟨_, rfl⟩ | ⟨t, r, _, _, _, rfl⟩ | ⟨t, _, _, rfl⟩ |
        ⟨t, r, hq1, hm1, rfl⟩⟩ := step_dequeue hs
      · exact hsame _ [] rfl (by simp) (by simp)
      · exact hsame _ [] rfl (by simp) (by simp)
      · exact hsame _ [] rfl (by simp) (by simp)
      · intro d hdm hde
        have htq : t ∈ s.taskletQueue_ := by rw [hq1]; exact List.mem_cons_self _ _
        have hne1 : t.id ≠ d.id := by
          intro hid
          have hk := h.qkind t htq d hdm hid.symm
          simp only [TaskletInterface.isEndMarker, hk] at hde
          simp only [TaskletInterface.isEndMarker] at hm1
          rw [hm1] at hde
          cases hde
        have := ih d hdm hde
        simp only [State.handed] at this ⊢
        simp [List.count_cons, hne1, this]
    | invoke w =>
      obtain ⟨t, _, rfl⟩ := step_invoke hs
      exact hsame _ [Event.invoked t.id] rfl rfl (by simp)
    | finish w =>
      obtain ⟨t, _, ⟨_, rfl⟩ | ⟨k, _, _, rfl⟩ | ⟨k, _, _, rfl⟩⟩ := step_finish hs
      · exact hsame _ [Event.returned t.id] rfl rfl (by simp)
      · exact hsame _ [Event.returned t.id] rfl rfl (by simp)
      · exact hsame _ [] rfl (by simp) (by simp)
    | wake w =>
      obtain ⟨t, k, _, _, _, rfl⟩ := step_wake hs
      exact hsame _ [Event.returned t.id] rfl rfl (by simp)

/-! ## The order of the calls of `run()` -/

theorem flatMap_congr_mem {α β : Type} {l : List α} {f g : α → List β}
    (h : ∀ x ∈ l, f x = g x) : l.flatMap f = l.flatMap g := by
  induction l with
  | nil => rfl
  | cons a l ih =>
    simp only [List.flatMap_cons]
    rw [h a (List.mem_cons_self _ _), ih (fun x hx => h x (List.mem_cons_of_mem _ hx))]

theorem filterMap_filter_isSome {α β : Type} (f : α → Option β) (l : List α) :
    (l.filter (fun a => (f a).isSome)).filterMap f = l.filterMap f := by
  induction l with
  | nil => rfl
  | cons a l ih =>
    cases hfa : f a with
    | none => simp [List.filter_cons, List.filterMap_cons, hfa, ih]
    | some b => simp [List.filter_cons, List.filterMap_cons, hfa, ih]

theorem count_invokedIds (l : List Event) (j : Nat) :
    (l.filterMap Event.invokedId).count j = l.count (Event.invoked j) := by
  induction l with
  | nil => rfl
  | cons e l ih =>
    cases e with
    | handed i => simp [List.filterMap_cons, Event.invokedId, List.count_cons, ih]
    | invoked i => simp [List.filterMap_cons, Event.invokedId, List.count_cons, ih]
    | returned i => simp [List.filterMap_cons, Event.invokedId, List.count_cons, ih]

theorem invokedIds_inlineRuns (k j : Nat) :
    (inlineRuns k j).filterMap Event.invokedId = List.replicate k j := by
  induction k with
  | zero => rfl
  | succ k ih =>
    simp only [inlineRuns, List.replicate_succ, List.flatten_cons] at ih ⊢
    simp [List.filterMap_cons, Event.invokedId, ih]

/-- A sorted list of numbers below `N` is the list of its elements, each as
often as it occurs, in increasing order. -/
theorem sorted_eq_flatMap_range (N : Nat) :
    ∀ l : List Nat, l.Pairwise (fun i j => i ≤ j) → (∀ a ∈ l, a < N) →
      l = (List.range N).flatMap (fun j => List.replicate (l.count j) j) := by
  induction N with
  | zero =>
    intro l _ hlt
    cases l with
    | nil => rfl
    | cons a l => exact absurd (hlt a (List.mem_cons_self _ _)) (by omega)
  | succ N ih =>
    intro l hs hlt
    have hsplit : ∀ l : List Nat, l.Pairwise (fun i j => i ≤ j) → (∀ a ∈ l, a < N + 1) →
        l = l.filter (fun a => decide (a < N)) ++ List.replicate (l.count N) N := by
      intro l
      induction l with
      | nil => intro _ _; rfl
      | cons a l ihl =>
        intro hs hlt
        rw [List.pairwise_cons] at hs
        have hrec := ihl hs.2 (fun b hb => hlt b (List.mem_cons_of_mem _ hb))
        by_cases ha : a < N
        · have hne : a ≠ N := by omega
          rw [List.filter_cons_of_pos (by simpa using ha), List.count_cons_of_ne hne.symm,
            List.cons_append, ← hrec]
        · have haN : a = N := by have := hlt a (List.mem_cons_self _ _); omega
          subst haN
          have hall : ∀ b ∈ l, b = a := by
            intro b hb
            have h1 := hs.1 b hb
            have h2 := hlt b (List.mem_cons_of_mem _ hb)
            omega
          have hl : l = List.replicate l.length a := List.eq_replicate_of_mem hall
          have hf : (a :: l).filter (fun b => decide (b < a)) = [] := by
            rw [List.filter_eq_nil_iff]
            intro b hb
            rcases List.mem_cons.mp hb with hb | hb
            · subst hb; simp
            · rw [hall b hb]; simp
          rw [hf, List.nil_append, List.count_cons_self]
          have hc : l.count a = l.length := by
            rw [hl, List.count_replicate_self, List.length_replicate]
          rw [hc, List.replicate_succ, ← hl]
    have h1 := hsplit l hs hlt
    have hs2 : (l.filter (fun a => decide (a < N))).Pairwise (fun i j => i ≤ j) :=
      hs.filter _
    have hlt2 : ∀ a ∈ l.filter (fun a => decide (a < N)), a < N := by
      intro a ha
      have := (List.mem_filter.mp ha).2
      simpa using this
    have h2 := ih _ hs2 hlt2
    rw [List.range_succ, List.flatMap_append, List.flatMap_singleton]
    have h3 : (List.range N).flatMap (fun j => List.replicate (l.count j) j)
        = (List.range N).flatMap
          (fun j => List.replicate ((l.filter (fun a => decide (a < N))).count j) j) := by
      apply flatMap_congr_mem
      intro j hj
      have hjN : j < N := List.mem_range.mp hj
      rw [List.count_filter (by simpa using hjN)]
    rw [h3, ← h2]
    exact h1

theorem getElem?_of_mem_ids {l : List TaskletInterface}
    (hids : l.map TaskletInterface.id = List.range l.length) {d : TaskletInterface}
    (hd : d ∈ l) : l[d.id]? = some d := by
  obtain ⟨i, hi⟩ := List.mem_iff_getElem?.mp hd
  have hlt : i < l.length := by
    rcases List.getElem?_eq_some.mp hi with ⟨h, _⟩
    exact h
  have h1 : (l.map TaskletInterface.id)[i]? = some d.id := by
    rw [List.getElem?_map, hi]; rfl
  rw [hids, List.getElem?_range hlt] at h1
  cases h1
  exact hi

theorem id_of_getElem? {l : List TaskletInterface}
    (hids : l.map TaskletInterface.id = List.range l.length) {d : TaskletInterface} {i : Nat}
    (hi : l[i]? = some d) : d.id = i := by
  have hlt : i < l.length := by
    rcases List.getElem?_eq_some.mp hi with ⟨h, _⟩
    exact h
  have h1 : (l.map TaskletInterface.id)[i]? = some d.id := by
    rw [List.getElem?_map, hi]; rfl
  rw [hids, List.getElem?_range hlt] at h1
  cases h1
  rfl

theorem labelOf_of_mem {s : State}
    (hids : s.dispatched.map TaskletInterface.id = List.range s.dispatched.length)
    {d : TaskletInterface} (hd : d ∈ s.dispatched) :
    s.labelOf d.id =
      match d.kind with
      | TaskletKind.user l _ => some l
      | _ => none := by
  simp only [State.labelOf, getElem?_of_mem_ids hids hd]

/-- From the identities whose `run()` was called, in increasing order, to the
user code that was run. -/
theorem trace_tail (s : State)
    (hids : s.dispatched.map TaskletInterface.id = List.range s.dispatched.length)
    (c : TaskletInterface → Nat)
    (hc : ∀ d ∈ s.dispatched, ∀ l e, d.kind = TaskletKind.user l e →
      c d = d.referenceCount_.toNat) :
    (s.dispatched.flatMap (fun d => List.replicate (c d) d.id)).filterMap s.labelOf
      = kindTrace (s.dispatched.map TaskletInterface.signature) := by
  rw [List.filterMap_flatMap, kindTrace, List.flatMap_map]
  apply flatMap_congr_mem
  intro d hd
  have hl := labelOf_of_mem hids hd
  cases hk : d.kind with
  | user l e =>
    rw [hk] at hl
    simp only [TaskletInterface.signature, hk]
    rw [List.filterMap_replicate_of_some hl, hc d hd l e hk]
  | barrier m =>
    rw [hk] at hl
    simp only [TaskletInterface.signature, hk]
    rw [List.filterMap_replicate_of_none hl]
  | terminateThread =>
    rw [hk] at hl
    simp only [TaskletInterface.signature, hk]
    rw [List.filterMap_replicate_of_none hl]

theorem SyncInv.userTrace_eq {s : State} (h : SyncInv s) :
    s.userTrace = kindTrace (s.dispatched.map TaskletInterface.signature) := by
  have h1 : s.log.filterMap Event.invokedId
      = s.dispatched.flatMap (fun d => List.replicate d.referenceCount_.toNat d.id) := by
    rw [h.shape, List.filterMap_flatMap]
    apply flatMap_congr_mem
    intro d _
    exact invokedIds_inlineRuns _ _
  rw [State.userTrace, h1]
  exact trace_tail s h.ids _ (fun _ _ _ _ _ => rfl)

theorem kindTrace_user (ts : List (Int × Nat × Bool)) :
    kindTrace (ts.map (fun p => (p.1, TaskletKind.user p.2.1 p.2.2))) = expectedTrace ts := by
  rw [kindTrace, expectedTrace, List.flatMap_map]

theorem kindTrace_barrierAfterEach (n : Nat) (ts : List (Int × Nat × Bool)) :
    kindTrace (barrierAfterEach n ts) = expectedTrace ts := by
  induction ts with
  | nil => rfl
  | cons p ts ih =>
    simp only [kindTrace, barrierAfterEach, expectedTrace, List.flatMap_cons,
      List.flatMap_append, List.flatMap_nil, List.append_nil] at ih ⊢
    rw [ih]

theorem barrierAfterEach_next (n : Nat) (ts : List (Int × Nat × Bool)) :
    ∀ (i : Nat) (r : Int) (l : Nat) (e : Bool),
      (barrierAfterEach n ts)[i]? = some (r, TaskletKind.user l e) →
      (barrierAfterEach n ts)[i + 1]? = some ((n : Int), TaskletKind.barrier n) := by
  induction ts with
  | nil => intro i r l e h; simp [barrierAfterEach] at h
  | cons p ts ih =>
    intro i r l e h
    simp only [barrierAfterEach, List.flatMap_cons, List.cons_append, List.nil_append] at ih h ⊢
    cases i with
    | zero => simp
    | succ i =>
      cases i with
      | zero => simp at h
      | succ i =>
        simp only [List.getElem?_cons_succ] at h ⊢
        exact ih i r l e h

/-- Every tasklet dispatched before a barrier whose parties have all arrived
has left the queue and has been run to the end as often as its reference
count says. -/
theorem barrier_done {n : Nat} (hn : 1 ≤ n) (hn2 : n < 2 ^ 31) {s : State}
    (hr : Reachable n s) {b : TaskletInterface} {m : Nat} (hb : b ∈ s.dispatched)
    (hk : b.kind = TaskletKind.barrier m) (hrel : n + 1 ≤ s.numWaiting_ b.id) :
    ∀ d ∈ s.dispatched, d.id < b.id →
      (∀ q ∈ s.taskletQueue_, q.id ≠ d.id) ∧
      (s.invoked d.id : Int) = d.referenceCount_ ∧
      (s.returned d.id : Int) = d.referenceCount_ := by
  intro d hd hlt
  have h := hr.inv hn
  have hB := hr.barrierInv hn hn2
  have h1 := (hB.released_handed hn h hb hk hrel).1
  have h2 := (h.k4 b.id (by omega)).2
  have h3 := h.k3p d hd (by omega)
  have hnone : ∀ x ∈ s.threads_, ∀ t, x.held = some t → t.id ≠ d.id := by
    intro x hx t ht
    have := hB.c1 b hb m hk hrel x hx t ht
    omega
  have hH : s.holders d.id = 0 := by
    simp only [State.holders, List.countP_eq_zero]
    intro x hx hp
    cases x <;> simp [WorkerState.isHolding] at hp
    exact hnone _ hx _ rfl hp
  have hR : s.runners d.id = 0 := by
    simp only [State.runners, List.countP_eq_zero]
    intro x hx hp
    cases x <;> simp [WorkerState.isRunning] at hp
    exact hnone _ hx _ rfl hp
  have hW : s.waiters d.id = 0 := by
    simp only [State.waiters, List.countP_eq_zero]
    intro x hx hp
    cases x <;> simp [WorkerState.isWaiting] at hp
    exact hnone _ hx _ rfl hp
  have k1 := h.k1 d.id
  have k2 := h.k2 d.id
  refine ⟨?_, ?_, ?_⟩
  · intro q hq hqd
    have := (h.queue_id hq).1
    omega
  · rw [← h3]; congr 1; omega
  · rw [← h3]; congr 1; omega

theorem step_dispatch_sync_some {s : State} (r : Int) (l : Nat) (e : Bool)
    (hnil : s.threads_ = []) (hc : s.caller = CallerState.ready) :
    ∃ s1, step s (Action.dispatch r l e) = some s1 := by
  have hemp : s.threads_.isEmpty = true := by rw [hnil]; rfl
  simp only [step, TaskletRunner.dispatch, hemp, hc, if_true]
  by_cases hr : r ≤ 0
  · rw [syncLoop_of_nonpos _ _ hr]
    exact ⟨_, rfl⟩
  · have hk : (r : Int) = ((r.toNat : Nat) : Int) := by omega
    simp only [TaskletInterface.referenceCount]
    rw [syncLoop_of_not_barrier r.toNat _ _ (by simp) hk]
    exact ⟨_, rfl⟩

/-- A runner without workers dispatches a list of tasklets of the user. -/
theorem runActions_dispatchAll (ts : List (Int × Nat × Bool)) :
    ∀ s : State, SyncInv s → s.caller = CallerState.ready →
      ∃ s1, runActions s (dispatchAll ts) = some s1 ∧ SyncInv s1 ∧
        s1.caller = CallerState.ready ∧
        s1.dispatched.map TaskletInterface.signature
          = s.dispatched.map TaskletInterface.signature
            ++ ts.map (fun p => (p.1, TaskletKind.user p.2.1 p.2.2)) := by
  induction ts with
  | nil =>
    intro s h hc
    exact ⟨s, rfl, h, hc, by simp⟩
  | cons p ts ih =>
    intro s h hc
    obtain ⟨s1, hs1⟩ := step_dispatch_sync_some p.1 p.2.1 p.2.2 h.threads hc
    have h1 := h.sync_next hs1
    obtain ⟨_, hform⟩ := step_dispatch_sync h.threads hs1
    have hc1 : s1.caller = CallerState.ready := by rw [hform]; exact hc
    obtain ⟨s2, hs2, h2, hc2, hd2⟩ := ih s1 h1 hc1
    refine ⟨s2, ?_, h2, hc2, ?_⟩
    · simp only [dispatchAll, List.map_cons, runActions, hs1]
      exact hs2
    · rw [hd2, hform]
      simp [TaskletInterface.signature]

/-- In a state in which the caller has called `barrier()` after each dispatch
and is back from the last `barrier()`, the user code was run in the order of
dispatch, each tasklet as often as its reference count says. -/
theorem userTrace_of_barrierAfterEach {n : Nat} (hn : 1 ≤ n) (hn2 : n < 2 ^ 31)
    (ts : List (Int × Nat × Bool)) {s : State} (hr : Reachable n s)
    (hc : s.caller = CallerState.ready)
    (hh : s.dispatched.map TaskletInterface.signature = barrierAfterEach n ts) :
    s.userTrace = kindTrace (s.dispatched.map TaskletInterface.signature) := by
  have h := hr.inv hn
  have hB := hr.barrierInv hn hn2
  -- every tasklet of the user is directly followed by a barrier tasklet
  have hnext : ∀ d ∈ s.dispatched, ∀ l e, d.kind = TaskletKind.user l e →
      ∃ b ∈ s.dispatched, b.kind = TaskletKind.barrier n ∧ b.id = d.id + 1 := by
    intro d hd l e hk
    have h1 : (s.dispatched.map TaskletInterface.signature)[d.id]?
        = some (d.referenceCount_, TaskletKind.user l e) := by
      rw [List.getElem?_map, getElem?_of_mem_ids h.ids hd]
      simp [TaskletInterface.signature, hk]
    rw [hh] at h1
    have h2 := barrierAfterEach_next n ts d.id _ l e h1
    rw [← hh, List.getElem?_map] at h2
    cases hb : s.dispatched[d.id + 1]? with
    | none => rw [hb] at h2; cases h2
    | some b =>
      rw [hb] at h2
      simp only [Option.map_some', Option.some.injEq, TaskletInterface.signature,
        Prod.mk.injEq] at h2
      exact ⟨b, List.getElem?_mem hb, h2.2, id_of_getElem? h.ids hb⟩
  -- every tasklet of the user was run as often as its reference count says
  have hcount : ∀ d ∈ s.dispatched, ∀ l e, d.kind = TaskletKind.user l e →
      s.invoked d.id = d.referenceCount_.toNat := by
    intro d hd l e hk
    obtain ⟨b, hb, hbk, hbid⟩ := hnext d hd l e hk
    have hrel : n + 1 ≤ s.numWaiting_ b.id := by
      rcases hB.rel b hb n hbk with h0 | h0 | h0
      · exact h0
      · rw [hc] at h0; cases h0
      · rw [hc] at h0; cases h0
    have := (barrier_done hn hn2 hr hb hbk hrel d hd (by omega)).2.1
    omega
  have hlab : ∀ j, (s.labelOf j).isSome = true →
      ∃ d ∈ s.dispatched, d.id = j ∧ ∃ l e, d.kind = TaskletKind.user l e := by
    intro j hj
    cases hd : s.dispatched[j]? with
    | none => simp [State.labelOf, hd] at hj
    | some d =>
      refine ⟨d, List.getElem?_mem hd, id_of_getElem? h.ids hd, ?_⟩
      cases hk : d.kind with
      | user l e => exact ⟨l, e, rfl⟩
      | barrier m => simp [State.labelOf, hd, hk] at hj
      | terminateThread => simp [State.labelOf, hd, hk] at hj
  -- the identities of the tasklets of the user whose `run()` was called
  have hsorted : ((s.log.filterMap Event.invokedId).filter
      (fun j => (s.labelOf j).isSome)).Pairwise (fun i j => i ≤ j) := by
    have hp := hB.pw.filter (fun j => (s.labelOf j).isSome)
    refine List.Pairwise.imp_of_mem ?_ hp
    intro a b ha hb0 hab
    by_contra hlt
    have ha1 := (List.mem_filter.mp ha).2
    have hb1 := (List.mem_filter.mp hb0).2
    obtain ⟨da, hda, hida, la, ea, hka⟩ := hlab a ha1
    obtain ⟨db, hdb, hidb, lb, eb, hkb⟩ := hlab b hb1
    obtain ⟨c, hcm, hck, hcid⟩ := hnext db hdb lb eb hkb
    have hne : c.id ≠ da.id := by
      intro hid
      have := h.eq_of_id hcm hda hid
      rw [this, hka] at hck
      cases hck
    exact hab c hcm n hck ⟨by omega, by omega⟩
  have hbound : ∀ a ∈ (s.log.filterMap Event.invokedId).filter
      (fun j => (s.labelOf j).isSome), a < s.dispatched.length := by
    intro a ha
    exact h.invoked_lt (List.mem_filter.mp ha).1
  have hV := sorted_eq_flatMap_range s.dispatched.length _ hsorted hbound
  rw [State.userTrace, ← filterMap_filter_isSome s.labelOf, hV, ← h.ids, List.flatMap_map]
  refine trace_tail s h.ids _ ?_
  intro d hd l e hk
  have hl := labelOf_of_mem h.ids hd
  rw [hk] at hl
  rw [List.count_filter (by simp [hl]), count_invokedIds]
  exact hcount d hd l e hk

/-! ## A schedule that gets through every dispatch and every barrier -/

theorem runActions_append (as bs : List Action) :
    ∀ {s s1 s2 : State}, runActions s as = some s1 → runActions s1 bs = some s2 →
      runActions s (as ++ bs) = some s2 := by
  induction as with
  | nil =>
    intro s s1 s2 h1 h2
    simp only [runActions, Option.some.injEq] at h1
    subst h1; exact h2
  | cons a as ih =>
    intro s s1 s2 h1 h2
    simp only [runActions, List.cons_append] at h1 ⊢
    split at h1
    · exact ih h1 h2
    · simp at h1

theorem Steps.refl (s : State) : Steps s s := ⟨[], rfl⟩

theorem Steps.trans {s s1 s2 : State} (h1 : Steps s s1) (h2 : Steps s1 s2) : Steps s s2 := by
  obtain ⟨as, ha⟩ := h1
  obtain ⟨bs, hb⟩ := h2
  exact ⟨as ++ bs, runActions_append as bs ha hb⟩

theorem Steps.single {s s1 : State} (a : Action) (h : step s a = some s1) : Steps s s1 :=
  ⟨[a], by simp [runActions, h]⟩

theorem Steps.reachable {n : Nat} {s s1 : State} (h : Steps s s1) (hr : Reachable n s) :
    Reachable n s1 := by
  obtain ⟨as, ha⟩ := h
  exact reachable_runActions as hr ha

theorem step_lock_eq {s : State} {w : Nat} (hw : s.threads_[w]? = some WorkerState.parked)
    (hg : s.runnerMutex_ = false) :
    step s (Action.lockRunnerMutex w) =
      some { s with threads_ := s.threads_.set w WorkerState.dequeuing, runnerMutex_ := true } := by
  simp only [step, TaskletRunner.lockRunnerMutex, hw, hg, and_self, if_true]

theorem step_dequeue_eq {s : State} {w : Nat} {t : TaskletInterface}
    {rest : List TaskletInterface}
    (hw : s.threads_[w]? = some WorkerState.dequeuing) (hm : s.taskletQueueMutex_ = false)
    (hq : s.taskletQueue_ = t :: rest) (ht : t.isEndMarker = false) :
    step s (Action.dequeue w) =
      some { s with
        threads_ := s.threads_.set w (WorkerState.holding t.dereference),
        taskletQueue_ :=
          if t.dereference.referenceCount = 0 then rest else t.dereference :: rest,
        runnerMutex_ :=
          if (if t.dereference.referenceCount = 0 then rest
              else t.dereference :: rest).isEmpty then s.runnerMutex_ else false,
        log := s.log ++ [Event.handed t.id] } := by
  simp only [step, TaskletRunner.dequeue, hw, hm, and_self, if_true, hq, ht, Bool.false_eq_true,
    if_false]

theorem step_invoke_eq {s : State} {w : Nat} {t : TaskletInterface}
    (hw : s.threads_[w]? = some (WorkerState.holding t)) :
    step s (Action.invoke w) =
      some { s with threads_ := s.threads_.set w (WorkerState.running t),
                    log := s.log ++ [Event.invoked t.id] } := by
  simp only [step, TaskletRunner.invoke, hw]

theorem step_finish_user_eq {s : State} {w : Nat} {t : TaskletInterface} {l : Nat} {e : Bool}
    (hw : s.threads_[w]? = some (WorkerState.running t)) (hk : t.kind = TaskletKind.user l e) :
    step s (Action.finish w) =
      some { s with threads_ := s.threads_.set w WorkerState.parked,
                    log := s.log ++ [Event.returned t.id] } := by
  simp only [step, TaskletRunner.finish, hw, hk]

theorem step_finish_park_eq {s : State} {w : Nat} {t : TaskletInterface} {m : Nat}
    (hw : s.threads_[w]? = some (WorkerState.running t)) (hk : t.kind = TaskletKind.barrier m)
    (hf : ¬ (m + 1) % 2 ^ 32 ≤ (s.numWaiting_ t.id + 1) % 2 ^ 32) :
    step s (Action.finish w) =
      some { s with
        numWaiting_ := Function.update s.numWaiting_ t.id ((s.numWaiting_ t.id + 1) % 2 ^ 32),
        threads_ := s.threads_.set w (WorkerState.waiting t) } := by
  simp only [step, TaskletRunner.finish, hw, hk, BarrierTasklet.wait, decide_eq_true_eq, hf,
    if_false]

theorem step_wake_eq {s : State} {w : Nat} {t : TaskletInterface} {m : Nat}
    (hw : s.threads_[w]? = some (WorkerState.waiting t)) (hk : t.kind = TaskletKind.barrier m)
    (hf : (m + 1) % 2 ^ 32 ≤ s.numWaiting_ t.id) :
    step s (Action.wake w) =
      some { s with threads_ := s.threads_.set w WorkerState.parked,
                    log := s.log ++ [Event.returned t.id] } := by
  simp only [step, TaskletRunner.wake, hw, hk, BarrierTasklet.areAllWaiting, decide_eq_true_eq,
    hf, if_true]

theorem step_barrierWait_eq {s : State} {b : TaskletInterface} {m : Nat}
    (hc : s.caller = CallerState.barrierDispatched b) (hk : b.kind = TaskletKind.barrier m) :
    step s Action.barrierWait =
      some { s with
        numWaiting_ := Function.update s.numWaiting_ b.id ((s.numWaiting_ b.id + 1) % 2 ^ 32),
        caller := if (m + 1) % 2 ^ 32 ≤ (s.numWaiting_ b.id + 1) % 2 ^ 32
          then CallerState.ready else CallerState.inWait b } := by
  simp only [step, TaskletRunner.barrierWait, hc, hk, BarrierTasklet.wait, decide_eq_true_eq]

theorem step_dispatch_async_eq {s : State} (r : Int) (l : Nat) (e : Bool)
    (hne : s.threads_ ≠ []) (hc : s.caller = CallerState.ready)
    (hm : s.taskletQueueMutex_ = false) :
    step s (Action.dispatch r l e) =
      some { s with
        dispatched := s.dispatched ++
          [{ id := s.dispatched.length, referenceCount_ := r, kind := TaskletKind.user l e }],
        taskletQueue_ := s.taskletQueue_ ++
          [{ id := s.dispatched.length, referenceCount_ := r, kind := TaskletKind.user l e }],
        runnerMutex_ := false } := by
  simp only [step, dispatch_async _ hne, hc, hm, if_true, Bool.false_eq_true, if_false,
    Option.map_some']

theorem step_barrier_async_eq {s : State} (hne : s.threads_ ≠ [])
    (hu : toUnsigned s.threads_.length ≠ 0) (hc : s.caller = CallerState.ready)
    (hm : s.taskletQueueMutex_ = false) :
    step s Action.barrier =
      some { s with
        numWaiting_ := Function.update s.numWaiting_ s.dispatched.length 0,
        dispatched := s.dispatched ++
          [BarrierTasklet.create s.dispatched.length (toUnsigned s.threads_.length)],
        taskletQueue_ := s.taskletQueue_ ++
          [BarrierTasklet.create s.dispatched.length (toUnsigned s.threads_.length)],
        runnerMutex_ := false,
        caller := CallerState.barrierDispatched
          (BarrierTasklet.create s.dispatched.length (toUnsigned s.threads_.length)) } := by
  simp only [step, barrier_async hne, hc, hm, hu, if_true, Bool.false_eq_true, if_false]

/-- A parked worker gets through the gate, takes the head of the queue and
calls its `run()`. -/
theorem take_head {s : State} {w : Nat} {t : TaskletInterface} {rest : List TaskletInterface}
    (hw : s.threads_[w]? = some WorkerState.parked) (hg : s.runnerMutex_ = false)
    (hm : s.taskletQueueMutex_ = false) (hq : s.taskletQueue_ = t :: rest)
    (ht : t.isEndMarker = false) :
    ∃ s1, Steps s s1 ∧
      s1.threads_ = s.threads_.set w (WorkerState.running t.dereference) ∧
      s1.taskletQueue_ =
        (if t.dereference.referenceCount = 0 then rest else t.dereference :: rest) ∧
      (s1.taskletQueue_ ≠ [] → s1.runnerMutex_ = false) ∧
      s1.taskletQueueMutex_ = false ∧ s1.numWaiting_ = s.numWaiting_ ∧
      s1.caller = s.caller ∧ s1.dispatched = s.dispatched := by
  obtain ⟨sa, ea, ha⟩ : ∃ sa, step s (Action.lockRunnerMutex w) = some sa ∧
      sa = { s with threads_ := s.threads_.set w WorkerState.dequeuing, runnerMutex_ := true } :=
    ⟨_, step_lock_eq hw hg, rfl⟩
  have hwa : sa.threads_[w]? = some WorkerState.dequeuing := by
    rw [ha]; exact getElem?_set_of_getElem? WorkerState.dequeuing hw
  have hma : sa.taskletQueueMutex_ = false := by rw [ha]; exact hm
  have hqa : sa.taskletQueue_ = t :: rest := by rw [ha]; exact hq
  obtain ⟨sb, eb, hb⟩ : ∃ sb, step sa (Action.dequeue w) = some sb ∧ sb = { sa with
        threads_ := sa.threads_.set w (WorkerState.holding t.dereference),
        taskletQueue_ :=
          if t.dereference.referenceCount = 0 then rest else t.dereference :: rest,
        runnerMutex_ :=
          if (if t.dereference.referenceCount = 0 then rest
              else t.dereference :: rest).isEmpty then sa.runnerMutex_ else false,
        log := sa.log ++ [Event.handed t.id] } :=
    ⟨_, step_dequeue_eq hwa hma hqa ht, rfl⟩
  have hwb : sb.threads_[w]? = some (WorkerState.holding t.dereference) := by
    rw [hb]; exact getElem?_set_of_getElem? _ hwa
  obtain ⟨sc, ec, hc⟩ : ∃ sc, step sb (Action.invoke w) = some sc ∧ sc = { sb with
        threads_ := sb.threads_.set w (WorkerState.running t.dereference),
        log := sb.log ++ [Event.invoked t.dereference.id] } :=
    ⟨_, step_invoke_eq hwb, rfl⟩
  refine ⟨sc, (Steps.single _ ea).trans ((Steps.single _ eb).trans (Steps.single _ ec)),
    ?_, ?_, ?_, ?_, ?_, ?_, ?_⟩
  · rw [hc, hb, ha]; simp only [List.set_set]
  · rw [hc, hb]
  · rw [hc, hb]
    intro hne
    simp only at hne ⊢
    rw [if_neg]
    intro hemp
    exact hne (List.isEmpty_iff.mp hemp)
  · rw [hc, hb]; exact hma
  · rw [hc, hb, ha]
  · rw [hc, hb, ha]
  · rw [hc, hb, ha]

/-- The code of the user returns on worker `w`. -/
theorem worker_runs_user {s : State} {w : Nat} {t : TaskletInterface} {l : Nat} {e : Bool}
    (hw : s.threads_[w]? = some (WorkerState.running t)) (hk : t.kind = TaskletKind.user l e) :
    ∃ s1, Steps s s1 ∧ s1.threads_ = s.threads_.set w WorkerState.parked ∧
      s1.taskletQueue_ = s.taskletQueue_ ∧ s1.runnerMutex_ = s.runnerMutex_ ∧
      s1.taskletQueueMutex_ = s.taskletQueueMutex_ ∧ s1.numWaiting_ = s.numWaiting_ ∧
      s1.caller = s.caller ∧ s1.dispatched = s.dispatched :=
  ⟨_, Steps.single _ (step_finish_user_eq hw hk), rfl, rfl, rfl, rfl, rfl, rfl, rfl⟩

theorem quiet_after_cycle {n : Nat} {s s1 : State} {w : Nat} {x : WorkerState}
    (hQ : Quiet n s) (ht : s1.threads_ = (s.threads_.set w x).set w WorkerState.parked)
    (hm : s1.taskletQueueMutex_ = false) : Quiet n s1 := by
  refine ⟨?_, ?_, hm⟩
  · rw [ht]; simp only [List.length_set]; exact hQ.1
  · intro i hi
    rw [ht, List.set_set, List.getElem?_set]
    split
    · rw [if_pos (by rw [hQ.1]; omega)]
    · exact hQ.2.1 i hi

/-- One worker runs the only tasklet in the queue, a tasklet of the user, as
often as its reference count says. -/
theorem run_tasklet {n : Nat} (hn : 1 ≤ n) (k : Nat) :
    ∀ (s : State) (t : TaskletInterface), Quiet n s → s.taskletQueue_ = [t] →
      t.referenceCount_ = (k : Int) + 1 → (∃ l, t.kind = TaskletKind.user l false) →
      s.runnerMutex_ = false →
      ∃ s1, Steps s s1 ∧ Quiet n s1 ∧ s1.taskletQueue_ = [] ∧ s1.caller = s.caller ∧
        s1.dispatched = s.dispatched ∧ s1.numWaiting_ = s.numWaiting_ := by
  induction k with
  | zero =>
    intro s t hQ hq hrc hk hg
    obtain ⟨l, hkl⟩ := hk
    have hend : t.isEndMarker = false := by simp [TaskletInterface.isEndMarker, hkl]
    obtain ⟨s1, hs1, ht1, hq1, _, hm1, hn1, hc1, hd1⟩ :=
      take_head (hQ.2.1 0 (by omega)) hg hQ.2.2 hq hend
    have hw1 : s1.threads_[0]? = some (WorkerState.running t.dereference) := by
      rw [ht1]; exact getElem?_set_of_getElem? _ (hQ.2.1 0 (by omega))
    obtain ⟨s2, hs2, ht2, hq2, _, hm2, hn2, hc2, hd2⟩ := worker_runs_user hw1 hkl
    refine ⟨s2, hs1.trans hs2, ?_, ?_, by rw [hc2, hc1], by rw [hd2, hd1], by rw [hn2, hn1]⟩
    · exact quiet_after_cycle hQ (by rw [ht2, ht1]) (by rw [hm2, hm1])
    · rw [hq2, hq1, if_pos]
      simp only [TaskletInterface.referenceCount, TaskletInterface.dereference, hrc]
      omega
  | succ k ih =>
    intro s t hQ hq hrc hk hg
    obtain ⟨l, hkl⟩ := hk
    have hend : t.isEndMarker = false := by simp [TaskletInterface.isEndMarker, hkl]
    obtain ⟨s1, hs1, ht1, hq1, hg1, hm1, hn1, hc1, hd1⟩ :=
      take_head (hQ.2.1 0 (by omega)) hg hQ.2.2 hq hend
    have hw1 : s1.threads_[0]? = some (WorkerState.running t.dereference) := by
      rw [ht1]; exact getElem?_set_of_getElem? _ (hQ.2.1 0 (by omega))
    obtain ⟨s2, hs2, ht2, hq2, hg2, hm2, hn2, hc2, hd2⟩ := worker_runs_user hw1 hkl
    have hq3 : s1.taskletQueue_ = [t.dereference] := by
      rw [hq1, if_neg]
      simp only [TaskletInterface.referenceCount, TaskletInterface.dereference, hrc]
      push_cast
      omega
    have hQ2 : Quiet n s2 :=
      quiet_after_cycle hQ (by rw [ht2, ht1]) (by rw [hm2, hm1])
    obtain ⟨s3, hs3, hQ3, hq4, hc3, hd3, hn3⟩ := ih s2 t.dereference hQ2 (by rw [hq2, hq3])
      (by simp only [TaskletInterface.dereference, hrc]; push_cast; omega) ⟨l, hkl⟩
      (by rw [hg2]; exact hg1 (by rw [hq3]; simp))
    exact ⟨s3, hs1.trans (hs2.trans hs3), hQ3, hq4, by rw [hc3, hc2, hc1],
      by rw [hd3, hd2, hd1], by rw [hn3, hn2, hn1]⟩

/-- A worker enters `wait()` of a barrier tasklet and parks. -/
theorem worker_parks {s : State} {w : Nat} {t : TaskletInterface} {m : Nat}
    (hw : s.threads_[w]? = some (WorkerState.running t)) (hk : t.kind = TaskletKind.barrier m)
    (hf : ¬ (m + 1) % 2 ^ 32 ≤ (s.numWaiting_ t.id + 1) % 2 ^ 32) :
    ∃ s1, Steps s s1 ∧ s1.threads_ = s.threads_.set w (WorkerState.waiting t) ∧
      s1.taskletQueue_ = s.taskletQueue_ ∧ s1.runnerMutex_ = s.runnerMutex_ ∧
      s1.taskletQueueMutex_ = s.taskletQueueMutex_ ∧
      s1.numWaiting_ =
        Function.update s.numWaiting_ t.id ((s.numWaiting_ t.id + 1) % 2 ^ 32) ∧
      s1.caller = s.caller ∧ s1.dispatched = s.dispatched :=
  ⟨_, Steps.single _ (step_finish_park_eq hw hk hf), rfl, rfl, rfl, rfl, rfl, rfl, rfl⟩

/-- A worker parked in `wait()` of a released barrier returns to the top of
its loop. -/
theorem wake_worker {s : State} {w : Nat} {t : TaskletInterface} {m : Nat}
    (hw : s.threads_[w]? = some (WorkerState.waiting t)) (hk : t.kind = TaskletKind.barrier m)
    (hf : (m + 1) % 2 ^ 32 ≤ s.numWaiting_ t.id) :
    ∃ s1, Steps s s1 ∧ s1.threads_ = s.threads_.set w WorkerState.parked ∧
      s1.taskletQueue_ = s.taskletQueue_ ∧ s1.runnerMutex_ = s.runnerMutex_ ∧
      s1.taskletQueueMutex_ = s.taskletQueueMutex_ ∧ s1.numWaiting_ = s.numWaiting_ ∧
      s1.caller = s.caller ∧ s1.dispatched = s.dispatched :=
  ⟨_, Steps.single _ (step_wake_eq hw hk hf), rfl, rfl, rfl, rfl, rfl, rfl, rfl⟩

/-- The workers `w`, `w + 1`, ... take the barrier tasklet one after the
other and park in its `wait()`. -/
theorem arrive_all {n : Nat} (hn2 : n < 2 ^ 31) (j : Nat) (m : Nat) :
    ∀ (w : Nat) (s : State), w + m = n → Arrived n j w s → s.numWaiting_ j = w →
      (0 < m → (∃ t, s.taskletQueue_ = [t] ∧ t.id = j ∧ t.kind = TaskletKind.barrier n ∧
        t.referenceCount_ = (m : Int)) ∧ s.runnerMutex_ = false) →
      (m = 0 → s.taskletQueue_ = []) →
      ∃ s1, Steps s s1 ∧ Arrived n j n s1 ∧ s1.numWaiting_ j = n ∧ s1.taskletQueue_ = [] ∧
        s1.caller = s.caller ∧ s1.dispatched = s.dispatched := by
  induction m with
  | zero =>
    intro w s hwm hA hnw _ hq0
    have hw : w = n := by omega
    subst hw
    exact ⟨s, Steps.refl s, hA, hnw, hq0 rfl, rfl, rfl⟩
  | succ m ih =>
    intro w s hwm hA hnw hq _
    obtain ⟨⟨t, hqt, htid, htk, htrc⟩, hg⟩ := hq (by omega)
    obtain ⟨hlen, hwait, hpark, hmx⟩ := hA
    have hend : t.isEndMarker = false := by simp [TaskletInterface.isEndMarker, htk]
    have hwp := hpark w (Nat.le_refl w) (by omega)
    obtain ⟨s1, hs1, ht1, hq1, hg1, hm1, hn1, hc1, hd1⟩ := take_head hwp hg hmx hqt hend
    have hw1 : s1.threads_[w]? = some (WorkerState.running t.dereference) := by
      rw [ht1]; exact getElem?_set_of_getElem? _ hwp
    have hk1 : t.dereference.kind = TaskletKind.barrier n := htk
    have hid1 : t.dereference.id = j := htid
    have hf : ¬ (n + 1) % 2 ^ 32 ≤ (s1.numWaiting_ t.dereference.id + 1) % 2 ^ 32 := by
      rw [hid1, hn1, hnw, mod_succ_of_lt hn2, Nat.mod_eq_of_lt (by omega)]
      omega
    obtain ⟨s2, hs2, ht2, hq2, hg2, hm2, hn2', hc2, hd2⟩ := worker_parks hw1 hk1 hf
    have hrc1 : t.dereference.referenceCount_ = (m : Int) := by
      simp only [TaskletInterface.dereference, htrc]; push_cast; omega
    have hA2 : Arrived n j (w + 1) s2 := by
      refine ⟨?_, ?_, ?_, by rw [hm2, hm1]⟩
      · rw [ht2, ht1]; simp only [List.length_set]; exact hlen
      · intro i hi
        rw [ht2, ht1, List.set_set, List.getElem?_set]
        by_cases hiw : w = i
        · rw [if_pos hiw, if_pos (by omega)]
          exact ⟨t.dereference, rfl, hid1, hk1⟩
        · rw [if_neg hiw]
          exact hwait i (by omega)
      · intro i hi1 hi2
        rw [ht2, ht1, List.set_set, List.getElem?_set, if_neg (by omega)]
        exact hpark i (by omega) hi2
    have hnw2 : s2.numWaiting_ j = w + 1 := by
      rw [hn2', hid1, Function.update_same, hn1, hnw, Nat.mod_eq_of_lt (by omega)]
    obtain ⟨s3, hs3, hA3, hnw3, hq3, hc3, hd3⟩ := ih (w + 1) s2 (by omega) hA2 hnw2
      (by
        intro hm0
        have hq1' : s1.taskletQueue_ = [t.dereference] := by
          rw [hq1, if_neg]
          simp only [TaskletInterface.referenceCount, hrc1]
          omega
        refine ⟨⟨t.dereference, by rw [hq2, hq1'], hid1, hk1, hrc1⟩, ?_⟩
        rw [hg2]; exact hg1 (by rw [hq1']; simp))
      (by
        intro hm0
        rw [hq2, hq1, if_pos]
        simp only [TaskletInterface.referenceCount, hrc1, hm0]
        rfl)
    exact ⟨s3, hs1.trans (hs2.trans hs3), hA3, hnw3, hq3, by rw [hc3, hc2, hc1],
      by rw [hd3, hd2, hd1]⟩

/-- The workers `w`, `w + 1`, ... return from `wait()` of the released
barrier. -/
theorem wake_all {n : Nat} (hn2 : n < 2 ^ 31) (j : Nat) (m : Nat) :
    ∀ (w : Nat) (s : State), w + m = n → Woken n j w s → n + 1 ≤ s.numWaiting_ j →
      ∃ s1, Steps s s1 ∧ Woken n j n s1 ∧ s1.taskletQueue_ = s.taskletQueue_ ∧
        s1.caller = s.caller ∧ s1.dispatched = s.dispatched := by
  induction m with
  | zero =>
    intro w s hwm hW _
    have hw : w = n := by omega
    subst hw
    exact ⟨s, Steps.refl s, hW, rfl, rfl, rfl⟩
  | succ m ih =>
    intro w s hwm hW hnw
    obtain ⟨hlen, hpark, hwait, hmx⟩ := hW
    obtain ⟨u, hu, huid, huk⟩ := hwait w (Nat.le_refl w) (by omega)
    obtain ⟨s1, hs1, ht1, hq1, _, hm1, hn1, hc1, hd1⟩ :=
      wake_worker hu huk (by rw [mod_succ_of_lt hn2, huid]; exact hnw)
    have hW1 : Woken n j (w + 1) s1 := by
      refine ⟨?_, ?_, ?_, by rw [hm1]; exact hmx⟩
      · rw [ht1]; simp only [List.length_set]; exact hlen
      · intro i hi
        rw [ht1, List.getElem?_set]
        by_cases hiw : w = i
        · rw [if_pos hiw, if_pos (by omega)]
        · rw [if_neg hiw]
          exact hpark i (by omega)
      · intro i hi1 hi2
        rw [ht1, List.getElem?_set, if_neg (by omega)]
        exact hwait i (by omega) hi2
    obtain ⟨s2, hs2, hW2, hq2, hc2, hd2⟩ := ih (w + 1) s1 (by omega) hW1 (by rw [hn1]; exact hnw)
    exact ⟨s2, hs1.trans hs2, hW2, by rw [hq2, hq1], by rw [hc2, hc1], by rw [hd2, hd1]⟩

/-- A call of `barrier()` on a quiet runner with an empty queue can be
completed: all workers and the caller meet at the barrier and leave it. -/
theorem barrier_round {n : Nat} (hn : 1 ≤ n) (hn2 : n < 2 ^ 31) {s : State} (hQ : Quiet n s)
    (hq : s.taskletQueue_ = []) (hc : s.caller = CallerState.ready) :
    ∃ s1, Steps s s1 ∧ Quiet n s1 ∧ s1.taskletQueue_ = [] ∧ s1.caller = CallerState.ready ∧
      s1.dispatched = s.dispatched ++ [BarrierTasklet.create s.dispatched.length n] := by
  obtain ⟨hlen, hpark, hmx⟩ := hQ
  have hne : s.threads_ ≠ [] := by
    intro h0; rw [h0] at hlen; simp at hlen; omega
  have hun : toUnsigned s.threads_.length = n := by
    rw [hlen]; exact Nat.mod_eq_of_lt (by omega)
  have hint : toInt n = (n : Int) := by
    have : n % 2 ^ 32 = n := Nat.mod_eq_of_lt (by omega)
    simp only [toInt, this]
    rw [if_pos hn2]
  obtain ⟨sa, ea, ha⟩ : ∃ sa, step s Action.barrier = some sa ∧ sa = { s with
        numWaiting_ := Function.update s.numWaiting_ s.dispatched.length 0,
        dispatched := s.dispatched ++
          [BarrierTasklet.create s.dispatched.length (toUnsigned s.threads_.length)],
        taskletQueue_ := s.taskletQueue_ ++
          [BarrierTasklet.create s.dispatched.length (toUnsigned s.threads_.length)],
        runnerMutex_ := false,
        caller := CallerState.barrierDispatched
          (BarrierTasklet.create s.dispatched.length (toUnsigned s.threads_.length)) } :=
    ⟨_, step_barrier_async_eq hne (by rw [hun]; omega) hc hmx, rfl⟩
  rw [hun, hq, List.nil_append] at ha
  have hA0 : Arrived n s.dispatched.length 0 sa := by
    rw [ha]
    exact ⟨hlen, fun i hi => absurd hi (by omega), fun i _ hi => hpark i hi, hmx⟩
  obtain ⟨sb, hsb, hAb, hnb, hqb, hcb, hdb⟩ := arrive_all hn2 s.dispatched.length n 0 sa
    (by omega) hA0 (by rw [ha]; simp)
    (by
      intro _
      rw [ha]
      exact ⟨⟨_, rfl, rfl, rfl, hint⟩, rfl⟩)
    (by intro h0; omega)
  have hcb' : sb.caller = CallerState.barrierDispatched
      (BarrierTasklet.create s.dispatched.length n) := by rw [hcb, ha]
  obtain ⟨sc, ec, hsc⟩ : ∃ sc, step sb Action.barrierWait = some sc ∧ sc = { sb with
        numWaiting_ := Function.update sb.numWaiting_
          (BarrierTasklet.create s.dispatched.length n).id
          ((sb.numWaiting_ (BarrierTasklet.create s.dispatched.length n).id + 1) % 2 ^ 32),
        caller := if (n + 1) % 2 ^ 32 ≤
            (sb.numWaiting_ (BarrierTasklet.create s.dispatched.length n).id + 1) % 2 ^ 32
          then CallerState.ready else CallerState.inWait
            (BarrierTasklet.create s.dispatched.length n) } :=
    ⟨_, step_barrierWait_eq hcb' rfl, rfl⟩
  have hid : (BarrierTasklet.create s.dispatched.length n).id = s.dispatched.length := rfl
  rw [hid, hnb] at hsc
  have hWc : Woken n s.dispatched.length 0 sc := by
    rw [hsc]
    exact ⟨hAb.1, fun i hi => absurd hi (by omega), fun i _ hi => hAb.2.1 i hi, hAb.2.2.2⟩
  have hnc : n + 1 ≤ sc.numWaiting_ s.dispatched.length := by
    rw [hsc]
    simp only [Function.update_same]
    rw [mod_succ_of_lt hn2]
  obtain ⟨sd, hsd, hWd, hqd, hcd, hdd⟩ := wake_all hn2 s.dispatched.length n 0 sc
    (by omega) hWc hnc
  refine ⟨sd, (Steps.single _ ea).trans (hsb.trans ((Steps.single _ ec).trans hsd)),
    ⟨hWd.1, hWd.2.1, hWd.2.2.2⟩, ?_, ?_, ?_⟩
  · rw [hqd, hsc]; exact hqb
  · rw [hcd, hsc]
    simp only
    rw [if_pos (Nat.le_refl _)]
  · rw [hdd, hsc]
    simp only
    rw [hdb, ha]

/-- For every list of tasklets with positive reference counts, none of them
an end marker, there is a run of the runner with `n` workers in which the
caller dispatches them in order, calls `barrier()` after each and gets back
from every `barrier()`. -/
theorem barrierAfterEach_reachable {n : Nat} (hn : 1 ≤ n) (hn2 : n < 2 ^ 31)
    (ts : List (Int × Nat × Bool)) (hpos : ∀ p ∈ ts, 1 ≤ p.1)
    (hmark : ∀ p ∈ ts, p.2.2 = false) :
    ∀ s : State, Quiet n s → s.taskletQueue_ = [] → s.caller = CallerState.ready →
      ∃ s1, Steps s s1 ∧ Quiet n s1 ∧ s1.taskletQueue_ = [] ∧ s1.caller = CallerState.ready ∧
        s1.dispatched.map TaskletInterface.signature
          = s.dispatched.map TaskletInterface.signature ++ barrierAfterEach n ts := by
  induction ts with
  | nil =>
    intro s hQ hq hc
    exact ⟨s, Steps.refl s, hQ, hq, hc, by simp [barrierAfterEach]⟩
  | cons p ts ih =>
    intro s hQ hq hc
    have hp := hpos p (List.mem_cons_self _ _)
    have hpm := hmark p (List.mem_cons_self _ _)
    have hne : s.threads_ ≠ [] := by
      intro h0; have := hQ.1; rw [h0] at this; simp at this; omega
    obtain ⟨sa, ea, ha⟩ : ∃ sa, step s (Action.dispatch p.1 p.2.1 p.2.2) = some sa ∧
        sa = { s with
          dispatched := s.dispatched ++
            [{ id := s.dispatched.length, referenceCount_ := p.1,
               kind := TaskletKind.user p.2.1 p.2.2 }],
          taskletQueue_ := s.taskletQueue_ ++
            [{ id := s.dispatched.length, referenceCount_ := p.1,
               kind := TaskletKind.user p.2.1 p.2.2 }],
          runnerMutex_ := false } :=
      ⟨_, step_dispatch_async_eq p.1 p.2.1 p.2.2 hne hc hQ.2.2, rfl⟩
    rw [hq, List.nil_append] at ha
    have hQa : Quiet n sa := by rw [ha]; exact hQ
    obtain ⟨sb, hsb, hQb, hqb, hcb, hdb, _⟩ := run_tasklet hn (p.1.toNat - 1) sa
      { id := s.dispatched.length, referenceCount_ := p.1,
        kind := TaskletKind.user p.2.1 p.2.2 }
      hQa (by rw [ha]) (by simp only; omega) ⟨p.2.1, by rw [hpm]⟩ (by rw [ha])
    have hcb' : sb.caller = CallerState.ready := by rw [hcb, ha]; exact hc
    obtain ⟨sc, hsc, hQc, hqc, hcc, hdc⟩ := barrier_round hn hn2 hQb hqb hcb'
    obtain ⟨sd, hsd, hQd, hqd, hcd, hdd⟩ := ih (fun q hq0 => hpos q (List.mem_cons_of_mem _ hq0))
      (fun q hq0 => hmark q (List.mem_cons_of_mem _ hq0)) sc hQc hqc hcc
    refine ⟨sd, (Steps.single _ ea).trans (hsb.trans (hsc.trans hsd)), hQd, hqd, hcd, ?_⟩
    have hint : toInt n = (n : Int) := by
      have : n % 2 ^ 32 = n := Nat.mod_eq_of_lt (by omega)
      simp only [toInt, this]
      rw [if_pos hn2]
    rw [hdd, hdc, hdb, ha]
    simp [barrierAfterEach, TaskletInterface.signature, BarrierTasklet.create, hint]

/-! ## The calls of `wait()` -/

theorem step_finish_release_eq {s : State} {w : Nat} {t : TaskletInterface} {m : Nat}
    (hw : s.threads_[w]? = some (WorkerState.running t)) (hk : t.kind = TaskletKind.barrier m)
    (hf : (m + 1) % 2 ^ 32 ≤ (s.numWaiting_ t.id + 1) % 2 ^ 32) :
    step s (Action.finish w) =
      some { s with
        numWaiting_ := Function.update s.numWaiting_ t.id ((s.numWaiting_ t.id + 1) % 2 ^ 32),
        threads_ := s.threads_.set w WorkerState.parked,
        log := s.log ++ [Event.returned t.id] } := by
  simp only [step, TaskletRunner.finish, hw, hk, BarrierTasklet.wait, decide_eq_true_eq, hf,
    if_true]

theorem step_wake_none {s : State} {w : Nat} {t : TaskletInterface} {m : Nat}
    (hw : s.threads_[w]? = some (WorkerState.waiting t)) (hk : t.kind = TaskletKind.barrier m)
    (hf : ¬ (m + 1) % 2 ^ 32 ≤ s.numWaiting_ t.id) :
    step s (Action.wake w) = none := by
  simp only [step, TaskletRunner.wake, hw, hk, BarrierTasklet.areAllWaiting, decide_eq_true_eq,
    hf, if_false]

theorem step_barrierWake_eq {s : State} {b : TaskletInterface} {m : Nat}
    (hc : s.caller = CallerState.inWait b) (hk : b.kind = TaskletKind.barrier m)
    (hf : (m + 1) % 2 ^ 32 ≤ s.numWaiting_ b.id) :
    step s Action.barrierWake = some { s with caller := CallerState.ready } := by
  simp only [step, TaskletRunner.barrierWake, hc, hk, BarrierTasklet.areAllWaiting,
    decide_eq_true_eq, hf, if_true]

theorem step_barrierWake_none {s : State} {b : TaskletInterface} {m : Nat}
    (hc : s.caller = CallerState.inWait b) (hk : b.kind = TaskletKind.barrier m)
    (hf : ¬ (m + 1) % 2 ^ 32 ≤ s.numWaiting_ b.id) :
    step s Action.barrierWake = none := by
  simp only [step, TaskletRunner.barrierWake, hc, hk, BarrierTasklet.areAllWaiting,
    decide_eq_true_eq, hf, if_false]

/-- A barrier tasklet in the hand of a worker was created by `barrier()` for
the `n` workers of the runner. -/
theorem Reachable.barrier_held {n : Nat} (hn : 1 ≤ n) (hn2 : n < 2 ^ 31) {s : State}
    (hr : Reachable n s) {x : WorkerState} {t : TaskletInterface} {m : Nat}
    (hx : x ∈ s.threads_) (ht : x.held = some t) (hk : t.kind = TaskletKind.barrier m) :
    m = n ∧ ∃ d ∈ s.dispatched, d.id = t.id ∧ d.kind = TaskletKind.barrier n := by
  have h := hr.inv hn
  have hB := hr.barrierInv hn hn2
  have hpos := h.handed_pos_of_held hx ht
  obtain ⟨d, hd, hid⟩ := h.exists_of_lt (h.k4 t.id hpos).1
  have hkd : d.kind = TaskletKind.barrier m := by rw [h.hkind _ hx t ht d hd hid, hk]
  have hm := (hB.bk d hd m hkd).1
  subst hm
  exact ⟨rfl, d, hd, hid, hkd⟩

/-- The parties that have gone through the locked part of `wait()` of a
barrier tasklet, the call the thread in `barrier()` still owes and the
workers that are about to call `wait()` are at most `n + 1`. -/
theorem Reachable.barrier_count_le {n : Nat} (hn : 1 ≤ n) (hn2 : n < 2 ^ 31) {s : State}
    (hr : Reachable n s) {b : TaskletInterface} {m : Nat} (hb : b ∈ s.dispatched)
    (hk : b.kind = TaskletKind.barrier m) :
    s.numWaiting_ b.id + s.pending b.id + s.runners b.id ≤ n + 1 := by
  have h := hr.inv hn
  have hB := hr.barrierInv hn hn2
  have h1 := hB.bstar b hb m hk
  have h2 := h.returned_le b.id
  have h3 := (hB.bk b hb m hk).2
  have h4 := h.handed_le hb (by rw [h3]; omega)
  rw [h3] at h4
  omega

/-- The thread in `barrier()` that has not called `wait()` yet finds at most
`n` arrivals. -/
theorem Reachable.caller_count_le {n : Nat} (hn : 1 ≤ n) (hn2 : n < 2 ^ 31) {s : State}
    (hr : Reachable n s) {b : TaskletInterface}
    (hc : s.caller = CallerState.barrierDispatched b) :
    b.kind = TaskletKind.barrier n ∧ s.numWaiting_ b.id ≤ n := by
  have hB := hr.barrierInv hn hn2
  obtain ⟨hb, hk, _⟩ := hB.cb b (Or.inl hc)
  have h1 := hr.barrier_count_le hn hn2 hb hk
  have hp : s.pending b.id = 1 := by simp [State.pending, hc]
  exact ⟨hk, by omega⟩

/-- The arithmetic of the locked part of `wait()` for a barrier tasklet for
`n` workers (`n < 2 ^ 31`), when `c ≤ n` parties have arrived before the
call. -/
theorem wait_arithmetic (s : State) (id n : Nat) (hn : n < 2 ^ 31)
    (hc : s.numWaiting_ id ≤ n) :
    (BarrierTasklet.create id n).referenceCount = (n : Int) ∧
    (BarrierTasklet.create id n).kind = TaskletKind.barrier n ∧
    (BarrierTasklet.wait s id n).1.numWaiting_ id = s.numWaiting_ id + 1 ∧
    (s.numWaiting_ id + 1 < n + 1 →
      (BarrierTasklet.wait s id n).2 = false ∧
      BarrierTasklet.areAllWaiting (BarrierTasklet.wait s id n).1 id n = false) ∧
    (s.numWaiting_ id + 1 = n + 1 →
      (BarrierTasklet.wait s id n).2 = true ∧
      BarrierTasklet.areAllWaiting (BarrierTasklet.wait s id n).1 id n = true) ∧
    (∀ s2 : State, BarrierTasklet.areAllWaiting s2 id n = true ↔ n + 1 ≤ s2.numWaiting_ id) := by
  have h1 : (n + 1) % 2 ^ 32 = n + 1 := mod_succ_of_lt hn
  have h2 : (s.numWaiting_ id + 1) % 2 ^ 32 = s.numWaiting_ id + 1 :=
    Nat.mod_eq_of_lt (by omega)
  have h3 : n % 2 ^ 32 = n := Nat.mod_eq_of_lt (by omega)
  refine ⟨?_, rfl, ?_, ?_, ?_, ?_⟩
  · simp only [BarrierTasklet.create, TaskletInterface.referenceCount, toInt, h3]
    rw [if_pos hn]
  · simp only [BarrierTasklet.wait, Function.update_same, h2]
  · intro hlt
    simp only [BarrierTasklet.wait, BarrierTasklet.areAllWaiting, Function.update_same, h1, h2]
    simp only [decide_eq_false_iff_not]
    omega
  · intro heq
    simp only [BarrierTasklet.wait, BarrierTasklet.areAllWaiting, Function.update_same, h1, h2]
    simp only [decide_eq_true_eq]
    omega
  · intro s2
    simp only [BarrierTasklet.areAllWaiting, h1, decide_eq_true_eq]


/-! ## The calls of `run()` while the caller goes through its dispatches -/

theorem flatMap_initial {α β : Type} (f F : α → List β) (R : List β) :
    ∀ D : List α, (∀ d ∈ D, f d <+: F d) →
      D.Pairwise (fun a b => f a = F a ∨ f b = []) →
      D.flatMap f <+: D.flatMap F ++ R := by
  intro D
  induction D with
  | nil => intro _ _; exact ⟨_, rfl⟩
  | cons a D ih =>
    intro hp hpw
    rw [List.pairwise_cons] at hpw
    by_cases h : f a = F a
    · obtain ⟨t, ht⟩ := ih (fun d hd => hp d (List.mem_cons_of_mem _ hd)) hpw.2
      refine ⟨t, ?_⟩
      simp only [List.flatMap_cons, h, List.append_assoc, ht]
    · have hnil : D.flatMap f = [] := by
        rw [List.flatMap_eq_nil_iff]
        intro b hb
        rcases hpw.1 b hb with h0 | h0
        · exact absurd h0 h
        · exact h0
      obtain ⟨u, hu⟩ := hp a (List.mem_cons_self _ _)
      refine ⟨u ++ (D.flatMap F ++ R), ?_⟩
      simp only [List.flatMap_cons, hnil, List.append_nil, List.append_assoc]
      rw [← List.append_assoc, hu]

theorem replicate_initial {α : Type} (a : α) {m k : Nat} (h : m ≤ k) :
    List.replicate m a <+: List.replicate k a := by
  refine ⟨List.replicate (k - m) a, ?_⟩
  rw [List.append_replicate_replicate]
  congr 1
  omega

/-- From the identities whose `run()` was called, in increasing order, each
`c d` times, to the user code that was run. -/
theorem trace_tail_counts (s : State)
    (hids : s.dispatched.map TaskletInterface.id = List.range s.dispatched.length)
    (c : TaskletInterface → Nat) :
    (s.dispatched.flatMap (fun d => List.replicate (c d) d.id)).filterMap s.labelOf
      = s.dispatched.flatMap (fun d =>
          match d.kind with
          | TaskletKind.user l _ => List.replicate (c d) l
          | _ => []) := by
  rw [List.filterMap_flatMap]
  apply flatMap_congr_mem
  intro d hd
  have hl := labelOf_of_mem hids hd
  cases hk : d.kind with
  | user l e =>
    rw [hk] at hl
    simp only
    rw [List.filterMap_replicate_of_some hl]
  | barrier m =>
    rw [hk] at hl
    simp only
    rw [List.filterMap_replicate_of_none hl]
  | terminateThread =>
    rw [hk] at hl
    simp only
    rw [List.filterMap_replicate_of_none hl]

/-- In a state in which the caller has so far dispatched an initial part of
the tasklets `ts`, calling `barrier()` after each, a tasklet of the user that
is not the last tasklet dispatched is directly followed by a barrier
tasklet. -/
theorem barrier_follows {n : Nat} (hn : 1 ≤ n) (ts : List (Int × Nat × Bool)) {s : State}
    (hr : Reachable n s)
    (hh : s.dispatched.map TaskletInterface.signature <+: barrierAfterEach n ts) :
    ∀ d ∈ s.dispatched, ∀ l e, d.kind = TaskletKind.user l e →
      d.id + 1 < s.dispatched.length →
      ∃ b ∈ s.dispatched, b.kind = TaskletKind.barrier n ∧ b.id = d.id + 1 := by
  have h := hr.inv hn
  obtain ⟨r, hB⟩ := hh
  intro d hd l e hk hlt
  have h1 : (s.dispatched.map TaskletInterface.signature)[d.id]?
      = some (d.referenceCount_, TaskletKind.user l e) := by
    rw [List.getElem?_map, getElem?_of_mem_ids h.ids hd]
    simp [TaskletInterface.signature, hk]
  have h1' : (barrierAfterEach n ts)[d.id]?
      = some (d.referenceCount_, TaskletKind.user l e) := by
    rw [← hB, List.getElem?_append_left (by rw [List.length_map]; omega)]
    exact h1
  have h2 := barrierAfterEach_next n ts d.id _ l e h1'
  rw [← hB, List.getElem?_append_left (by rw [List.length_map]; exact hlt),
    List.getElem?_map] at h2
  cases hb : s.dispatched[d.id + 1]? with
  | none => rw [hb] at h2; cases h2
  | some b =>
    rw [hb] at h2
    simp only [Option.map_some', Option.some.injEq, TaskletInterface.signature,
      Prod.mk.injEq] at h2
    exact ⟨b, List.getElem?_mem hb, h2.2, id_of_getElem? h.ids hb⟩

/-- In such a state the user code run so far is the code of the tasklets in
the order of dispatch, each as often as its `run()` was called. -/
theorem userTrace_of_initial {n : Nat} (hn : 1 ≤ n) (hn2 : n < 2 ^ 31)
    (ts : List (Int × Nat × Bool)) {s : State} (hr : Reachable n s)
    (hh : s.dispatched.map TaskletInterface.signature <+: barrierAfterEach n ts) :
    s.userTrace = s.dispatched.flatMap (fun d =>
      match d.kind with
      | TaskletKind.user l _ => List.replicate (s.invoked d.id) l
      | _ => []) := by
  have h := hr.inv hn
  have hB := hr.barrierInv hn hn2
  have hnext := barrier_follows hn ts hr hh
  have hlab : ∀ j, (s.labelOf j).isSome = true →
      ∃ d ∈ s.dispatched, d.id = j ∧ ∃ l e, d.kind = TaskletKind.user l e := by
    intro j hj
    cases hd : s.dispatched[j]? with
    | none => simp [State.labelOf, hd] at hj
    | some d =>
      refine ⟨d, List.getElem?_mem hd, id_of_getElem? h.ids hd, ?_⟩
      cases hk : d.kind with
      | user l e => exact ⟨l, e, rfl⟩
      | barrier m => simp [State.labelOf, hd, hk] at hj
      | terminateThread => simp [State.labelOf, hd, hk] at hj
  have hsorted : ((s.log.filterMap Event.invokedId).filter
      (fun j => (s.labelOf j).isSome)).Pairwise (fun i j => i ≤ j) := by
    have hp := hB.pw.filter (fun j => (s.labelOf j).isSome)
    refine List.Pairwise.imp_of_mem ?_ hp
    intro a b ha hb0 hab
    by_contra hlt
    have ha1 := (List.mem_filter.mp ha).2
    have hb1 := (List.mem_filter.mp hb0).2
    obtain ⟨da, hda, hida, la, ea, hka⟩ := hlab a ha1
    obtain ⟨db, hdb, hidb, lb, eb, hkb⟩ := hlab b hb1
    have hla := h.id_lt hda
    obtain ⟨c, hcm, hck, hcid⟩ := hnext db hdb lb eb hkb (by omega)
    have hne : c.id ≠ da.id := by
      intro hid
      have := h.eq_of_id hcm hda hid
      rw [this, hka] at hck
      cases hck
    exact hab c hcm n hck ⟨by omega, by omega⟩
  have hbound : ∀ a ∈ (s.log.filterMap Event.invokedId).filter
      (fun j => (s.labelOf j).isSome), a < s.dispatched.length := by
    intro a ha
    exact h.invoked_lt (List.mem_filter.mp ha).1
  have hV := sorted_eq_flatMap_range s.dispatched.length _ hsorted hbound
  rw [State.userTrace, ← filterMap_filter_isSome s.labelOf, hV, ← h.ids, List.flatMap_map,
    trace_tail_counts s h.ids]
  apply flatMap_congr_mem
  intro d hd
  cases hk : d.kind with
  | user l e =>
    have hl := labelOf_of_mem h.ids hd
    rw [hk] at hl
    simp only
    rw [List.count_filter (by simp [hl]), count_invokedIds]
    rfl
  | barrier m => rfl
  | terminateThread => rfl

/-- In such a state, if the reference counts are positive, the user code run
so far is an initial part of the user code run when the tasklets `ts` are
run one after the other, each as often as its reference count says. -/
theorem userTrace_initial {n : Nat} (hn : 1 ≤ n) (hn2 : n < 2 ^ 31)
    (ts : List (Int × Nat × Bool)) (hpos : ∀ p ∈ ts, 1 ≤ p.1) {s : State}
    (hr : Reachable n s)
    (hh : s.dispatched.map TaskletInterface.signature <+: barrierAfterEach n ts) :
    s.userTrace <+: expectedTrace ts := by
  have h := hr.inv hn
  have hB := hr.barrierInv hn hn2
  have hnext := barrier_follows hn ts hr hh
  obtain ⟨r, hBr⟩ := hh
  have hE : expectedTrace ts
      = s.dispatched.flatMap (fun d =>
          match d.kind with
          | TaskletKind.user l _ => List.replicate d.referenceCount_.toNat l
          | _ => []) ++ kindTrace r := by
    rw [← kindTrace_barrierAfterEach n ts, ← hBr]
    simp only [kindTrace, List.flatMap_append, List.flatMap_map]
    rfl
  rw [userTrace_of_initial hn hn2 ts hr ⟨r, hBr⟩, hE]
  apply flatMap_initial
  · intro d hd
    cases hk : d.kind with
    | user l e =>
      simp only
      apply replicate_initial
      have hmem : (d.referenceCount_, TaskletKind.user l e) ∈ barrierAfterEach n ts := by
        rw [← hBr]
        apply List.mem_append_left
        rw [List.mem_map]
        exact ⟨d, hd, by simp [TaskletInterface.signature, hk]⟩
      have hrc : 1 ≤ d.referenceCount_ := by
        simp only [barrierAfterEach, List.mem_flatMap, List.mem_cons, Prod.mk.injEq,
          List.mem_singleton] at hmem
        obtain ⟨p, hp, hp1 | hp1 | hp1⟩ := hmem
        · rw [hp1.1]; exact hpos p hp
        · cases hp1.2
        · cases hp1
      have h1 := h.handed_le hd hrc
      have h2 := h.k1 d.id
      omega
    | barrier m => exact ⟨[], rfl⟩
    | terminateThread => exact ⟨[], rfl⟩
  · have hlt : s.dispatched.Pairwise (fun a b => a.id < b.id) := by
      have := List.pairwise_lt_range s.dispatched.length
      rw [← h.ids, List.pairwise_map] at this
      exact this
    refine List.Pairwise.imp_of_mem ?_ hlt
    intro a b ha hb hab
    cases hka : a.kind with
    | barrier m => exact Or.inl rfl
    | terminateThread => exact Or.inl rfl
    | user la ea =>
      cases hkb : b.kind with
      | barrier m => exact Or.inr rfl
      | terminateThread => exact Or.inr rfl
      | user lb eb =>
        refine Or.inl ?_
        have hlb := h.id_lt hb
        obtain ⟨c, hcm, hck, hcid⟩ := hnext a ha la ea hka (by omega)
        have hne : c.id ≠ b.id := by
          intro hid
          have := h.eq_of_id hcm hb hid
          rw [this, hkb] at hck
          cases hck
        have hrel : n + 1 ≤ s.numWaiting_ c.id := by
          rcases hB.rel c hcm n hck with h0 | h0 | h0
          · exact h0
          · have := (hB.cb c (Or.inl h0)).2.2
            omega
          · have := (hB.cb c (Or.inr h0)).2.2
            omega
        have hdone := (barrier_done hn hn2 hr hcm hck hrel a ha (by omega)).2.1
        simp only
        congr 1
        omega

/-! ## The claims -/

/-- C1 (barrier completeness). Runner with `n ≥ 1` workers (`n < 2 ^ 31`, so
that the reference count of a barrier tasklet is `n`), `s` a reachable state,
`b` a dispatched barrier tasklet whose arrival count has reached `n + 1`
(the `barrier()` call has returned or may return). Then every tasklet `d`
dispatched before `b` is no longer in the queue, and its `run()` has been
called, and has returned, exactly `d.referenceCount_` times (the reference
count it was dispatched with). -/
theorem barrier_completeness (n : Nat) (hn : 1 ≤ n) (hn2 : n < 2 ^ 31) (s : State)
    (hr : Reachable n s) (b : TaskletInterface) (m : Nat) (hb : b ∈ s.dispatched)
    (hk : b.kind = TaskletKind.barrier m) (hrel : n + 1 ≤ s.numWaiting_ b.id) :
    ∀ d ∈ s.dispatched, d.id < b.id →
      (∀ q ∈ s.taskletQueue_, q.id ≠ d.id) ∧
      (s.invoked d.id : Int) = d.referenceCount_ ∧
      (s.returned d.id : Int) = d.referenceCount_ :=
  barrier_done hn hn2 hr hb hk hrel

/-- Witness of C1: two workers, a tasklet with reference count 2, then a
barrier at which all three parties have arrived. -/
theorem barrier_completeness_witness :
    2 + 1 ≤ (stateAfter 2 scheduleBarrier).numWaiting_ 1 ∧
    ∀ d ∈ (stateAfter 2 scheduleBarrier).dispatched, d.id < 1 →
      (∀ q ∈ (stateAfter 2 scheduleBarrier).taskletQueue_, q.id ≠ d.id) ∧
      ((stateAfter 2 scheduleBarrier).invoked d.id : Int) = d.referenceCount_ ∧
      ((stateAfter 2 scheduleBarrier).returned d.id : Int) = d.referenceCount_ :=
  ⟨by decide,
   barrier_completeness 2 (by decide) (by decide) (stateAfter 2 scheduleBarrier)
    reachable_scheduleBarrier
    { id := 1, referenceCount_ := 2, kind := TaskletKind.barrier 2 } 2 (by decide) rfl
    (by decide)⟩

/-- C2 (synchronous dispatch). Runner without workers, `t` a tasklet (not a
barrier tasklet, which only `barrier()` creates and only when there are
workers) with reference count `k ≥ 1`. Then `dispatch(t)` returns; the
events it adds to the history are `k` calls of `t.run()`, each returning
before the next; the reference count of `t` is 0 afterwards; nothing is
pushed to the queue (it stays empty if it was), and the other fields of the
runner are as before. -/
theorem dispatch_synchronous (s : State) (t : TaskletInterface) (k : Nat)
    (hthreads : s.threads_ = []) (hk : 1 ≤ k) (href : t.referenceCount = (k : Int))
    (hkind : ∀ m, t.kind ≠ TaskletKind.barrier m) :
    ∃ s1 t1, TaskletRunner.dispatch s t = some (s1, t1) ∧
      s1.log = s.log ++ inlineRuns k t.id ∧
      s1.invoked t.id = s.invoked t.id + k ∧
      s1.returned t.id = s.returned t.id + k ∧
      t1.referenceCount = 0 ∧ t1.id = t.id ∧ t1.kind = t.kind ∧
      s1.taskletQueue_ = s.taskletQueue_ ∧
      (s.taskletQueue_ = [] → s1.taskletQueue_ = []) ∧
      s1.threads_ = s.threads_ ∧ s1.runnerMutex_ = s.runnerMutex_ ∧
      s1.taskletQueueMutex_ = s.taskletQueueMutex_ := by
  have hemp : s.threads_.isEmpty = true := by rw [hthreads]; rfl
  have hk1 : 0 < k := hk
  have hnat : t.referenceCount.toNat = k := by rw [href]; rfl
  refine ⟨{ s with dispatched := s.dispatched ++ [t], log := s.log ++ inlineRuns k t.id },
    { t with referenceCount_ := 0 }, ?_, ?_, ?_, ?_, ?_, ?_, ?_, ?_, ?_, ?_, ?_, ?_⟩
  · simp only [TaskletRunner.dispatch, hemp, if_true, hnat]
    exact syncLoop_of_not_barrier k _ t hkind href
  · rfl
  · simp [State.invoked, List.count_append, count_invoked_inlineRuns]
  · simp [State.returned, List.count_append, count_returned_inlineRuns]
  · rfl
  · rfl
  · rfl
  · rfl
  · exact id
  · rfl
  · rfl
  · rfl

/-- Witness of C2: a tasklet with reference count 3 on a fresh runner
without workers. -/
theorem dispatch_synchronous_witness :
    ∃ s1 t1, TaskletRunner.dispatch (initial 0)
        { id := 0, referenceCount_ := 3, kind := TaskletKind.user 7 false } = some (s1, t1) ∧
      s1.log = (initial 0).log ++ inlineRuns 3 0 ∧
      s1.invoked 0 = (initial 0).invoked 0 + 3 ∧
      s1.returned 0 = (initial 0).returned 0 + 3 ∧
      t1.referenceCount = 0 ∧ t1.id = 0 ∧ t1.kind = TaskletKind.user 7 false ∧
      s1.taskletQueue_ = (initial 0).taskletQueue_ ∧
      ((initial 0).taskletQueue_ = [] → s1.taskletQueue_ = []) ∧
      s1.threads_ = (initial 0).threads_ ∧ s1.runnerMutex_ = (initial 0).runnerMutex_ ∧
      s1.taskletQueueMutex_ = (initial 0).taskletQueueMutex_ :=
  dispatch_synchronous (initial 0)
    { id := 0, referenceCount_ := 3, kind := TaskletKind.user 7 false } 3 rfl (by decide) rfl
    (by intro m h; cases h)

/-- C3 (FIFO). Runner with `n ≥ 1` workers, `s` a reachable state.
(1) A dispatch step appends the tasklet at the tail of the queue.
(2) A dequeue step that hands a tasklet to a worker hands out the head of the
queue (with its count decremented), and at that moment no tasklet dispatched
before it is in the queue any more.
(3) Whenever a worker has a tasklet, every tasklet dispatched before it has
left the queue, having been handed out as often as its reference count says.
(4) The tasklets were handed out in the order of dispatch: the identities in
the hand-out history never decrease. -/
theorem fifo_order (n : Nat) (hn : 1 ≤ n) (s : State) (hr : Reachable n s) :
    (∀ r l e s1, step s (Action.dispatch r l e) = some s1 →
      s1.taskletQueue_ = s.taskletQueue_ ++
        [{ id := s.dispatched.length, referenceCount_ := r, kind := TaskletKind.user l e }]) ∧
    (∀ w s1 t, step s (Action.dequeue w) = some s1 →
      s1.threads_[w]? = some (WorkerState.holding t) →
      (∃ h rest, s.taskletQueue_ = h :: rest ∧ t = h.dereference) ∧
      ∀ d ∈ s.dispatched, d.id < t.id → ∀ q ∈ s.taskletQueue_, q.id ≠ d.id) ∧
    (∀ x ∈ s.threads_, ∀ t, x.held = some t → ∀ d ∈ s.dispatched, d.id < t.id →
      (∀ q ∈ s.taskletQueue_, q.id ≠ d.id) ∧ (s.handed d.id : Int) = d.referenceCount_) ∧
    (s.log.filterMap Event.handedId).Pairwise (fun i j => i ≤ j) := by
  have h := hr.inv hn
  have hne := h.threads_ne_nil hn
  refine ⟨?_, ?_, ?_, h.fifo⟩
  · intro r l e s1 hs
    obtain ⟨_, _, rfl⟩ := step_dispatch_async hne hs
    rfl
  · intro w s1 t hs ht
    obtain ⟨hw, _, ⟨_, rfl⟩ | ⟨u, r, _, _, _, rfl⟩ | ⟨u, _, _, rfl⟩ |
      ⟨u, r, hq, _, rfl⟩⟩ := step_dequeue hs
    · rw [getElem?_set_of_getElem? _ hw] at ht; cases ht
    · rw [getElem?_set_of_getElem? _ hw] at ht; cases ht
    · rw [getElem?_set_of_getElem? _ hw] at ht; cases ht
    · rw [getElem?_set_of_getElem? _ hw] at ht
      simp only [Option.some.injEq, WorkerState.holding.injEq] at ht
      subst ht
      refine ⟨⟨u, r, hq, rfl⟩, ?_⟩
      intro d _ hlt q hqm hqd
      have hu : u ∈ s.taskletQueue_ := by rw [hq]; exact List.mem_cons_self _ _
      have hqi := h.qids
      rw [hq, List.map_cons, List.length_cons, List.range'_succ, List.cons.injEq] at hqi
      have := (h.queue_id hqm).1
      simp only [TaskletInterface.dereference] at hlt
      omega
  · intro x hx t ht d hd hlt
    have h1 := (h.k4 t.id (h.handed_pos_of_held hx ht)).2
    refine ⟨?_, h.k3p d hd (by omega)⟩
    intro q hqm hqd
    have := (h.queue_id hqm).1
    omega

/-- Witness of C3: the state in which two workers have run a tasklet twice
and met at a barrier. -/
theorem fifo_order_witness :
    ((stateAfter 2 scheduleBarrier).log.filterMap Event.handedId).Pairwise
      (fun i j => i ≤ j) :=
  (fifo_order 2 (by decide) (stateAfter 2 scheduleBarrier) reachable_scheduleBarrier).2.2.2

/-- Counterexample to C4 as stated: with one worker, after a tasklet with
reference count 1 has been dispatched and the worker has gone through its
dequeue step, the tasklet is removed from the queue although its `run()` has
not been called yet (the call comes after the queue is unlocked). -/
theorem run_count_counterexample :
    ¬ ∀ (n : Nat) (s : State), Reachable n s → ∀ d ∈ s.dispatched, 1 ≤ d.referenceCount_ →
      (∀ q ∈ s.taskletQueue_, q.id ≠ d.id) → (s.invoked d.id : Int) = d.referenceCount_ := by
  intro hall
  have := hall 1 (stateAfter 1 scheduleHandOut) reachable_scheduleHandOut
    { id := 0, referenceCount_ := 1, kind := TaskletKind.user 7 false }
    (by decide) (by decide) (by decide)
  revert this
  decide

/-- C4 as amended (run count). A tasklet `d` dispatched with reference count
`k ≥ 1`.
With `n ≥ 1` workers, in every reachable state: every hand-out of `d` to a
worker is followed by at most one call of `run()` (calls + workers that have
`d` and have not called `run()` yet = hand-outs); `d` has been handed out at
most `k` times; while `d` is in the queue it has been handed out `k` minus
its current reference count times, which is positive; once `d` is removed
from the queue it has been handed out exactly `k` times.
With no workers, in every reachable state `run()` of `d` has been called and
has returned exactly `k` times and the queue is empty. -/
theorem run_count_amended (n : Nat) (s : State) (hr : Reachable n s) (d : TaskletInterface)
    (hd : d ∈ s.dispatched) (hk : 1 ≤ d.referenceCount_) :
    (1 ≤ n →
      s.invoked d.id + s.holders d.id = s.handed d.id ∧
      (s.handed d.id : Int) ≤ d.referenceCount_ ∧
      (∀ q ∈ s.taskletQueue_, q.id = d.id →
        (s.handed d.id : Int) = d.referenceCount_ - q.referenceCount_ ∧
          1 ≤ q.referenceCount_) ∧
      ((∀ q ∈ s.taskletQueue_, q.id ≠ d.id) → (s.handed d.id : Int) = d.referenceCount_)) ∧
    (n = 0 →
      (s.invoked d.id : Int) = d.referenceCount_ ∧
      (s.returned d.id : Int) = d.referenceCount_ ∧ s.taskletQueue_ = []) := by
  constructor
  · intro hn
    have h := hr.inv hn
    refine ⟨(h.k1 d.id).symm, h.handed_le hd hk, ?_, ?_⟩
    · intro q hq hqd
      have h3 := h.k3 q hq d hd hqd.symm
      rw [hqd] at h3
      exact ⟨h3, h.k6 q hq d hd hqd.symm hk⟩
    · intro hnot
      refine h.k3p d hd ?_
      by_contra hge
      have hlt := h.id_lt hd
      have hql := h.qlen
      have hmem : d.id ∈ s.taskletQueue_.map TaskletInterface.id := by
        rw [h.qids, List.mem_range'_1]
        simp only [State.numPopped] at hge ⊢
        omega
      obtain ⟨q, hq, hqd⟩ := List.mem_map.mp hmem
      exact hnot q hq hqd
  · intro hn
    subst hn
    have h := hr.syncInv
    have hc := h.counts d hd
    refine ⟨?_, ?_, h.queue⟩
    · rw [hc.1]; omega
    · rw [hc.2]; omega

/-- Witness of C4 as amended: the tasklet of the counterexample has been
handed out once, which is its reference count, and the worker that has it
has not called `run()` yet. -/
theorem run_count_amended_witness :
    (1 ≤ 1 →
      (stateAfter 1 scheduleHandOut).invoked 0 + (stateAfter 1 scheduleHandOut).holders 0
        = (stateAfter 1 scheduleHandOut).handed 0 ∧
      ((stateAfter 1 scheduleHandOut).handed 0 : Int) ≤ 1 ∧
      (∀ q ∈ (stateAfter 1 scheduleHandOut).taskletQueue_, q.id = 0 →
        ((stateAfter 1 scheduleHandOut).handed 0 : Int) = 1 - q.referenceCount_ ∧
          1 ≤ q.referenceCount_) ∧
      ((∀ q ∈ (stateAfter 1 scheduleHandOut).taskletQueue_, q.id ≠ 0) →
        ((stateAfter 1 scheduleHandOut).handed 0 : Int) = 1)) ∧
    (1 = 0 →
      ((stateAfter 1 scheduleHandOut).invoked 0 : Int) = 1 ∧
      ((stateAfter 1 scheduleHandOut).returned 0 : Int) = 1 ∧
      (stateAfter 1 scheduleHandOut).taskletQueue_ = []) :=
  run_count_amended 1 (stateAfter 1 scheduleHandOut) reachable_scheduleHandOut
    { id := 0, referenceCount_ := 1, kind := TaskletKind.user 7 false } (by decide) (by decide)

/-- C6 (asynchronous dispatch). Runner with at least one worker whose queue
mutex is free (it stays locked only after a worker has thrown or hit
undefined behaviour while holding it). Then `dispatch(t)` returns, the queue
is the old queue followed by `t`, `runnerMutex_` is unlocked, no event is
added to the history (`t.run()` is not called), the tasklet object is as it
was (in the queue and in the hand of the caller), and the workers, the
arrival counters, the queue mutex and the state of the caller are as
before. -/
theorem dispatch_asynchronous (s : State) (t : TaskletInterface)
    (hn : 1 ≤ s.threads_.length) (hfree : s.taskletQueueMutex_ = false) :
    ∃ s1, TaskletRunner.dispatch s t = some (s1, t) ∧
      s1.taskletQueue_ = s.taskletQueue_ ++ [t] ∧
      s1.runnerMutex_ = false ∧
      s1.log = s.log ∧
      s1.threads_ = s.threads_ ∧
      s1.numWaiting_ = s.numWaiting_ ∧
      s1.taskletQueueMutex_ = false ∧
      s1.caller = s.caller := by
  have hne : s.threads_ ≠ [] := by
    intro h0; rw [h0] at hn; simp at hn
  refine ⟨{ s with dispatched := s.dispatched ++ [t],
                   taskletQueue_ := s.taskletQueue_ ++ [t],
                   runnerMutex_ := false }, ?_, rfl, rfl, rfl, rfl, rfl, hfree, rfl⟩
  rw [dispatch_async t hne, hfree]
  rfl

/-- Witness of C6: a dispatch to a runner with one worker that holds a
tasklet. -/
theorem dispatch_asynchronous_witness :
    ∃ s1, TaskletRunner.dispatch (stateAfter 1 scheduleHandOut)
        { id := 1, referenceCount_ := 2, kind := TaskletKind.user 8 false }
        = some (s1, { id := 1, referenceCount_ := 2, kind := TaskletKind.user 8 false }) ∧
      s1.taskletQueue_ = (stateAfter 1 scheduleHandOut).taskletQueue_ ++
        [{ id := 1, referenceCount_ := 2, kind := TaskletKind.user 8 false }] ∧
      s1.runnerMutex_ = false ∧
      s1.log = (stateAfter 1 scheduleHandOut).log ∧
      s1.threads_ = (stateAfter 1 scheduleHandOut).threads_ ∧
      s1.numWaiting_ = (stateAfter 1 scheduleHandOut).numWaiting_ ∧
      s1.taskletQueueMutex_ = false ∧
      s1.caller = (stateAfter 1 scheduleHandOut).caller :=
  dispatch_asynchronous (stateAfter 1 scheduleHandOut)
    { id := 1, referenceCount_ := 2, kind := TaskletKind.user 8 false } (by decide) (by decide)

/-- Counterexample to C7 as stated: one tasklet with reference count 1 whose
`isEndMarker()` returns `true`. The runner without workers calls its `run()`
once. On the runner with one worker there is no run in which the caller
dispatches it, calls `barrier()` and gets back from `barrier()`, and in no
state on the way there has its `run()` been called: the worker that finds it
at the head of the queue leaves `run_()`. -/
theorem synchronous_equivalence_counterexample :
    (stateAfter 0 (dispatchAll [(1, 7, true)])).userTrace = [7] ∧
    (∀ s, Reachable 1 s →
      s.dispatched.map TaskletInterface.signature <+: barrierAfterEach 1 [(1, 7, true)] →
      s.userTrace = []) ∧
    ¬ ∀ (n : Nat) (ts : List (Int × Nat × Bool)), 1 ≤ n → n < 2 ^ 31 →
        (∀ p ∈ ts, 1 ≤ p.1) →
        ∃ s0 s, runActions (initial 0) (dispatchAll ts) = some s0 ∧
          Reachable n s ∧ s.caller = CallerState.ready ∧
          s.dispatched.map TaskletInterface.signature = barrierAfterEach n ts ∧
          s.userTrace = s0.userTrace := by
  have hnever : ∀ s, Reachable 1 s →
      s.dispatched.map TaskletInterface.signature <+: barrierAfterEach 1 [(1, 7, true)] →
      s.userTrace = [] := by
    intro s hr hh
    have h := hr.inv (Nat.le_refl 1)
    rw [userTrace_of_initial (Nat.le_refl 1) (by decide) _ hr hh, List.flatMap_eq_nil_iff]
    intro d hd
    cases hk : d.kind with
    | barrier m => rfl
    | terminateThread => rfl
    | user l e =>
      obtain ⟨r, hB⟩ := hh
      have hmem : (d.referenceCount_, TaskletKind.user l e)
          ∈ barrierAfterEach 1 [(1, 7, true)] := by
        rw [← hB]
        apply List.mem_append_left
        rw [List.mem_map]
        exact ⟨d, hd, by simp [TaskletInterface.signature, hk]⟩
      have he : e = true := by
        simp [barrierAfterEach] at hmem
        exact hmem.2.2
      have hde : d.isEndMarker = true := by
        simp [TaskletInterface.isEndMarker, hk, he]
      have h0 := marker_not_handed (Nat.le_refl 1) hr d hd hde
      have h1 := h.k1 d.id
      have hi : s.invoked d.id = 0 := by omega
      simp only [hi, List.replicate_zero]
  refine ⟨by decide, hnever, ?_⟩
  intro hall
  obtain ⟨s0, s, hs0, hr, _, hh, htr⟩ :=
    hall 1 [(1, 7, true)] (by decide) (by decide) (by decide)
  have h1 := hnever s hr ⟨[], by rw [hh, List.append_nil]⟩
  have h2 : (runActions (initial 0) (dispatchAll [(1, 7, true)])).map State.userTrace
      = some [7] := by decide
  rw [hs0] at h2
  simp only [Option.map_some', Option.some.injEq] at h2
  rw [h1, h2] at htr
  cases htr

/-- C7 as amended (synchronous equivalence). `ts` is a list of tasklets of
the user, each given by its reference count (positive), the label of its
code and what its `isEndMarker()` returns (`false` for all of them).
A runner without workers that dispatches `ts` in order gets through all the
dispatches, and the user code run by it, in the order of the `run()` calls,
is the label of each tasklet of `ts` as often as its reference count says,
tasklet after tasklet in the order of dispatch. On a runner with `n ≥ 1`
workers (`n < 2 ^ 31`):
there is a run in which the caller dispatches the tasklets of `ts` in order,
calls `barrier()` after each of them and is back from the last `barrier()`;
in every reachable state in which the caller has so far dispatched an
initial part of `ts` in order, calling `barrier()` after each dispatch, the
user code run so far, in the order of the `run()` calls, is an initial part
of the list for the runner without workers;
and in every reachable state in which the caller has dispatched all of `ts`
that way and is back from the last `barrier()`, it is the same list. -/
theorem synchronous_equivalence_amended (n : Nat) (hn : 1 ≤ n) (hn2 : n < 2 ^ 31)
    (ts : List (Int × Nat × Bool)) (hpos : ∀ p ∈ ts, 1 ≤ p.1)
    (hmark : ∀ p ∈ ts, p.2.2 = false) :
    ∃ s0, runActions (initial 0) (dispatchAll ts) = some s0 ∧
      s0.dispatched.map TaskletInterface.signature
        = ts.map (fun p => (p.1, TaskletKind.user p.2.1 p.2.2)) ∧
      s0.userTrace = expectedTrace ts ∧
      (∃ s, Reachable n s ∧ s.caller = CallerState.ready ∧
        s.dispatched.map TaskletInterface.signature = barrierAfterEach n ts) ∧
      (∀ s, Reachable n s →
        s.dispatched.map TaskletInterface.signature <+: barrierAfterEach n ts →
        s.userTrace <+: s0.userTrace) ∧
      (∀ s, Reachable n s → s.caller = CallerState.ready →
        s.dispatched.map TaskletInterface.signature = barrierAfterEach n ts →
        s.userTrace = s0.userTrace) := by
  obtain ⟨s0, hs0, hi0, _, hd0⟩ := runActions_dispatchAll ts (initial 0) SyncInv.sync_initial rfl
  have hd1 : s0.dispatched.map TaskletInterface.signature
      = ts.map (fun p => (p.1, TaskletKind.user p.2.1 p.2.2)) := by
    rw [hd0]; rfl
  have h0 : s0.userTrace = expectedTrace ts := by
    rw [hi0.userTrace_eq, hd1, kindTrace_user]
  have hQ : Quiet n (initial n) := by
    refine ⟨by simp [initial], ?_, rfl⟩
    intro i hi
    simp [initial, hi]
  obtain ⟨s1, hs1, _, _, hc1, hd1'⟩ :=
    barrierAfterEach_reachable hn hn2 ts hpos hmark (initial n) hQ rfl rfl
  refine ⟨s0, hs0, hd1, h0, ⟨s1, hs1.reachable (Reachable.init), hc1, ?_⟩, ?_, ?_⟩
  · rw [hd1']; rfl
  · intro s hr hh
    rw [h0]
    exact userTrace_initial hn hn2 ts hpos hr hh
  · intro s hr hc hh
    rw [h0, userTrace_of_barrierAfterEach hn hn2 ts hr hc hh, hh, kindTrace_barrierAfterEach]

/-- Witness of C7 as amended: one worker; a tasklet with reference count 2
and label 7, `barrier()`, a tasklet with reference count 1 and label 8,
`barrier()`. The state after `scheduleTwoBarriers` is one of the completed
runs; after its first eight steps the first tasklet has been run once. -/
theorem synchronous_equivalence_amended_witness :
    (stateAfter 1 scheduleTwoBarriers).caller = CallerState.ready ∧
    (stateAfter 1 scheduleTwoBarriers).dispatched.map TaskletInterface.signature
      = barrierAfterEach 1 [(2, 7, false), (1, 8, false)] ∧
    (stateAfter 1 scheduleTwoBarriers).userTrace = [7, 7, 8] ∧
    (stateAfter 1 (scheduleTwoBarriers.take 8)).userTrace = [7] ∧
    ∃ s0, runActions (initial 0) (dispatchAll [(2, 7, false), (1, 8, false)]) = some s0 ∧
      s0.dispatched.map TaskletInterface.signature
        = [(2, 7, false), (1, 8, false)].map
            (fun p => (p.1, TaskletKind.user p.2.1 p.2.2)) ∧
      s0.userTrace = expectedTrace [(2, 7, false), (1, 8, false)] ∧
      (∃ s, Reachable 1 s ∧ s.caller = CallerState.ready ∧
        s.dispatched.map TaskletInterface.signature
          = barrierAfterEach 1 [(2, 7, false), (1, 8, false)]) ∧
      (∀ s, Reachable 1 s →
        s.dispatched.map TaskletInterface.signature
          <+: barrierAfterEach 1 [(2, 7, false), (1, 8, false)] →
        s.userTrace <+: s0.userTrace) ∧
      (∀ s, Reachable 1 s → s.caller = CallerState.ready →
        s.dispatched.map TaskletInterface.signature
          = barrierAfterEach 1 [(2, 7, false), (1, 8, false)] →
        s.userTrace = s0.userTrace) :=
  ⟨by decide, by decide, by decide, by decide,
   synchronous_equivalence_amended 1 (by decide) (by decide) [(2, 7, false), (1, 8, false)]
    (by decide) (by decide)⟩

/-- C8 (barrier release rule). Runner with `n ≥ 1` workers (`n < 2 ^ 31`),
`s` a reachable state.
(1) `barrier()` creates a barrier tasklet for `n` workers with reference
count `n` and arrival count 0, dispatches it and goes on to call `wait()`.
(2) For every barrier tasklet `b` that was dispatched: it is one for `n`
workers with reference count `n`; at most `n + 1` parties have arrived; if a
call of `wait()` by a worker has returned, or the thread that issued `b` is
back from its `wait()`, then `n + 1` parties have arrived.
(3) A worker that is in `run()` of a barrier tasklet `t` finds `c ≤ n`
arrivals and goes through the locked part of `wait()`, raising the count to
`c + 1`. If `c < n` it parks, without returning, and it cannot return as
things are. If `c = n` it returns without parking, and every worker parked
in `wait()` of `t` can return, and so can the issuing thread if it is parked
there.
(4) The same for the `wait()` call of the thread in `barrier()`.
(5) A party parked in `wait()` can return exactly when the count has reached
`n + 1`. -/
theorem barrier_release_rule (n : Nat) (hn : 1 ≤ n) (hn2 : n < 2 ^ 31) (s : State)
    (hr : Reachable n s) :
    (s.caller = CallerState.ready → s.taskletQueueMutex_ = false →
      ∃ s1, step s Action.barrier = some s1 ∧
        s1.caller =
          CallerState.barrierDispatched (BarrierTasklet.create s.dispatched.length n) ∧
        s1.dispatched = s.dispatched ++ [BarrierTasklet.create s.dispatched.length n] ∧
        (BarrierTasklet.create s.dispatched.length n).referenceCount = (n : Int) ∧
        s1.numWaiting_ (BarrierTasklet.create s.dispatched.length n).id = 0) ∧
    (∀ b ∈ s.dispatched, ∀ m, b.kind = TaskletKind.barrier m →
      m = n ∧ b.referenceCount_ = (n : Int) ∧ s.numWaiting_ b.id ≤ n + 1 ∧
      (s.returned b.id ≠ 0 → s.numWaiting_ b.id = n + 1) ∧
      (s.caller ≠ CallerState.barrierDispatched b → s.caller ≠ CallerState.inWait b →
        s.numWaiting_ b.id = n + 1)) ∧
    (∀ (w : Nat) (t : TaskletInterface) (m : Nat),
      s.threads_[w]? = some (WorkerState.running t) → t.kind = TaskletKind.barrier m →
      s.numWaiting_ t.id ≤ n ∧
      ∃ s1, step s (Action.finish w) = some s1 ∧
        s1.numWaiting_ t.id = s.numWaiting_ t.id + 1 ∧
        (s.numWaiting_ t.id < n →
          s1.threads_[w]? = some (WorkerState.waiting t) ∧ s1.log = s.log ∧
          step s1 (Action.wake w) = none) ∧
        (s.numWaiting_ t.id = n →
          s1.threads_[w]? = some WorkerState.parked ∧
          s1.log = s.log ++ [Event.returned t.id] ∧
          (∀ (w2 : Nat) (t2 : TaskletInterface) (m2 : Nat),
            s1.threads_[w2]? = some (WorkerState.waiting t2) →
            t2.kind = TaskletKind.barrier m2 → t2.id = t.id →
            ∃ s2, step s1 (Action.wake w2) = some s2 ∧
              s2.threads_[w2]? = some WorkerState.parked ∧
              s2.log = s1.log ++ [Event.returned t.id]) ∧
          (∀ c, s1.caller = CallerState.inWait c → c.id = t.id →
            ∃ s2, step s1 Action.barrierWake = some s2 ∧ s2.caller = CallerState.ready))) ∧
    (∀ b, s.caller = CallerState.barrierDispatched b →
      s.numWaiting_ b.id ≤ n ∧
      ∃ s1, step s Action.barrierWait = some s1 ∧
        s1.numWaiting_ b.id = s.numWaiting_ b.id + 1 ∧ s1.log = s.log ∧
        (s.numWaiting_ b.id < n →
          s1.caller = CallerState.inWait b ∧ step s1 Action.barrierWake = none) ∧
        (s.numWaiting_ b.id = n →
          s1.caller = CallerState.ready ∧
          ∀ (w2 : Nat) (t2 : TaskletInterface) (m2 : Nat),
            s1.threads_[w2]? = some (WorkerState.waiting t2) →
            t2.kind = TaskletKind.barrier m2 → t2.id = b.id →
            ∃ s2, step s1 (Action.wake w2) = some s2 ∧
              s2.threads_[w2]? = some WorkerState.parked ∧
              s2.log = s1.log ++ [Event.returned b.id])) ∧
    (∀ (w : Nat) (t : TaskletInterface) (m : Nat),
      s.threads_[w]? = some (WorkerState.waiting t) → t.kind = TaskletKind.barrier m →
      ((step s (Action.wake w)).isSome = true ↔ n + 1 ≤ s.numWaiting_ t.id)) ∧
    (∀ b, s.caller = CallerState.inWait b →
      ((step s Action.barrierWake).isSome = true ↔ n + 1 ≤ s.numWaiting_ b.id)) := by
  have h := hr.inv hn
  have hB := hr.barrierInv hn hn2
  have hne : s.threads_ ≠ [] := h.threads_ne_nil hn
  have hmod : (n + 1) % 2 ^ 32 = n + 1 := mod_succ_of_lt hn2
  have hun : toUnsigned s.threads_.length = n := by
    rw [h.len]; exact Nat.mod_eq_of_lt (by omega)
  have hint : toInt n = (n : Int) := by
    have : n % 2 ^ 32 = n := Nat.mod_eq_of_lt (by omega)
    simp only [toInt, this]
    rw [if_pos hn2]
  -- the parked workers can return once the count is `n + 1`
  have hwake : ∀ (s1 : State) (j : Nat), Reachable n s1 → s1.numWaiting_ j = n + 1 →
      ∀ (w2 : Nat) (t2 : TaskletInterface) (m2 : Nat),
        s1.threads_[w2]? = some (WorkerState.waiting t2) →
        t2.kind = TaskletKind.barrier m2 → t2.id = j →
        ∃ s2, step s1 (Action.wake w2) = some s2 ∧
          s2.threads_[w2]? = some WorkerState.parked ∧
          s2.log = s1.log ++ [Event.returned j] := by
    intro s1 j hr1 hc1 w2 t2 m2 hw2 hk2 hid2
    have hm2 := (hr1.barrier_held hn hn2 (List.getElem?_mem hw2) rfl hk2).1
    subst hm2
    refine ⟨_, step_wake_eq hw2 hk2 (by rw [hmod, hid2, hc1]),
      getElem?_set_of_getElem? _ hw2, ?_⟩
    rw [hid2]
  refine ⟨?_, ?_, ?_, ?_, ?_, ?_⟩
  · intro hc hm
    obtain ⟨s1, e1, h1⟩ : ∃ s1, step s Action.barrier = some s1 ∧ s1 = { s with
          numWaiting_ := Function.update s.numWaiting_ s.dispatched.length 0,
          dispatched := s.dispatched ++
            [BarrierTasklet.create s.dispatched.length (toUnsigned s.threads_.length)],
          taskletQueue_ := s.taskletQueue_ ++
            [BarrierTasklet.create s.dispatched.length (toUnsigned s.threads_.length)],
          runnerMutex_ := false,
          caller := CallerState.barrierDispatched
            (BarrierTasklet.create s.dispatched.length (toUnsigned s.threads_.length)) } :=
      ⟨_, step_barrier_async_eq hne (by rw [hun]; omega) hc hm, rfl⟩
    rw [hun] at h1
    refine ⟨s1, e1, by rw [h1], by rw [h1], hint, ?_⟩
    rw [h1]
    simp [BarrierTasklet.create]
  · intro b hb m hk
    obtain ⟨hm, hrc⟩ := hB.bk b hb m hk
    have hle := hr.barrier_count_le hn hn2 hb hk
    refine ⟨hm, hrc, by omega, ?_, ?_⟩
    · intro hret
      have := hB.b4 b hb m hk hret
      omega
    · intro hc1 hc2
      rcases hB.rel b hb m hk with h0 | h0 | h0
      · omega
      · exact absurd h0 hc1
      · exact absurd h0 hc2
  · intro w t m hw hk
    have hx : WorkerState.running t ∈ s.threads_ := List.getElem?_mem hw
    obtain ⟨hm, hle, _, _⟩ := hB.running_facts hn h hx hk
    subst hm
    have hc1 : (s.numWaiting_ t.id + 1) % 2 ^ 32 = s.numWaiting_ t.id + 1 :=
      Nat.mod_eq_of_lt (by omega)
    refine ⟨hle, ?_⟩
    by_cases hlt : s.numWaiting_ t.id < m
    · have hf : ¬ (m + 1) % 2 ^ 32 ≤ (s.numWaiting_ t.id + 1) % 2 ^ 32 := by
        rw [hmod, hc1]; omega
      obtain ⟨s1, e1, h1⟩ : ∃ s1, step s (Action.finish w) = some s1 ∧ s1 = { s with
            numWaiting_ :=
              Function.update s.numWaiting_ t.id ((s.numWaiting_ t.id + 1) % 2 ^ 32),
            threads_ := s.threads_.set w (WorkerState.waiting t) } :=
        ⟨_, step_finish_park_eq hw hk hf, rfl⟩
      have hn1 : s1.numWaiting_ t.id = s.numWaiting_ t.id + 1 := by
        rw [h1]; simp only [Function.update_same]; exact hc1
      have hw1 : s1.threads_[w]? = some (WorkerState.waiting t) := by
        rw [h1]; exact getElem?_set_of_getElem? _ hw
      refine ⟨s1, e1, hn1, ?_, ?_⟩
      · intro _
        refine ⟨hw1, by rw [h1], ?_⟩
        exact step_wake_none hw1 hk (by rw [hmod, hn1]; omega)
      · intro heq; omega
    · have heq : s.numWaiting_ t.id = m := by omega
      have hf : (m + 1) % 2 ^ 32 ≤ (s.numWaiting_ t.id + 1) % 2 ^ 32 := by
        rw [hmod, hc1]; omega
      obtain ⟨s1, e1, h1⟩ : ∃ s1, step s (Action.finish w) = some s1 ∧ s1 = { s with
            numWaiting_ :=
              Function.update s.numWaiting_ t.id ((s.numWaiting_ t.id + 1) % 2 ^ 32),
            threads_ := s.threads_.set w WorkerState.parked,
            log := s.log ++ [Event.returned t.id] } :=
        ⟨_, step_finish_release_eq hw hk hf, rfl⟩
      have hn1 : s1.numWaiting_ t.id = s.numWaiting_ t.id + 1 := by
        rw [h1]; simp only [Function.update_same]; exact hc1
      have hr1 : Reachable m s1 := Reachable.step (Action.finish w) hr e1
      refine ⟨s1, e1, hn1, ?_, ?_⟩
      · intro hlt2; omega
      · intro _
        refine ⟨by rw [h1]; exact getElem?_set_of_getElem? _ hw, by rw [h1],
          hwake s1 t.id hr1 (by rw [hn1, heq]), ?_⟩
        intro c hc hcid
        have hkc := ((hr1.barrierInv hn hn2).cb c (Or.inr hc)).2.1
        exact ⟨_, step_barrierWake_eq hc hkc (by rw [hmod, hcid, hn1, heq]), rfl⟩
  · intro b hc
    obtain ⟨hk, hle⟩ := hr.caller_count_le hn hn2 hc
    have hc1 : (s.numWaiting_ b.id + 1) % 2 ^ 32 = s.numWaiting_ b.id + 1 :=
      Nat.mod_eq_of_lt (by omega)
    obtain ⟨s1, e1, h1⟩ : ∃ s1, step s Action.barrierWait = some s1 ∧ s1 = { s with
          numWaiting_ :=
            Function.update s.numWaiting_ b.id ((s.numWaiting_ b.id + 1) % 2 ^ 32),
          caller := if (n + 1) % 2 ^ 32 ≤ (s.numWaiting_ b.id + 1) % 2 ^ 32
            then CallerState.ready else CallerState.inWait b } :=
      ⟨_, step_barrierWait_eq hc hk, rfl⟩
    have hn1 : s1.numWaiting_ b.id = s.numWaiting_ b.id + 1 := by
      rw [h1]; simp only [Function.update_same]; exact hc1
    have hr1 : Reachable n s1 := Reachable.step Action.barrierWait hr e1
    refine ⟨hle, s1, e1, hn1, by rw [h1], ?_, ?_⟩
    · intro hlt
      have hcal : s1.caller = CallerState.inWait b := by
        rw [h1]
        simp only
        rw [if_neg (by rw [hmod, hc1]; omega)]
      exact ⟨hcal, step_barrierWake_none hcal hk (by rw [hmod, hn1]; omega)⟩
    · intro heq
      refine ⟨?_, hwake s1 b.id hr1 (by rw [hn1, heq])⟩
      rw [h1]
      simp only
      rw [if_pos (by rw [hmod, hc1]; omega)]
  · intro w t m hw hk
    have hm := (hr.barrier_held hn hn2 (List.getElem?_mem hw) rfl hk).1
    subst hm
    by_cases hf : (m + 1) % 2 ^ 32 ≤ s.numWaiting_ t.id
    · rw [step_wake_eq hw hk hf]
      rw [hmod] at hf
      simp [hf]
    · rw [step_wake_none hw hk hf]
      rw [hmod] at hf
      simp [hf]
  · intro b hc
    have hk := (hB.cb b (Or.inr hc)).2.1
    by_cases hf : (n + 1) % 2 ^ 32 ≤ s.numWaiting_ b.id
    · rw [step_barrierWake_eq hc hk hf]
      rw [hmod] at hf
      simp [hf]
    · rw [step_barrierWake_none hc hk hf]
      rw [hmod] at hf
      simp [hf]

/-- Witness of C8: two workers are parked in `wait()` of the barrier tasklet
with identity 1 (two arrivals) and the thread in `barrier()` makes the third
call of `wait()`: it returns without parking and both workers can return. In
the end they have. -/
theorem barrier_release_rule_witness :
    (stateAfter 2 (scheduleBarrier.take 18)).numWaiting_ 1 = 2 ∧
    (stateAfter 2 (scheduleBarrier.take 18)).threads_ =
      [WorkerState.waiting { id := 1, referenceCount_ := 1, kind := TaskletKind.barrier 2 },
       WorkerState.waiting { id := 1, referenceCount_ := 0, kind := TaskletKind.barrier 2 }] ∧
    (∃ s1, step (stateAfter 2 (scheduleBarrier.take 18)) Action.barrierWait = some s1 ∧
      s1.numWaiting_ 1 = (stateAfter 2 (scheduleBarrier.take 18)).numWaiting_ 1 + 1 ∧
      s1.caller = CallerState.ready ∧
      ∀ (w2 : Nat) (t2 : TaskletInterface) (m2 : Nat),
        s1.threads_[w2]? = some (WorkerState.waiting t2) →
        t2.kind = TaskletKind.barrier m2 → t2.id = 1 →
        ∃ s2, step s1 (Action.wake w2) = some s2 ∧
          s2.threads_[w2]? = some WorkerState.parked ∧
          s2.log = s1.log ++ [Event.returned 1]) ∧
    (stateAfter 2 scheduleBarrier).threads_ = [WorkerState.parked, WorkerState.parked] ∧
    (stateAfter 2 scheduleBarrier).returned 1 = 2 :=
  have h := (barrier_release_rule 2 (by decide) (by decide)
    (stateAfter 2 (scheduleBarrier.take 18))
    (reachable_stateAfter 2 (scheduleBarrier.take 18) (by decide))).2.2.2.1
    (BarrierTasklet.create 1 2) (by decide)
  ⟨by decide, by decide,
   h.2.imp (fun _ hs => ⟨hs.1, hs.2.1, (hs.2.2.2.2 (by decide)).1, (hs.2.2.2.2 (by decide)).2⟩),
   by decide, by decide⟩

/-- C9 (consistency violation). A worker `w` that has acquired `runnerMutex_`
and gets the queue mutex goes through its dequeue step. It throws
`std::logic_error` if and only if the queue has a head that is an end marker
and more than one entry. If an end marker is the only entry, the worker
returns from `run_()`. In both cases the queue and the history are as
before. -/
theorem dequeue_consistency (s : State) (w : Nat)
    (hw : s.threads_[w]? = some WorkerState.dequeuing)
    (hfree : s.taskletQueueMutex_ = false) :
    ∃ s1, TaskletRunner.dequeue s w = some s1 ∧
      (s1.threads_[w]? = some WorkerState.failed ↔
        ∃ t rest, s.taskletQueue_ = t :: rest ∧ t.isEndMarker = true ∧
          1 < (t :: rest).length) ∧
      (∀ t, s.taskletQueue_ = [t] → t.isEndMarker = true →
        s1.threads_[w]? = some WorkerState.terminated) ∧
      (∀ t rest, s.taskletQueue_ = t :: rest → t.isEndMarker = true →
        s1.taskletQueue_ = s.taskletQueue_ ∧ s1.log = s.log) := by
  have hsome : ∃ s1, TaskletRunner.dequeue s w = some s1 := by
    simp only [TaskletRunner.dequeue, hw, hfree, and_self, if_true]
    split
    · exact ⟨_, rfl⟩
    · split
      · split <;> exact ⟨_, rfl⟩
      · exact ⟨_, rfl⟩
  obtain ⟨s1, hs1⟩ := hsome
  have hs : step s (Action.dequeue w) = some s1 := hs1
  refine ⟨s1, hs1, ?_, ?_, ?_⟩
  · obtain ⟨_, _, ⟨hq, rfl⟩ | ⟨t, r, hq, hm, hr, rfl⟩ | ⟨t, hq, hm, rfl⟩ |
      ⟨t, r, hq, hm, rfl⟩⟩ := step_dequeue hs
    · rw [getElem?_set_of_getElem? _ hw]
      constructor
      · intro h; cases h
      · rintro ⟨t, r, hq1, _⟩; rw [hq] at hq1; cases hq1
    · rw [getElem?_set_of_getElem? _ hw]
      constructor
      · intro _
        refine ⟨t, r, hq, hm, ?_⟩
        cases r with
        | nil => exact absurd rfl hr
        | cons a r => simp
      · intro _; rfl
    · rw [getElem?_set_of_getElem? _ hw]
      constructor
      · intro h; cases h
      · rintro ⟨u, r, hq1, _, hlen⟩
        rw [hq] at hq1; cases hq1
        simp at hlen
    · rw [getElem?_set_of_getElem? _ hw]
      constructor
      · intro h; cases h
      · rintro ⟨u, r1, hq1, hm1, _⟩
        rw [hq] at hq1; cases hq1
        rw [hm] at hm1; cases hm1
  · intro t hq hm
    obtain ⟨_, _, ⟨hq1, rfl⟩ | ⟨u, r, hq1, _, hr, rfl⟩ | ⟨u, hq1, _, rfl⟩ |
      ⟨u, r, hq1, hm1, rfl⟩⟩ := step_dequeue hs
    · rw [hq] at hq1; cases hq1
    · rw [hq] at hq1; cases hq1; exact absurd rfl hr
    · exact getElem?_set_of_getElem? _ hw
    · rw [hq] at hq1; cases hq1
      rw [hm] at hm1; cases hm1
  · intro t rest hq hm
    obtain ⟨_, _, ⟨hq1, rfl⟩ | ⟨u, r, hq1, _, hr, rfl⟩ | ⟨u, hq1, _, rfl⟩ |
      ⟨u, r, hq1, hm1, rfl⟩⟩ := step_dequeue hs
    · exact ⟨rfl, rfl⟩
    · exact ⟨rfl, rfl⟩
    · exact ⟨rfl, rfl⟩
    · rw [hq] at hq1; cases hq1
      rw [hm] at hm1; cases hm1

/-- Witness of C9: the worker finds the shutdown marker as the only entry. -/
theorem dequeue_consistency_witness :
    ∃ s1, TaskletRunner.dequeue (stateAfter 1 scheduleAtMarker) 0 = some s1 ∧
      (s1.threads_[0]? = some WorkerState.failed ↔
        ∃ t rest, (stateAfter 1 scheduleAtMarker).taskletQueue_ = t :: rest ∧
          t.isEndMarker = true ∧ 1 < (t :: rest).length) ∧
      (∀ t, (stateAfter 1 scheduleAtMarker).taskletQueue_ = [t] → t.isEndMarker = true →
        s1.threads_[0]? = some WorkerState.terminated) ∧
      (∀ t rest, (stateAfter 1 scheduleAtMarker).taskletQueue_ = t :: rest →
        t.isEndMarker = true →
        s1.taskletQueue_ = (stateAfter 1 scheduleAtMarker).taskletQueue_ ∧
          s1.log = (stateAfter 1 scheduleAtMarker).log) :=
  dequeue_consistency (stateAfter 1 scheduleAtMarker) 0 (by decide) (by decide)

/-- C10 (the end marker is observed, never consumed). A state whose queue
head `m` is an end marker.
(1) A dequeue step of a worker ends the loop of that worker (it returns from
`run_()` or throws), leaves the queue as it is (`m` is not popped and keeps
its reference count) and adds no event to the history (`m.run()` is not
called).
(2) After any further steps, of workers or of the owner, `m` is still the
head of the queue, unchanged.
(3) If the state is reachable with `n ≥ 1` workers, then after any further
steps `m` has never been handed to a worker and its `run()` has never been
called. -/
theorem end_marker_never_consumed (s : State) (m : TaskletInterface)
    (rest : List TaskletInterface) (hq : s.taskletQueue_ = m :: rest)
    (hm : m.isEndMarker = true) :
    (∀ w s1, step s (Action.dequeue w) = some s1 →
      (s1.threads_[w]? = some WorkerState.terminated ∨
        s1.threads_[w]? = some WorkerState.failed) ∧
      s1.taskletQueue_ = m :: rest ∧ s1.log = s.log) ∧
    (∀ as s2, runActions s as = some s2 → ∃ rest2, s2.taskletQueue_ = m :: rest2) ∧
    (∀ n, 1 ≤ n → Reachable n s → ∀ as s2, runActions s as = some s2 →
      s2.handed m.id = 0 ∧ s2.invoked m.id = 0) := by
  refine ⟨?_, ?_, ?_⟩
  · intro w s1 hs
    obtain ⟨hw, _, ⟨hq1, rfl⟩ | ⟨u, r, hq1, _, hr, rfl⟩ | ⟨u, hq1, _, rfl⟩ |
      ⟨u, r, hq1, hm1, rfl⟩⟩ := step_dequeue hs
    · rw [hq] at hq1; cases hq1
    · exact ⟨Or.inr (getElem?_set_of_getElem? _ hw), hq, rfl⟩
    · exact ⟨Or.inl (getElem?_set_of_getElem? _ hw), hq, rfl⟩
    · rw [hq] at hq1; cases hq1
      rw [hm] at hm1; cases hm1
  · intro as s2 h
    exact runActions_keeps_marker as hq hm h
  · intro n hn hr as s2 h
    have hr2 := reachable_runActions as hr h
    have hi := hr2.inv hn
    obtain ⟨rest2, hq2⟩ := runActions_keeps_marker as hq hm h
    have hmq : m ∈ s2.taskletQueue_ := by rw [hq2]; exact List.mem_cons_self _ _
    obtain ⟨d, hd, hid⟩ := hi.exists_of_lt (hi.queue_id hmq).2
    have hk := hi.qkind m hmq d hd hid
    have hde : d.isEndMarker = true := by
      simp only [TaskletInterface.isEndMarker, hk]; exact hm
    have h0 := marker_not_handed hn hr2 d hd hde
    rw [hid] at h0
    have := hi.k1 m.id
    exact ⟨h0, by omega⟩

/-- Witness of C10: the shutdown marker at the head of the queue of a runner
with one worker. -/
theorem end_marker_never_consumed_witness :
    (∀ w s1, step (stateAfter 1 scheduleAtMarker) (Action.dequeue w) = some s1 →
      (s1.threads_[w]? = some WorkerState.terminated ∨
        s1.threads_[w]? = some WorkerState.failed) ∧
      s1.taskletQueue_ = [TerminateThreadTasklet.create 1] ∧
      s1.log = (stateAfter 1 scheduleAtMarker).log) ∧
    (∀ as s2, runActions (stateAfter 1 scheduleAtMarker) as = some s2 →
      ∃ rest2, s2.taskletQueue_ = TerminateThreadTasklet.create 1 :: rest2) ∧
    (∀ n, 1 ≤ n → Reachable n (stateAfter 1 scheduleAtMarker) →
      ∀ as s2, runActions (stateAfter 1 scheduleAtMarker) as = some s2 →
      s2.handed (TerminateThreadTasklet.create 1).id = 0 ∧
        s2.invoked (TerminateThreadTasklet.create 1).id = 0) :=
  end_marker_never_consumed (stateAfter 1 scheduleAtMarker) (TerminateThreadTasklet.create 1)
    [] (by decide) (by decide)

/-! ## The claims on the worker loop, the gate and the shutdown -/

/-- C11 (synchronous barrier). Runner without workers. `barrier()` returns,
and the runner after the call is the runner before it: nothing is dispatched
(the dispatch history is as before, so no tasklet was created and handed to
`dispatch`), no `run()` is called (the event history is as before), and the
queue, the mutexes, the arrival counters and the workers are as before. The
same holds for the step of the owner that calls `barrier()`. -/
theorem barrier_synchronous (s : State) (hthreads : s.threads_ = []) :
    TaskletRunner.barrier s = some s ∧
    (s.caller = CallerState.ready → step s Action.barrier = some s) ∧
    ∀ s1, TaskletRunner.barrier s = some s1 →
      s1.dispatched = s.dispatched ∧ s1.log = s.log ∧
      s1.taskletQueue_ = s.taskletQueue_ ∧ s1.threads_ = s.threads_ ∧
      s1.runnerMutex_ = s.runnerMutex_ ∧ s1.taskletQueueMutex_ = s.taskletQueueMutex_ ∧
      s1.numWaiting_ = s.numWaiting_ ∧ s1.caller = s.caller := by
  have hlen : toUnsigned s.threads_.length = 0 := by rw [hthreads]; rfl
  have hb : TaskletRunner.barrier s = some s := by
    simp only [TaskletRunner.barrier, hlen, if_true]
  refine ⟨hb, ?_, ?_⟩
  · intro hc
    simp only [step, hc, if_true]
    exact hb
  · intro s1 h1
    rw [hb] at h1
    simp only [Option.some.injEq] at h1
    subst h1
    exact ⟨rfl, rfl, rfl, rfl, rfl, rfl, rfl, rfl⟩

/-- Witness of C11: `barrier()` on a runner without workers that has run a
tasklet with reference count 2. -/
theorem barrier_synchronous_witness :
    (stateAfter 0 (dispatchAll [(2, 7, false)])).threads_ = [] ∧
    (stateAfter 0 (dispatchAll [(2, 7, false)])).log = inlineRuns 2 0 ∧
    TaskletRunner.barrier (stateAfter 0 (dispatchAll [(2, 7, false)]))
      = some (stateAfter 0 (dispatchAll [(2, 7, false)])) :=
  ⟨by decide, by decide,
   (barrier_synchronous (stateAfter 0 (dispatchAll [(2, 7, false)])) (by decide)).1⟩

theorem count_handed_inlineRuns (k i j : Nat) :
    (inlineRuns k i).count (Event.handed j) = 0 := by
  induction k with
  | zero => simp [inlineRuns]
  | succ k ih =>
    simp only [inlineRuns, List.replicate_succ, List.flatten_cons] at ih ⊢
    simp [List.count_append, List.count_cons, ih]

/-- A step of a runner without workers hands out nothing. -/
theorem step_sync_handed {s s1 : State} {a : Action} (hnil : s.threads_ = [])
    (hs : step s a = some s1) (j : Nat) : s1.handed j = s.handed j := by
  have hget : ∀ w : Nat, s.threads_[w]? = none := by intro w; rw [hnil]; rfl
  cases a with
  | dispatch r l e =>
    obtain ⟨_, rfl⟩ := step_dispatch_sync hnil hs
    simp [State.handed, List.count_append, count_handed_inlineRuns]
  | barrier =>
    have hlen : toUnsigned s.threads_.length = 0 := by rw [hnil]; rfl
    simp only [step, TaskletRunner.barrier, hlen, if_true] at hs
    split at hs
    · simp only [Option.some.injEq] at hs
      subst hs; rfl
    · simp at hs
  | barrierWait =>
    obtain ⟨b, m, _, _, rfl⟩ := step_barrierWait hs
    rfl
  | barrierWake =>
    obtain ⟨b, m, _, _, _, rfl⟩ := step_barrierWake hs
    rfl
  | destroy =>
    have hlen : ¬ s.threads_.length > 0 := by rw [hnil]; simp
    simp only [step, TaskletRunner.destroy, hlen, if_false] at hs
    split at hs
    · simp only [Option.some.injEq] at hs
      subst hs; rfl
    · simp at hs
  | join =>
    obtain ⟨_, _, rfl⟩ := step_join hs
    rfl
  | lockRunnerMutex w =>
    obtain ⟨hw, _, _⟩ := step_lockRunnerMutex hs
    rw [hget] at hw; cases hw
  | dequeue w =>
    obtain ⟨hw, _, _⟩ := step_dequeue hs
    rw [hget] at hw; cases hw
  | invoke w =>
    obtain ⟨t, hw, _⟩ := step_invoke hs
    rw [hget] at hw; cases hw
  | finish w =>
    obtain ⟨t, hw, _⟩ := step_finish hs
    rw [hget] at hw; cases hw
  | wake w =>
    obtain ⟨t, m, hw, _⟩ := step_wake hs
    rw [hget] at hw; cases hw

/-- A step leaves a head of the queue whose reference count is not positive
at the head: either as it is, with no hand-out of it, or with its count
decremented, with one hand-out of it. -/
theorem step_keeps_nonpositive {s s1 : State} {a : Action} {h : TaskletInterface}
    {rest : List TaskletInterface} (hq : s.taskletQueue_ = h :: rest)
    (hrc : h.referenceCount_ ≤ 0) (hs : step s a = some s1) :
    ∃ more, (s1.taskletQueue_ = h :: (rest ++ more) ∧ s1.handed h.id = s.handed h.id) ∨
      (s1.taskletQueue_ = h.dereference :: (rest ++ more) ∧
        s1.handed h.id = s.handed h.id + 1) := by
  have hsame : ∀ evs : List Event, evs.count (Event.handed h.id) = 0 →
      s1.taskletQueue_ = s.taskletQueue_ → s1.log = s.log ++ evs →
      ∃ more, (s1.taskletQueue_ = h :: (rest ++ more) ∧ s1.handed h.id = s.handed h.id) ∨
        (s1.taskletQueue_ = h.dereference :: (rest ++ more) ∧
          s1.handed h.id = s.handed h.id + 1) := by
    intro evs hev hq1 hl1
    refine ⟨[], Or.inl ⟨by rw [hq1, hq, List.append_nil], ?_⟩⟩
    simp only [State.handed, hl1, List.count_append, hev, Nat.add_zero]
  have hpush : ∀ t : TaskletInterface, s1.taskletQueue_ = s.taskletQueue_ ++ [t] →
      s1.log = s.log →
      ∃ more, (s1.taskletQueue_ = h :: (rest ++ more) ∧ s1.handed h.id = s.handed h.id) ∨
        (s1.taskletQueue_ = h.dereference :: (rest ++ more) ∧
          s1.handed h.id = s.handed h.id + 1) := by
    intro t hq1 hl1
    refine ⟨[t], Or.inl ⟨by rw [hq1, hq]; rfl, ?_⟩⟩
    simp only [State.handed, hl1]
  by_cases hnil : s.threads_ = []
  · exact ⟨[], Or.inl ⟨by rw [step_sync_queue hnil hs, hq, List.append_nil],
      step_sync_handed hnil hs h.id⟩⟩
  · cases a with
    | dispatch r l e =>
      obtain ⟨_, _, rfl⟩ := step_dispatch_async hnil hs
      exact hpush _ rfl rfl
    | barrier =>
      obtain ⟨_, ⟨_, rfl⟩ | ⟨_, _, rfl⟩⟩ := step_barrier_async hnil hs
      · exact hsame [] (by simp) rfl (by simp)
      · exact hpush _ rfl rfl
    | barrierWait =>
      obtain ⟨b, k, _, _, rfl⟩ := step_barrierWait hs
      exact hsame [] (by simp) rfl (by simp)
    | barrierWake =>
      obtain ⟨b, k, _, _, _, rfl⟩ := step_barrierWake hs
      exact hsame [] (by simp) rfl (by simp)
    | destroy =>
      obtain ⟨_, _, rfl⟩ := step_destroy_async hnil hs
      exact hpush _ rfl rfl
    | join =>
      obtain ⟨_, _, rfl⟩ := step_join hs
      exact hsame [] (by simp) rfl (by simp)
    | lockRunnerMutex w =>
      obtain ⟨_, _, rfl⟩ := step_lockRunnerMutex hs
      exact hsame [] (by simp) rfl (by simp)
    | dequeue w =>
      obtain ⟨_, _, ⟨_, rfl⟩ | ⟨t, r, _, _, _, rfl⟩ | ⟨t, _, _, rfl⟩ |
        ⟨t, r, hq1, hm1, rfl⟩⟩ := step_dequeue hs
      · exact hsame [] (by simp) rfl (by simp)
      · exact hsame [] (by simp) rfl (by simp)
      · exact hsame [] (by simp) rfl (by simp)
      · rw [hq] at hq1
        simp only [List.cons.injEq] at hq1
        obtain ⟨rfl, rfl⟩ := hq1
        have hne : ¬ h.dereference.referenceCount = 0 := by
          simp only [TaskletInterface.dereference, TaskletInterface.referenceCount]
          omega
        refine ⟨[], Or.inr ⟨?_, ?_⟩⟩
        · simp only [if_neg hne, List.append_nil]
        · simp [State.handed, List.count_append]
    | invoke w =>
      obtain ⟨t, _, rfl⟩ := step_invoke hs
      exact hsame [Event.invoked t.id] (by simp) rfl rfl
    | finish w =>
      obtain ⟨t, _, ⟨_, rfl⟩ | ⟨k, _, _, rfl⟩ | ⟨k, _, _, rfl⟩⟩ := step_finish hs
      · exact hsame [Event.returned t.id] (by simp) rfl rfl
      · exact hsame [Event.returned t.id] (by simp) rfl rfl
      · exact hsame [] (by simp) rfl (by simp)
    | wake w =>
      obtain ⟨t, k, _, _, _, rfl⟩ := step_wake hs
      exact hsame [Event.returned t.id] (by simp) rfl rfl

/-- After any number of steps a head of the queue whose reference count is
not positive is still the head, with its count lowered by the number of times
it was handed out. -/
theorem runActions_keeps_nonpositive (as : List Action) :
    ∀ {s s2 : State} {h : TaskletInterface} {rest : List TaskletInterface},
      s.taskletQueue_ = h :: rest → h.referenceCount_ ≤ 0 → runActions s as = some s2 →
      ∃ (k : Nat) (more : List TaskletInterface),
        s2.taskletQueue_ =
          { h with referenceCount_ := h.referenceCount_ - (k : Int) } :: (rest ++ more) ∧
        s2.handed h.id = s.handed h.id + k := by
  induction as with
  | nil =>
    intro s s2 h rest hq _ hr
    simp only [runActions, Option.some.injEq] at hr
    subst hr
    exact ⟨0, [], by simp [hq], rfl⟩
  | cons a as ih =>
    intro s s2 h rest hq hrc hr
    simp only [runActions] at hr
    split at hr
    · rename_i s1 hs
      obtain ⟨more, ⟨hq1, hh1⟩ | ⟨hq1, hh1⟩⟩ := step_keeps_nonpositive hq hrc hs
      · obtain ⟨k, more2, hq2, hh2⟩ := ih hq1 hrc hr
        exact ⟨k, more ++ more2, by rw [hq2, List.append_assoc], by rw [hh2, hh1]⟩
      · have hrc1 : h.dereference.referenceCount_ ≤ 0 := by
          simp only [TaskletInterface.dereference]; omega
        obtain ⟨k, more2, hq2, hh2⟩ := ih hq1 hrc1 hr
        refine ⟨k + 1, more ++ more2, ?_, ?_⟩
        · rw [hq2, List.append_assoc]
          simp only [TaskletInterface.dereference, List.cons.injEq, and_true,
            TaskletInterface.mk.injEq, true_and]
          push_cast
          omega
        · have hid : h.dereference.id = h.id := rfl
          rw [hid] at hh2
          rw [hh2, hh1]
          omega
    · simp at hr

/-- A tasklet in the queue that was dispatched with a positive reference
count, a value of `int`, has a positive count that is a value of `int`: no
decrement of such a tasklet overflows. -/
theorem Reachable.queued_isInt {n : Nat} (hn : 1 ≤ n) {s : State} (hr : Reachable n s)
    {t d : TaskletInterface} (ht : t ∈ s.taskletQueue_) (hd : d ∈ s.dispatched)
    (hid : d.id = t.id) (hpos : 1 ≤ d.referenceCount_) (hint : d.isInt) :
    1 ≤ t.referenceCount_ ∧ t.isInt := by
  have h := hr.inv hn
  have h6 := h.k6 t ht d hd hid hpos
  have h3 := h.k3 t ht d hd hid
  obtain ⟨_, hhi⟩ := hint
  refine ⟨h6, ?_, ?_⟩
  · simp only [INT_MIN]; omega
  · simp only [INT_MAX] at hhi ⊢; omega

/-- Counterexample to C16 as stated: one worker has acquired `runnerMutex_`
and the head of the queue is a tasklet (not an end marker) with reference
count `INT_MIN`. The decrement of the dequeue step overflows: the count it
leaves, `INT_MIN - 1` in the model, is not a value of `int`, so the step does
not leave the tasklet at the head with its count one less. -/
theorem nonpositive_never_retired_counterexample :
    (∃ s1, step (stateAfter 1 scheduleIntMin) (Action.dequeue 0) = some s1 ∧
      s1.taskletQueue_ =
        [{ id := 0, referenceCount_ := -2147483649, kind := TaskletKind.user 7 false }]) ∧
    ¬ TaskletInterface.isInt
        { id := 0, referenceCount_ := -2147483649, kind := TaskletKind.user 7 false } ∧
    ¬ ∀ (s : State) (h : TaskletInterface) (rest : List TaskletInterface) (w : Nat),
        s.taskletQueue_ = h :: rest → h.isEndMarker = false → h.referenceCount ≤ 0 →
        h.isInt → s.threads_[w]? = some WorkerState.dequeuing →
        s.taskletQueueMutex_ = false →
        ∃ s1 h1, step s (Action.dequeue w) = some s1 ∧ s1.taskletQueue_ = h1 :: rest ∧
          h1.isInt ∧ h1.referenceCount = h.referenceCount - 1 := by
  refine ⟨?_, ?_, ?_⟩
  · exact ⟨stateAfter 1 (scheduleIntMin ++ [Action.dequeue 0]), rfl, by decide⟩
  · intro h
    have := h.1
    revert this
    simp only [INT_MIN]
    decide
  · intro hall
    obtain ⟨s1, h1, _, _, hi, hrc⟩ := hall (stateAfter 1 scheduleIntMin)
      { id := 0, referenceCount_ := -2147483648, kind := TaskletKind.user 7 false } [] 0
      (by decide) (by decide) (by decide)
      (show INT_MIN ≤ _ ∧ _ ≤ INT_MAX from ⟨by decide, by decide⟩) (by decide) (by decide)
    have hlo := hi.1
    simp only [TaskletInterface.referenceCount] at hrc
    simp only [INT_MIN] at hlo
    omega

/-- C16 as amended (reference counts that are not positive). The queue is
`h :: rest`, `h` is not an end marker and its reference count `c` is a value
of `int` that is at most 0.
(1) If `c` is above `INT_MIN`, a worker that has acquired `runnerMutex_` and
gets the queue mutex goes through its dequeue step: it decrements the count
of `h`, which is a value of `int` and not 0 afterwards, leaves `h` (with the
new count) at the head of the queue, and its next step is the call of
`h.run()`.
(2) After any further steps, of workers or of the owner, in which `h` was
handed to a worker `k` times, where `c - k` is not below `INT_MIN`: `h` is
still the head of the queue, in front of `rest` and of what was dispatched
since, its count is `c - k`, a value of `int`, negative if `k ≥ 1`.
(3) `dispatch(h)` on a runner without workers returns at once: no `run()` is
called (the event history is as before) and `h` keeps its count.
Nothing is said about the decrement at `INT_MIN`. -/
theorem nonpositive_never_retired_amended (s : State) (h : TaskletInterface)
    (rest : List TaskletInterface) (hq : s.taskletQueue_ = h :: rest)
    (hm : h.isEndMarker = false) (hrc : h.referenceCount ≤ 0) (hint : h.isInt) :
    (INT_MIN < h.referenceCount →
      ∀ w, s.threads_[w]? = some WorkerState.dequeuing → s.taskletQueueMutex_ = false →
      ∃ s1, step s (Action.dequeue w) = some s1 ∧
        s1.threads_[w]? = some (WorkerState.holding h.dereference) ∧
        h.dereference.referenceCount = h.referenceCount - 1 ∧
        h.dereference.isInt ∧ h.dereference.referenceCount ≠ 0 ∧
        s1.taskletQueue_ = h.dereference :: rest ∧
        ∃ s2, step s1 (Action.invoke w) = some s2 ∧
          s2.log = s.log ++ [Event.handed h.id, Event.invoked h.id] ∧
          s2.taskletQueue_ = h.dereference :: rest) ∧
    (∀ (as : List Action) (s2 : State) (k : Nat), runActions s as = some s2 →
      s2.handed h.id = s.handed h.id + k → INT_MIN ≤ h.referenceCount_ - (k : Int) →
      ∃ more : List TaskletInterface,
        s2.taskletQueue_ =
          { h with referenceCount_ := h.referenceCount_ - (k : Int) } :: (rest ++ more) ∧
        TaskletInterface.isInt { h with referenceCount_ := h.referenceCount_ - (k : Int) } ∧
        (1 ≤ k → h.referenceCount_ - (k : Int) < 0)) ∧
    (∀ s0 : State, s0.threads_ = [] →
      ∃ s1, TaskletRunner.dispatch s0 h = some (s1, h) ∧ s1.log = s0.log ∧
        s1.invoked h.id = s0.invoked h.id ∧ s1.taskletQueue_ = s0.taskletQueue_) := by
  have hrc0 : h.referenceCount_ ≤ 0 := hrc
  obtain ⟨hlo, hhi⟩ := hint
  refine ⟨?_, ?_, ?_⟩
  · intro hmin w hw hfree
    have hmin0 : INT_MIN < h.referenceCount_ := hmin
    have hne : ¬ h.dereference.referenceCount = 0 := by
      simp only [TaskletInterface.dereference, TaskletInterface.referenceCount]
      omega
    obtain ⟨s1, e1, h1⟩ : ∃ s1, step s (Action.dequeue w) = some s1 ∧ s1 = { s with
          threads_ := s.threads_.set w (WorkerState.holding h.dereference),
          taskletQueue_ :=
            if h.dereference.referenceCount = 0 then rest else h.dereference :: rest,
          runnerMutex_ :=
            if (if h.dereference.referenceCount = 0 then rest
                else h.dereference :: rest).isEmpty then s.runnerMutex_ else false,
          log := s.log ++ [Event.handed h.id] } :=
      ⟨_, step_dequeue_eq hw hfree hq hm, rfl⟩
    have hw1 : s1.threads_[w]? = some (WorkerState.holding h.dereference) := by
      rw [h1]; exact getElem?_set_of_getElem? _ hw
    have hq1 : s1.taskletQueue_ = h.dereference :: rest := by
      rw [h1]; simp only [if_neg hne]
    obtain ⟨s2, e2, h2⟩ : ∃ s2, step s1 (Action.invoke w) = some s2 ∧ s2 = { s1 with
          threads_ := s1.threads_.set w (WorkerState.running h.dereference),
          log := s1.log ++ [Event.invoked h.dereference.id] } :=
      ⟨_, step_invoke_eq hw1, rfl⟩
    have hi1 : h.dereference.isInt := by
      simp only [TaskletInterface.isInt, TaskletInterface.dereference, INT_MIN, INT_MAX]
        at hlo hhi hmin0 ⊢
      omega
    refine ⟨s1, e1, hw1, rfl, hi1, hne, hq1, s2, e2, ?_, ?_⟩
    · rw [h2, h1]
      simp [TaskletInterface.dereference]
    · rw [h2]; exact hq1
  · intro as s2 k hr hk hge
    obtain ⟨k2, more, hq2, hh2⟩ := runActions_keeps_nonpositive as hq hrc0 hr
    have hkk : k2 = k := by omega
    subst hkk
    refine ⟨more, hq2, ?_, by intro h1; omega⟩
    simp only [TaskletInterface.isInt, INT_MAX] at hhi ⊢
    exact ⟨hge, by omega⟩
  · intro s0 hnil
    have hemp : s0.threads_.isEmpty = true := by rw [hnil]; rfl
    refine ⟨{ s0 with dispatched := s0.dispatched ++ [h] }, ?_, rfl, rfl, rfl⟩
    simp only [TaskletRunner.dispatch, hemp, if_true]
    exact syncLoop_of_nonpos _ h hrc0

/-- Witness of C16 as amended: a tasklet dispatched with reference count 0 to
a runner with one worker, which has acquired `runnerMutex_`. -/
theorem nonpositive_never_retired_amended_witness :
    (stateAfter 1 [Action.dispatch 0 7 false, Action.lockRunnerMutex 0]).threads_[0]?
      = some WorkerState.dequeuing ∧
    (∃ s1, step (stateAfter 1 [Action.dispatch 0 7 false, Action.lockRunnerMutex 0])
        (Action.dequeue 0) = some s1 ∧
      s1.taskletQueue_ = [{ id := 0, referenceCount_ := -1, kind := TaskletKind.user 7 false }]) ∧
    (∀ (as : List Action) (s2 : State) (k : Nat),
      runActions (stateAfter 1 [Action.dispatch 0 7 false, Action.lockRunnerMutex 0]) as
        = some s2 →
      s2.handed 0 = 0 + k → INT_MIN ≤ (0 : Int) - (k : Int) →
      ∃ more : List TaskletInterface,
        s2.taskletQueue_ =
          { id := 0, referenceCount_ := 0 - (k : Int), kind := TaskletKind.user 7 false }
            :: ([] ++ more) ∧
        TaskletInterface.isInt
          { id := 0, referenceCount_ := 0 - (k : Int), kind := TaskletKind.user 7 false } ∧
        (1 ≤ k → (0 : Int) - (k : Int) < 0)) ∧
    ∃ s1, TaskletRunner.dispatch (initial 0)
        { id := 0, referenceCount_ := 0, kind := TaskletKind.user 7 false }
        = some (s1, { id := 0, referenceCount_ := 0, kind := TaskletKind.user 7 false }) ∧
      s1.log = [] :=
  have h := nonpositive_never_retired_amended
    (stateAfter 1 [Action.dispatch 0 7 false, Action.lockRunnerMutex 0])
    { id := 0, referenceCount_ := 0, kind := TaskletKind.user 7 false } []
    (by decide) (by decide) (by decide)
    (show INT_MIN ≤ _ ∧ _ ≤ INT_MAX from ⟨by decide, by decide⟩)
  ⟨by decide,
   (h.1 (by decide) 0 (by decide) (by decide)).imp (fun _ hs => ⟨hs.1, hs.2.2.2.2.2.1⟩),
   h.2.1,
   (h.2.2 (initial 0) rfl).imp (fun _ hs => ⟨hs.1, hs.2.1⟩)⟩

/-! ### The gate and the queue -/

theorem mem_set_of_ne {α : Type} {l : List α} {w : Nat} {x y : α} (z : α) (hx : x ∈ l)
    (hw : l[w]? = some y) (hne : y ≠ x) : x ∈ l.set w z := by
  obtain ⟨i, hi⟩ := List.mem_iff_getElem?.mp hx
  have hiw : w ≠ i := by
    intro h; subst h
    rw [hw] at hi
    exact hne (Option.some.inj hi)
  have : (l.set w z)[i]? = some x := by rw [List.getElem?_set_ne hiw]; exact hi
  exact List.getElem?_mem this

theorem mem_set_self_of_getElem? {α : Type} {l : List α} {w : Nat} {y : α} (z : α)
    (hw : l[w]? = some y) : z ∈ l.set w z :=
  List.getElem?_mem (getElem?_set_of_getElem? z hw)

/-- As long as no worker has thrown, a queue that is not empty has the gate
open or a worker between the gate and its dequeue step. -/
theorem Reachable.gate_open {n : Nat} (hn : 1 ≤ n) {s : State} (hr : Reachable n s) :
    WorkerState.failed ∉ s.threads_ → s.taskletQueue_ ≠ [] →
      s.runnerMutex_ = false ∨ WorkerState.dequeuing ∈ s.threads_ := by
  induction hr with
  | init => intro _ hq; exact absurd rfl hq
  | step a hr hs ih =>
    rename_i s s1
    have hne : s.threads_ ≠ [] := (hr.inv hn).threads_ne_nil hn
    have hmove : ∀ (w : Nat) (x y : WorkerState), s.threads_[w]? = some x →
        x ≠ WorkerState.failed → x ≠ WorkerState.dequeuing →
        s1.threads_ = s.threads_.set w y → s1.taskletQueue_ = s.taskletQueue_ →
        s1.runnerMutex_ = s.runnerMutex_ →
        WorkerState.failed ∉ s1.threads_ → s1.taskletQueue_ ≠ [] →
        s1.runnerMutex_ = false ∨ WorkerState.dequeuing ∈ s1.threads_ := by
      intro w x y hw hxf hxd ht hq hg hnf hq1
      have hnf0 : WorkerState.failed ∉ s.threads_ := by
        intro hf
        apply hnf
        rw [ht]
        exact mem_set_of_ne y hf hw hxf
      rcases ih hnf0 (by rw [← hq]; exact hq1) with h | h
      · exact Or.inl (by rw [hg]; exact h)
      · refine Or.inr ?_
        rw [ht]
        exact mem_set_of_ne y h hw hxd
    cases a with
    | dispatch r l e =>
      obtain ⟨_, _, rfl⟩ := step_dispatch_async hne hs
      intro _ _; exact Or.inl rfl
    | barrier =>
      obtain ⟨_, ⟨_, rfl⟩ | ⟨_, _, rfl⟩⟩ := step_barrier_async hne hs
      · exact ih
      · intro _ _; exact Or.inl rfl
    | barrierWait =>
      obtain ⟨b, k, _, _, rfl⟩ := step_barrierWait hs
      exact ih
    | barrierWake =>
      obtain ⟨b, k, _, _, _, rfl⟩ := step_barrierWake hs
      exact ih
    | destroy =>
      obtain ⟨_, _, rfl⟩ := step_destroy_async hne hs
      intro _ _; exact Or.inl rfl
    | join =>
      obtain ⟨_, _, rfl⟩ := step_join hs
      exact ih
    | lockRunnerMutex w =>
      obtain ⟨hw, _, rfl⟩ := step_lockRunnerMutex hs
      intro _ _
      exact Or.inr (mem_set_self_of_getElem? _ hw)
    | dequeue w =>
      obtain ⟨hw, _, ⟨hq0, rfl⟩ | ⟨t, r, _, _, _, rfl⟩ | ⟨t, _, _, rfl⟩ |
        ⟨t, r, hq1, hm1, rfl⟩⟩ := step_dequeue hs
      · intro _ hq; exact absurd hq0 hq
      · intro hnf _
        exact absurd (mem_set_self_of_getElem? _ hw) hnf
      · intro _ _; exact Or.inl rfl
      · intro _ hq
        refine Or.inl ?_
        simp only at hq ⊢
        rw [if_neg]
        intro hemp
        exact hq (List.isEmpty_iff.mp hemp)
    | invoke w =>
      obtain ⟨t, hw, rfl⟩ := step_invoke hs
      exact hmove w _ _ hw (by simp) (by simp) rfl rfl rfl
    | finish w =>
      obtain ⟨t, hw, ⟨_, rfl⟩ | ⟨k, _, _, rfl⟩ | ⟨k, _, _, rfl⟩⟩ := step_finish hs
      · exact hmove w _ _ hw (by simp) (by simp) rfl rfl rfl
      · exact hmove w _ _ hw (by simp) (by simp) rfl rfl rfl
      · exact hmove w _ _ hw (by simp) (by simp) rfl rfl rfl
    | wake w =>
      obtain ⟨t, k, hw, _, _, rfl⟩ := step_wake hs
      exact hmove w _ _ hw (by simp) (by simp) rfl rfl rfl

/-- C15 (no lost wake-up). Runner with `n ≥ 1` workers, `s` a reachable state
in which no worker has thrown the consistency error and the queue is not
empty. Then `runnerMutex_` is unlocked, or some worker has acquired it and
has not gone through its dequeue step yet. So it does not happen that the
gate is closed while every worker is parked at the gate, busy with a tasklet
or gone. -/
theorem no_lost_wakeup (n : Nat) (hn : 1 ≤ n) (s : State) (hr : Reachable n s)
    (hnf : WorkerState.failed ∉ s.threads_) (hq : s.taskletQueue_ ≠ []) :
    (s.runnerMutex_ = false ∨ ∃ w : Nat, s.threads_[w]? = some WorkerState.dequeuing) ∧
    ¬ (s.runnerMutex_ = true ∧ ∀ x ∈ s.threads_, x ≠ WorkerState.dequeuing) := by
  have h := hr.gate_open hn hnf hq
  constructor
  · rcases h with h | h
    · exact Or.inl h
    · exact Or.inr (List.mem_iff_getElem?.mp h)
  · rintro ⟨hg, hall⟩
    rcases h with h | h
    · rw [hg] at h; cases h
    · exact hall _ h rfl

/-- Witness of C15: one worker has acquired `runnerMutex_` (which is locked)
and has not yet taken the tasklet that is in the queue. -/
theorem no_lost_wakeup_witness :
    (stateAfter 1 (scheduleHandOut.take 2)).runnerMutex_ = true ∧
    (stateAfter 1 (scheduleHandOut.take 2)).taskletQueue_ ≠ [] ∧
    ((stateAfter 1 (scheduleHandOut.take 2)).runnerMutex_ = false ∨
      ∃ w : Nat, (stateAfter 1 (scheduleHandOut.take 2)).threads_[w]?
        = some WorkerState.dequeuing) ∧
    ¬ ((stateAfter 1 (scheduleHandOut.take 2)).runnerMutex_ = true ∧
      ∀ x ∈ (stateAfter 1 (scheduleHandOut.take 2)).threads_, x ≠ WorkerState.dequeuing) :=
  ⟨by decide, by decide,
   no_lost_wakeup 1 (by decide) (stateAfter 1 (scheduleHandOut.take 2))
    (reachable_stateAfter 1 (scheduleHandOut.take 2) (by decide)) (by decide) (by decide)⟩

/-! ### The shutdown of all workers -/

theorem step_dequeue_marker_eq {s : State} {w : Nat} {m : TaskletInterface}
    (hw : s.threads_[w]? = some WorkerState.dequeuing) (hm : s.taskletQueueMutex_ = false)
    (hq : s.taskletQueue_ = [m]) (ht : m.isEndMarker = true) :
    step s (Action.dequeue w) =
      some { s with threads_ := s.threads_.set w WorkerState.terminated,
                    runnerMutex_ := false } := by
  simp [step, TaskletRunner.dequeue, hw, hm, hq, ht]

theorem step_destroy_async_eq {s : State} (hne : s.threads_ ≠ [])
    (hc : s.caller = CallerState.ready) (hm : s.taskletQueueMutex_ = false) :
    step s Action.destroy =
      some { s with
        dispatched := s.dispatched ++ [TerminateThreadTasklet.create s.dispatched.length],
        taskletQueue_ := s.taskletQueue_ ++ [TerminateThreadTasklet.create s.dispatched.length],
        runnerMutex_ := false,
        caller := CallerState.joining } := by
  simp only [step, destroy_async hne, hc, hm, if_true, Bool.false_eq_true, if_false]

theorem step_join_eq {s : State} (hc : s.caller = CallerState.joining)
    (hall : ∀ x ∈ s.threads_, x = WorkerState.terminated) :
    step s Action.join = some { s with caller := CallerState.destroyed } := by
  have h : s.threads_.all (fun x => decide (x = WorkerState.terminated)) = true := by
    rw [List.all_eq_true]
    intro x hx
    simp [hall x hx]
  simp only [step, TaskletRunner.join, hc, h, and_self, if_true]

/-- A parked worker gets through the open gate, finds the end marker as the
only entry of the queue, unlocks `runnerMutex_` and returns from `run_()`. -/
theorem exit_worker {s : State} {w : Nat} {m : TaskletInterface}
    (hw : s.threads_[w]? = some WorkerState.parked) (hg : s.runnerMutex_ = false)
    (hm : s.taskletQueueMutex_ = false) (hq : s.taskletQueue_ = [m])
    (ht : m.isEndMarker = true) :
    ∃ s1, Steps s s1 ∧ s1.threads_ = s.threads_.set w WorkerState.terminated ∧
      s1.taskletQueue_ = [m] ∧ s1.runnerMutex_ = false ∧ s1.taskletQueueMutex_ = false ∧
      s1.caller = s.caller ∧ s1.dispatched = s.dispatched ∧ s1.log = s.log := by
  obtain ⟨sa, ea, ha⟩ : ∃ sa, step s (Action.lockRunnerMutex w) = some sa ∧
      sa = { s with threads_ := s.threads_.set w WorkerState.dequeuing, runnerMutex_ := true } :=
    ⟨_, step_lock_eq hw hg, rfl⟩
  have hwa : sa.threads_[w]? = some WorkerState.dequeuing := by
    rw [ha]; exact getElem?_set_of_getElem? WorkerState.dequeuing hw
  have hma : sa.taskletQueueMutex_ = false := by rw [ha]; exact hm
  have hqa : sa.taskletQueue_ = [m] := by rw [ha]; exact hq
  obtain ⟨sb, eb, hb⟩ : ∃ sb, step sa (Action.dequeue w) = some sb ∧ sb = { sa with
        threads_ := sa.threads_.set w WorkerState.terminated, runnerMutex_ := false } :=
    ⟨_, step_dequeue_marker_eq hwa hma hqa ht, rfl⟩
  refine ⟨sb, (Steps.single _ ea).trans (Steps.single _ eb), ?_, ?_, ?_, ?_, ?_, ?_, ?_⟩
  · rw [hb, ha]; simp only [List.set_set]
  · rw [hb]; exact hqa
  · rw [hb]
  · rw [hb]; exact hma
  · rw [hb, ha]
  · rw [hb, ha]
  · rw [hb, ha]

/-- The workers `w`, `w + 1`, ... find the end marker one after the other,
each opening the gate for the next. -/
theorem exit_all {n : Nat} (m : TaskletInterface) (ht : m.isEndMarker = true) (k : Nat) :
    ∀ (w : Nat) (s : State), w + k = n → Exited n w s → s.taskletQueue_ = [m] →
      s.runnerMutex_ = false →
      ∃ s1, Steps s s1 ∧ Exited n n s1 ∧ s1.taskletQueue_ = [m] ∧ s1.runnerMutex_ = false ∧
        s1.caller = s.caller ∧ s1.dispatched = s.dispatched ∧ s1.log = s.log := by
  induction k with
  | zero =>
    intro w s hwk hE hq hg
    have hw : w = n := by omega
    subst hw
    exact ⟨s, Steps.refl s, hE, hq, hg, rfl, rfl, rfl⟩
  | succ k ih =>
    intro w s hwk hE hq hg
    obtain ⟨hlen, hterm, hpark, hmx⟩ := hE
    obtain ⟨s1, hs1, ht1, hq1, hg1, hm1, hc1, hd1, hl1⟩ :=
      exit_worker (hpark w (Nat.le_refl w) (by omega)) hg hmx hq ht
    have hE1 : Exited n (w + 1) s1 := by
      refine ⟨?_, ?_, ?_, hm1⟩
      · rw [ht1]; simp only [List.length_set]; exact hlen
      · intro i hi
        rw [ht1, List.getElem?_set]
        by_cases hiw : w = i
        · rw [if_pos hiw, if_pos (by omega)]
        · rw [if_neg hiw]
          exact hterm i (by omega)
      · intro i hi1 hi2
        rw [ht1, List.getElem?_set, if_neg (by omega)]
        exact hpark i (by omega) hi2
    obtain ⟨s2, hs2, hE2, hq2, hg2, hc2, hd2, hl2⟩ := ih (w + 1) s1 (by omega) hE1 hq1 hg1
    exact ⟨s2, hs1.trans hs2, hE2, hq2, hg2, by rw [hc2, hc1], by rw [hd2, hd1],
      by rw [hl2, hl1]⟩

/-- The destructor of a runner whose workers are all parked and whose queue
is empty gets through: every worker returns from `run_()` and the joins
return. -/
theorem destroy_round {n : Nat} (hn : 1 ≤ n) {s : State} (hQ : Quiet n s)
    (hq : s.taskletQueue_ = []) (hc : s.caller = CallerState.ready) :
    ∃ s1, Steps s s1 ∧ s1.threads_.length = n ∧
      (∀ x ∈ s1.threads_, x = WorkerState.terminated) ∧
      s1.caller = CallerState.destroyed ∧
      s1.dispatched = s.dispatched ++ [TerminateThreadTasklet.create s.dispatched.length] ∧
      s1.taskletQueue_ = [TerminateThreadTasklet.create s.dispatched.length] ∧
      s1.log = s.log := by
  obtain ⟨hlen, hpark, hmx⟩ := hQ
  have hne : s.threads_ ≠ [] := by
    intro h0; rw [h0] at hlen; simp at hlen; omega
  obtain ⟨sa, ea, ha⟩ : ∃ sa, step s Action.destroy = some sa ∧ sa = { s with
        dispatched := s.dispatched ++ [TerminateThreadTasklet.create s.dispatched.length],
        taskletQueue_ := s.taskletQueue_ ++ [TerminateThreadTasklet.create s.dispatched.length],
        runnerMutex_ := false,
        caller := CallerState.joining } :=
    ⟨_, step_destroy_async_eq hne hc hmx, rfl⟩
  rw [hq, List.nil_append] at ha
  have hE0 : Exited n 0 sa := by
    rw [ha]
    exact ⟨hlen, fun i hi => absurd hi (by omega), fun i _ hi => hpark i hi, hmx⟩
  obtain ⟨sb, hsb, hEb, hqb, _, hcb, hdb, hlb⟩ :=
    exit_all (TerminateThreadTasklet.create s.dispatched.length) rfl n 0 sa (by omega) hE0
      (by rw [ha]) (by rw [ha])
  have hallb : ∀ x ∈ sb.threads_, x = WorkerState.terminated := by
    intro x hx
    obtain ⟨i, hi⟩ := List.mem_iff_getElem?.mp hx
    have hlt : i < sb.threads_.length := by
      rcases List.getElem?_eq_some.mp hi with ⟨h, _⟩
      exact h
    rw [hEb.2.1 i (by rw [← hEb.1]; exact hlt)] at hi
    exact (Option.some.inj hi).symm
  have hcb' : sb.caller = CallerState.joining := by rw [hcb, ha]
  obtain ⟨sc, ec, hsc⟩ : ∃ sc, step sb Action.join = some sc ∧
      sc = { sb with caller := CallerState.destroyed } :=
    ⟨_, step_join_eq hcb' hallb, rfl⟩
  refine ⟨sc, (Steps.single _ ea).trans (hsb.trans (Steps.single _ ec)), ?_, ?_, ?_, ?_, ?_, ?_⟩
  · rw [hsc]; exact hEb.1
  · rw [hsc]; exact hallb
  · rw [hsc]
  · rw [hsc]; simp only; rw [hdb, ha]
  · rw [hsc]; exact hqb
  · rw [hsc]; simp only; rw [hlb, ha]

/-- Once the destructor has dispatched its marker, no step dispatches
anything. -/
theorem step_after_destroy {s s1 : State} {a : Action}
    (hc : s.caller = CallerState.joining ∨ s.caller = CallerState.destroyed)
    (hs : step s a = some s1) :
    (s1.caller = CallerState.joining ∨ s1.caller = CallerState.destroyed) ∧
      s1.dispatched = s.dispatched := by
  have hnr : ¬ s.caller = CallerState.ready := by
    rcases hc with h | h <;> rw [h] <;> simp
  cases a with
  | dispatch r l e =>
    simp only [step, if_neg hnr] at hs
    cases hs
  | barrier =>
    simp only [step, if_neg hnr] at hs
    cases hs
  | barrierWait =>
    obtain ⟨b, k, hb, _, _⟩ := step_barrierWait hs
    rcases hc with h | h <;> rw [h] at hb <;> cases hb
  | barrierWake =>
    obtain ⟨b, k, hb, _, _, _⟩ := step_barrierWake hs
    rcases hc with h | h <;> rw [h] at hb <;> cases hb
  | destroy =>
    simp only [step, if_neg hnr] at hs
    cases hs
  | join =>
    obtain ⟨_, _, rfl⟩ := step_join hs
    exact ⟨Or.inr rfl, rfl⟩
  | lockRunnerMutex w =>
    obtain ⟨_, _, rfl⟩ := step_lockRunnerMutex hs
    exact ⟨hc, rfl⟩
  | dequeue w =>
    obtain ⟨_, _, ⟨_, rfl⟩ | ⟨t, rest, _, _, _, rfl⟩ | ⟨t, _, _, rfl⟩ |
      ⟨t, rest, _, _, rfl⟩⟩ := step_dequeue hs <;> exact ⟨hc, rfl⟩
  | invoke w =>
    obtain ⟨t, _, rfl⟩ := step_invoke hs
    exact ⟨hc, rfl⟩
  | finish w =>
    obtain ⟨t, _, ⟨_, rfl⟩ | ⟨m, _, _, rfl⟩ | ⟨m, _, _, rfl⟩⟩ := step_finish hs <;>
      exact ⟨hc, rfl⟩
  | wake w =>
    obtain ⟨t, m, _, _, _, rfl⟩ := step_wake hs
    exact ⟨hc, rfl⟩

theorem runActions_after_destroy (as : List Action) :
    ∀ {s s2 : State}, (s.caller = CallerState.joining ∨ s.caller = CallerState.destroyed) →
      runActions s as = some s2 → s2.dispatched = s.dispatched := by
  induction as with
  | nil =>
    intro s s2 _ hr
    simp only [runActions, Option.some.injEq] at hr
    subst hr; rfl
  | cons a as ih =>
    intro s s2 hc hr
    simp only [runActions] at hr
    split at hr
    · rename_i s1 hs
      obtain ⟨hc1, hd1⟩ := step_after_destroy hc hs
      rw [ih hc1 hr, hd1]
    · simp at hr

/-- Counterexample to C12 as stated: two workers, the destructor has
dispatched its marker and worker 0 has acquired `runnerMutex_`, which is
locked. In its dequeue step worker 0 finds the marker, returns from `run_()`
and leaves `runnerMutex_` unlocked: it does signal the gate on its way
out. -/
theorem single_shutdown_signal_counterexample :
    ¬ ∀ (n : Nat) (s s1 : State) (w : Nat), 1 < n → Reachable n s →
        step s (Action.dequeue w) = some s1 →
        s1.threads_[w]? = some WorkerState.terminated →
        s1.runnerMutex_ = s.runnerMutex_ := by
  intro hall
  have := hall 2 (stateAfter 2 scheduleDestroyTwo)
    (stateAfter 2 (scheduleDestroyTwo ++ [Action.dequeue 0])) 0 (by decide)
    (reachable_stateAfter 2 scheduleDestroyTwo (by decide)) rfl (by decide)
  revert this
  decide

/-- C12 as amended (shutdown of a runner with more than one worker). Runner
with `n > 1` workers, `s` a reachable state.
(1) The destructor, called when the queue mutex is free, dispatches one
`TerminateThreadTasklet`: it is appended to the dispatch history and to the
queue, `runnerMutex_` is unlocked (one signal), no `run()` is called, and the
owner goes on to the joins.
(2) The dispatch history never holds more than one `TerminateThreadTasklet`,
and once the destructor has dispatched its marker nothing is dispatched any
more.
(3) A worker that has acquired `runnerMutex_` and finds an end marker as the
only entry of the queue returns from `run_()`, leaves the marker in the
queue, calls no `run()`, and unlocks `runnerMutex_` before it returns, so
that any worker parked at the gate can acquire `runnerMutex_` and look at the
same marker.
(4) If all workers are parked, the queue is empty and the owner calls the
destructor, there is a run in which every one of the `n` workers returns from
`run_()` and the joins return, with that one marker dispatched and still in
the queue. -/
theorem single_shutdown_signal_amended (n : Nat) (hn : 1 < n) (s : State)
    (hr : Reachable n s) :
    (s.caller = CallerState.ready → s.taskletQueueMutex_ = false →
      ∃ s1, step s Action.destroy = some s1 ∧
        s1.dispatched = s.dispatched ++ [TerminateThreadTasklet.create s.dispatched.length] ∧
        s1.taskletQueue_ =
          s.taskletQueue_ ++ [TerminateThreadTasklet.create s.dispatched.length] ∧
        s1.runnerMutex_ = false ∧ s1.log = s.log ∧ s1.threads_ = s.threads_ ∧
        s1.caller = CallerState.joining) ∧
    ((∀ d1 ∈ s.dispatched, ∀ d2 ∈ s.dispatched, d1.kind = TaskletKind.terminateThread →
        d2.kind = TaskletKind.terminateThread → d1 = d2) ∧
      ((s.caller = CallerState.joining ∨ s.caller = CallerState.destroyed) →
        ∀ as s2, runActions s as = some s2 → s2.dispatched = s.dispatched)) ∧
    (∀ (w : Nat) (m : TaskletInterface), s.threads_[w]? = some WorkerState.dequeuing →
      s.taskletQueueMutex_ = false → s.taskletQueue_ = [m] → m.isEndMarker = true →
      ∃ s1, step s (Action.dequeue w) = some s1 ∧
        s1.threads_[w]? = some WorkerState.terminated ∧
        s1.runnerMutex_ = false ∧ s1.taskletQueue_ = [m] ∧ s1.log = s.log ∧
        ∀ w2 : Nat, s1.threads_[w2]? = some WorkerState.parked →
          ∃ s2, step s1 (Action.lockRunnerMutex w2) = some s2 ∧
            s2.threads_[w2]? = some WorkerState.dequeuing ∧ s2.taskletQueue_ = [m]) ∧
    (Quiet n s → s.taskletQueue_ = [] → s.caller = CallerState.ready →
      ∃ s2, Steps s s2 ∧ s2.threads_.length = n ∧
        (∀ x ∈ s2.threads_, x = WorkerState.terminated) ∧
        s2.caller = CallerState.destroyed ∧
        s2.dispatched = s.dispatched ++ [TerminateThreadTasklet.create s.dispatched.length] ∧
        s2.taskletQueue_ = [TerminateThreadTasklet.create s.dispatched.length] ∧
        s2.log = s.log) := by
  have hn1 : 1 ≤ n := by omega
  have hi := hr.inv hn1
  have hS := hr.shutdownInv hn1
  have hne : s.threads_ ≠ [] := hi.threads_ne_nil hn1
  refine ⟨?_, ⟨?_, ?_⟩, ?_, ?_⟩
  · intro hc hm
    exact ⟨_, step_destroy_async_eq hne hc hm, rfl, rfl, rfl, rfl, rfl, rfl⟩
  · intro d1 hd1 d2 hd2 hk1 hk2
    have h1 := (hS.tm d1 hd1 hk1).1
    have h2 := (hS.tm d2 hd2 hk2).1
    exact hi.eq_of_id hd1 hd2 (by omega)
  · intro hc as s2 hrun
    exact runActions_after_destroy as hc hrun
  · intro w m hw hfree hq hm
    obtain ⟨s1, e1, h1⟩ : ∃ s1, step s (Action.dequeue w) = some s1 ∧ s1 = { s with
          threads_ := s.threads_.set w WorkerState.terminated, runnerMutex_ := false } :=
      ⟨_, step_dequeue_marker_eq hw hfree hq hm, rfl⟩
    refine ⟨s1, e1, ?_, ?_, ?_, ?_, ?_⟩
    · rw [h1]; exact getElem?_set_of_getElem? _ hw
    · rw [h1]
    · rw [h1]; exact hq
    · rw [h1]
    · intro w2 hw2
      have hg1 : s1.runnerMutex_ = false := by rw [h1]
      refine ⟨_, step_lock_eq hw2 hg1, getElem?_set_of_getElem? _ hw2, ?_⟩
      rw [h1]; exact hq
  · intro hQ hq hc
    exact destroy_round hn1 hQ hq hc

/-- Witness of C12 as amended: two workers, the destructor has dispatched its
marker and worker 0 has acquired `runnerMutex_`; it returns from `run_()`
with `runnerMutex_` unlocked, and worker 1 can follow it. -/
theorem single_shutdown_signal_amended_witness :
    (stateAfter 2 scheduleDestroyTwo).runnerMutex_ = true ∧
    (∃ s1, step (stateAfter 2 scheduleDestroyTwo) (Action.dequeue 0) = some s1 ∧
      s1.threads_[0]? = some WorkerState.terminated ∧
      s1.runnerMutex_ = false ∧ s1.taskletQueue_ = [TerminateThreadTasklet.create 0] ∧
      s1.log = (stateAfter 2 scheduleDestroyTwo).log ∧
      ∀ w2 : Nat, s1.threads_[w2]? = some WorkerState.parked →
        ∃ s2, step s1 (Action.lockRunnerMutex w2) = some s2 ∧
          s2.threads_[w2]? = some WorkerState.dequeuing ∧
          s2.taskletQueue_ = [TerminateThreadTasklet.create 0]) ∧
    (stateAfter 2 scheduleDestroyAll).threads_
      = [WorkerState.terminated, WorkerState.terminated] ∧
    (stateAfter 2 scheduleDestroyAll).caller = CallerState.destroyed :=
  ⟨by decide,
   (single_shutdown_signal_amended 2 (by decide) (stateAfter 2 scheduleDestroyTwo)
      (reachable_stateAfter 2 scheduleDestroyTwo (by decide))).2.2.1 0
      (TerminateThreadTasklet.create 0) (by decide) (by decide) (by decide) (by decide),
   by decide, by decide⟩

/-! ### Looking at an empty queue -/

theorem single_set {α : Type} {l : List α} {w : Nat} {x y : α} (z : α) (hl : l = [x])
    (hw : l[w]? = some y) : y = x ∧ l.set w z = [z] := by
  subst hl
  cases w with
  | zero =>
    simp only [List.getElem?_cons_zero, Option.some.injEq] at hw
    exact ⟨hw.symm, rfl⟩
  | succ w => simp at hw

/-- With one worker, the worker gets past the gate only when the queue is
not empty. -/
theorem Reachable.singleWorkerInv {s : State} (hr : Reachable 1 s) : SingleWorkerInv s := by
  induction hr with
  | init =>
    refine ⟨WorkerState.parked, rfl, by simp, ?_, by simp⟩
    intro h; cases h
  | step a hr hs ih =>
    rename_i s s1
    obtain ⟨x, ht, hx, hg, hd⟩ := ih
    have hne : s.threads_ ≠ [] := by rw [ht]; simp
    have hpush : ∀ (t : TaskletInterface) (s2 : State), s2.threads_ = s.threads_ →
        s2.taskletQueue_ = s.taskletQueue_ ++ [t] → SingleWorkerInv s2 := by
      intro t s2 ht2 hq2
      refine ⟨x, by rw [ht2, ht], hx, fun _ => by rw [hq2]; simp, fun hxd => ⟨by rw [hq2]; simp, ?_⟩⟩
      intro _
      have h0 := (hd hxd).1
      have : 1 ≤ s.taskletQueue_.length := List.length_pos.mpr h0
      rw [hq2, List.length_append, List.length_singleton]
      omega
    have hsame : ∀ s2 : State, s2.threads_ = s.threads_ →
        s2.taskletQueue_ = s.taskletQueue_ → s2.runnerMutex_ = s.runnerMutex_ →
        SingleWorkerInv s2 := by
      intro s2 ht2 hq2 hg2
      refine ⟨x, by rw [ht2, ht], hx, by rw [hq2, hg2]; exact hg, ?_⟩
      rw [hq2, hg2]; exact hd
    have hmove : ∀ (w : Nat) (y z : WorkerState) (s2 : State), s.threads_[w]? = some y →
        s2.threads_ = s.threads_.set w z → z ≠ WorkerState.undefinedFront →
        z ≠ WorkerState.dequeuing → s2.taskletQueue_ = s.taskletQueue_ →
        s2.runnerMutex_ = s.runnerMutex_ → SingleWorkerInv s2 := by
      intro w y z s2 hw ht2 hz1 hz2 hq2 hg2
      refine ⟨z, by rw [ht2]; exact (single_set z ht hw).2, hz1, by rw [hq2, hg2]; exact hg, ?_⟩
      intro hzd; exact absurd hzd hz2
    cases a with
    | dispatch r l e =>
      obtain ⟨_, _, rfl⟩ := step_dispatch_async hne hs
      exact hpush _ _ rfl rfl
    | barrier =>
      obtain ⟨_, ⟨_, rfl⟩ | ⟨_, _, rfl⟩⟩ := step_barrier_async hne hs
      · exact ⟨x, ht, hx, hg, hd⟩
      · exact hpush _ _ rfl rfl
    | barrierWait =>
      obtain ⟨b, k, _, _, rfl⟩ := step_barrierWait hs
      exact hsame _ rfl rfl rfl
    | barrierWake =>
      obtain ⟨b, k, _, _, _, rfl⟩ := step_barrierWake hs
      exact hsame _ rfl rfl rfl
    | destroy =>
      obtain ⟨_, _, rfl⟩ := step_destroy_async hne hs
      exact hpush _ _ rfl rfl
    | join =>
      obtain ⟨_, _, rfl⟩ := step_join hs
      exact hsame _ rfl rfl rfl
    | lockRunnerMutex w =>
      obtain ⟨hw, hg0, rfl⟩ := step_lockRunnerMutex hs
      refine ⟨WorkerState.dequeuing, (single_set _ ht hw).2, by simp, ?_, ?_⟩
      · intro h; cases h
      · intro _
        exact ⟨hg hg0, fun h => by cases h⟩
    | dequeue w =>
      obtain ⟨hw, _, ⟨hq0, rfl⟩ | ⟨t, r, _, _, _, rfl⟩ | ⟨t, hq1, _, rfl⟩ |
        ⟨t, r, hq1, hm1, rfl⟩⟩ := step_dequeue hs
      · have hxd : x = WorkerState.dequeuing := (single_set WorkerState.parked ht hw).1.symm
        exact absurd hq0 (hd hxd).1
      · exact hmove w _ _ _ hw rfl (by simp) (by simp) rfl rfl
      · refine ⟨WorkerState.terminated, (single_set _ ht hw).2, by simp, ?_, by simp⟩
        intro _
        rw [hq1]; simp
      · have hxd : x = WorkerState.dequeuing := (single_set WorkerState.parked ht hw).1.symm
        have h2 := (hd hxd).2
        refine ⟨WorkerState.holding t.dereference, (single_set _ ht hw).2, by simp, ?_, by simp⟩
        intro hgate hq2
        simp only at hgate hq2
        rw [hq2] at hgate
        simp only [List.isEmpty_nil, if_true] at hgate
        have hlen := h2 hgate
        rw [hq1, List.length_cons] at hlen
        have hr0 : r ≠ [] := by
          intro h0; rw [h0] at hlen; simp at hlen
        split at hq2
        · exact hr0 hq2
        · cases hq2
    | invoke w =>
      obtain ⟨t, hw, rfl⟩ := step_invoke hs
      exact hmove w _ _ _ hw rfl (by simp) (by simp) rfl rfl
    | finish w =>
      obtain ⟨t, hw, ⟨_, rfl⟩ | ⟨k, _, _, rfl⟩ | ⟨k, _, _, rfl⟩⟩ := step_finish hs
      · exact hmove w _ _ _ hw rfl (by simp) (by simp) rfl rfl
      · exact hmove w _ _ _ hw rfl (by simp) (by simp) rfl rfl
      · exact hmove w _ _ _ hw rfl (by simp) (by simp) rfl rfl
    | wake w =>
      obtain ⟨t, k, hw, _, _, rfl⟩ := step_wake hs
      exact hmove w _ _ _ hw rfl (by simp) (by simp) rfl rfl

/-- C14 (workers park on an empty queue): what the code does with two
workers on the schedule `scheduleRace`, which consists of two `dispatch`
calls and steps of the workers only.
(1) After six steps (both workers acquired `runnerMutex_`, one after each
dispatch, and both went through their dequeue step) the queue is empty,
`runnerMutex_` is unlocked and no worker is between the gate and its dequeue
step: worker 0 unlocked `runnerMutex_` because the second tasklet was still
in the queue, and worker 1, already past the gate, took that tasklet.
(2) Worker 0 then runs its tasklet, acquires `runnerMutex_` again (nine
steps) and, with the queue mutex, evaluates `taskletQueue_.front()` on the
empty queue.
(3) With one worker this does not happen: in every reachable state the
worker has not evaluated `front()` on an empty queue, the queue is not empty
when the worker is between the gate and its dequeue step, and `runnerMutex_`
is locked when the queue is empty. -/
theorem front_on_empty_queue :
    (Reachable 2 (stateAfter 2 (scheduleRace.take 6)) ∧
      (stateAfter 2 (scheduleRace.take 6)).taskletQueue_ = [] ∧
      (stateAfter 2 (scheduleRace.take 6)).runnerMutex_ = false ∧
      (∀ x ∈ (stateAfter 2 (scheduleRace.take 6)).threads_, x ≠ WorkerState.dequeuing)) ∧
    (Reachable 2 (stateAfter 2 scheduleRace) ∧
      (stateAfter 2 (scheduleRace.take 9)).threads_[0]? = some WorkerState.dequeuing ∧
      (stateAfter 2 (scheduleRace.take 9)).taskletQueue_ = [] ∧
      step (stateAfter 2 (scheduleRace.take 9)) (Action.dequeue 0)
        = some (stateAfter 2 scheduleRace) ∧
      (stateAfter 2 scheduleRace).threads_[0]? = some WorkerState.undefinedFront) ∧
    (∀ s, Reachable 1 s →
      (∀ x ∈ s.threads_, x ≠ WorkerState.undefinedFront) ∧
      (∀ w : Nat, s.threads_[w]? = some WorkerState.dequeuing → s.taskletQueue_ ≠ []) ∧
      (s.taskletQueue_ = [] → s.runnerMutex_ = true)) := by
  refine ⟨⟨reachable_stateAfter 2 _ (by decide), by decide, by decide, by decide⟩,
    ⟨reachable_stateAfter 2 _ (by decide), by decide, by decide, rfl, by decide⟩, ?_⟩
  intro s hr
  obtain ⟨x, ht, hx, hg, hd⟩ := hr.singleWorkerInv
  refine ⟨?_, ?_, ?_⟩
  · intro y hy
    rw [ht, List.mem_singleton] at hy
    rw [hy]; exact hx
  · intro w hw
    exact (hd (single_set WorkerState.parked ht hw).1.symm).1
  · intro hq
    cases hgate : s.runnerMutex_ with
    | true => rfl
    | false => exact absurd hq (hg hgate)

end Ewoms
